import Mathlib

/-
Verification development for the compare package: a generic deep-equality
comparator for Go values.  The source is shallowly embedded: Go strings are
byte lists, Go runtime values are an inductive type carrying their reflect
type, the comparison state (error list, visited set, one-shot zero flag,
channel buffers) is threaded explicitly, and recursion is fuel-indexed so
that every definition is executable.
-/

namespace Compare

/-! ### String differ (string.go)

Go strings are modelled as byte lists (`List Nat`, each entry < 256 for
real strings; the definitions are total regardless).  `utf8DecodeRune`
embeds `unicode/utf8.DecodeRuneInString` restricted to what it returns:
the first rune and its encoded width. -/

/-- The replacement character U+FFFD, `utf8.RuneError`. -/
def runeError : Nat := 0xFFFD

/-- First decoded rune and its width, after `utf8.DecodeRuneInString`.
Returns (RuneError, 0) on empty input and (RuneError, 1) on any
encoding error, exactly as the Go library does. -/
def utf8DecodeRune (s : List Nat) : Nat × Nat :=
  match s with
  | [] => (runeError, 0)
  | s0 :: rest =>
    if s0 < 0x80 then (s0, 1)
    else if s0 < 0xC2 then (runeError, 1)
    else if s0 ≤ 0xDF then
      match rest with
      | s1 :: _ =>
        if 0x80 ≤ s1 ∧ s1 ≤ 0xBF then ((s0 % 0x20) * 0x40 + s1 % 0x40, 2)
        else (runeError, 1)
      | [] => (runeError, 1)
    else if s0 ≤ 0xEF then
      let lo := if s0 = 0xE0 then 0xA0 else 0x80
      let hi := if s0 = 0xED then 0x9F else 0xBF
      match rest with
      | s1 :: s2 :: _ =>
        if lo ≤ s1 ∧ s1 ≤ hi then
          if 0x80 ≤ s2 ∧ s2 ≤ 0xBF then
            ((s0 % 0x10) * 0x1000 + (s1 % 0x40) * 0x40 + s2 % 0x40, 3)
          else (runeError, 1)
        else (runeError, 1)
      | _ => (runeError, 1)
    else if s0 ≤ 0xF4 then
      let lo := if s0 = 0xF0 then 0x90 else 0x80
      let hi := if s0 = 0xF4 then 0x8F else 0xBF
      match rest with
      | s1 :: s2 :: s3 :: _ =>
        if lo ≤ s1 ∧ s1 ≤ hi then
          if 0x80 ≤ s2 ∧ s2 ≤ 0xBF then
            if 0x80 ≤ s3 ∧ s3 ≤ 0xBF then
              ((s0 % 0x8) * 0x40000 + (s1 % 0x40) * 0x1000 +
                (s2 % 0x40) * 0x40 + s3 % 0x40, 4)
            else (runeError, 1)
          else (runeError, 1)
        else (runeError, 1)
      | _ => (runeError, 1)
    else (runeError, 1)

/-- The scanning loop of `sdiff`, iterating i while i < length with Go
locals `start` and `end` (sentinel -1).  The loop body is the case split
of the two sequential ifs of the source: the first mismatching byte sets
start=i, end=i+1 (and the same iteration cannot break, since the bytes
differ there); after start is set, the first position where the bytes
agree again sets end=i and breaks.  `fuel` is length - i, making the
recursion structural. -/
def sdiffScanF (a b : List Nat) (length : Nat) : Nat → Nat → Int → Int → Int × Int
  | 0, _, start, e => (start, e)
  | fuel + 1, i, start, e =>
    if i < length then
      if start = -1 ∧ a.getD i 0 ≠ b.getD i 0 then
        sdiffScanF a b length fuel (i + 1) (i : Int) ((i : Int) + 1)
      else if start > -1 ∧ a.getD i 0 = b.getD i 0 then (start, (i : Int))
      else sdiffScanF a b length fuel (i + 1) start e
    else (start, e)

/-- The scanning loop started at index i. -/
def sdiffScan (a b : List Nat) (length i : Nat) (start e : Int) : Int × Int :=
  sdiffScanF a b length (length - i) i start e

/-- The rune adjustment loop of `sdiff`: back up `start` one byte at a
time while the rune decoded at `start` is RuneError and `start` > 0. -/
def sdiffBackup (a : List Nat) : Nat → Nat
  | 0 => 0
  | start + 1 =>
    if (utf8DecodeRune (a.drop (start + 1))).1 = runeError then sdiffBackup a start
    else start + 1

/-- The sdiff function from string.go: position info of the difference in
the `a` argument (the Go `diff` struct has int fields `start` and `end`;
here the pair holds start then end).  Returns none when the strings are
byte-identical. -/
def sdiff (a b : List Nat) : Option (Int × Int) :=
  if a = b then none
  else
    let length := min a.length b.length
    let se := sdiffScan a b length 0 (-1) (-1)
    if se.1 = -1 then some ((length : Int), (a.length : Int))
    else
      let s0 := se.1.toNat
      let rw := utf8DecodeRune (a.drop s0)
      if rw.2 > 1 ∨ rw.1 = runeError then
        let s1 := sdiffBackup a s0
        let w1 := (utf8DecodeRune (a.drop s1)).2
        let e1 : Int := if (s1 : Int) + (w1 : Int) > se.2 then (s1 : Int) + (w1 : Int) else se.2
        some ((s1 : Int), e1)
      else some (se.1, se.2)

/-! ### Scan loop lemmas -/

/-- While the two strings agree at every remaining position, the scan
leaves start at -1 and e unchanged. -/
theorem sdiffScanF_all_eq (a b : List Nat) (length : Nat) :
    ∀ fuel i e, (∀ j, i ≤ j → j < length → a.getD j 0 = b.getD j 0) →
    sdiffScanF a b length fuel i (-1) e = (-1, e) := by
  intro fuel
  induction fuel with
  | zero => intro i e _; rfl
  | succ n ih =>
    intro i e h
    rw [sdiffScanF]
    by_cases hi : i < length
    · have heq : a.getD i 0 = b.getD i 0 := h i le_rfl hi
      rw [if_pos hi]
      rw [if_neg (by exact fun hc => hc.2 heq)]
      rw [if_neg (by exact fun hc => by omega)]
      exact ih (i + 1) e (fun j hj hj2 => h j (by omega) hj2)
    · rw [if_neg hi]

/-- Once start is set (> -1), if no remaining position has equal bytes,
the scan returns (start, e) unchanged. -/
theorem sdiffScanF_no_resync (a b : List Nat) (length : Nat) (start e : Int)
    (hs : start > -1) :
    ∀ fuel i, (∀ j, i ≤ j → j < length → a.getD j 0 ≠ b.getD j 0) →
    sdiffScanF a b length fuel i start e = (start, e) := by
  intro fuel
  induction fuel with
  | zero => intro i _; rfl
  | succ n ih =>
    intro i h
    rw [sdiffScanF]
    by_cases hi : i < length
    · have hne : a.getD i 0 ≠ b.getD i 0 := h i le_rfl hi
      have h1 : ¬ (start = -1 ∧ ¬ (a.getD i 0 = b.getD i 0)) := by
        intro hc; omega
      have h2 : ¬ (start > -1 ∧ a.getD i 0 = b.getD i 0) := by
        intro hc; exact hne hc.2
      rw [if_pos hi, if_neg h1, if_neg h2]
      exact ih (i + 1) (fun j hj hj2 => h j (by omega) hj2)
    · rw [if_neg hi]

/-- The full scan when the bytes first differ at index i and never agree
again inside the overlap: result is (i, i+1). -/
theorem sdiffScan_first_diff (a b : List Nat) (length i : Nat)
    (hi : i < length)
    (hpre : ∀ j, j < i → a.getD j 0 = b.getD j 0)
    (hdiff : a.getD i 0 ≠ b.getD i 0)
    (hpost : ∀ j, i < j → j < length → a.getD j 0 ≠ b.getD j 0) :
    sdiffScan a b length 0 (-1) (-1) = ((i : Int), (i : Int) + 1) := by
  unfold sdiffScan
  have main : ∀ fuel k, k ≤ i → (length - k) ≤ fuel →
      sdiffScanF a b length fuel k (-1) (-1) = ((i : Int), (i : Int) + 1) := by
    intro fuel
    induction fuel with
    | zero => intro k hk hf; omega
    | succ n ih =>
      intro k hk hf
      rw [sdiffScanF]
      have hkl : k < length := by omega
      rw [if_pos hkl]
      by_cases hki : k = i
      · subst hki
        rw [if_pos ⟨rfl, hdiff⟩]
        have h2 : ∀ j, k + 1 ≤ j → j < length → a.getD j 0 ≠ b.getD j 0 := by
          intro j hj hj2; exact hpost j (by omega) hj2
        exact sdiffScanF_no_resync a b length _ _ (by omega) n (k + 1) h2
      · have heq : a.getD k 0 = b.getD k 0 := hpre k (by omega)
        rw [if_neg (by exact fun hc => hc.2 heq)]
        rw [if_neg (by exact fun hc => by omega)]
        exact ih (k + 1) (by omega) (by omega)
  exact main (length - 0) 0 (Nat.zero_le _) le_rfl

/-- Byte lists differing at an in-range index are distinct. -/
theorem ne_of_getD_ne (a b : List Nat) (i : Nat)
    (h : a.getD i 0 ≠ b.getD i 0) : a ≠ b := by
  intro hab; exact h (by rw [hab])

/-- C4 (amended): when the two strings agree at every position of the
overlap, sdiff returns the range from the shorter length to a's length:
the zero-width marker (shorter, shorter) exactly when a is the shorter
string, and (b.length, a.length) covering a's extra tail when a is the
longer one. -/
theorem c4_sdiff_equal_overlap (a b : List Nat) (hne : a ≠ b)
    (hov : ∀ j, j < min a.length b.length → a.getD j 0 = b.getD j 0) :
    sdiff a b = some ((min a.length b.length : Int), (a.length : Int)) := by
  have hscan : sdiffScan a b (min a.length b.length) 0 (-1) (-1) = (-1, -1) := by
    unfold sdiffScan
    exact sdiffScanF_all_eq a b _ _ 0 (-1) (fun j _ hj2 => hov j hj2)
  unfold sdiff
  rw [if_neg hne]
  simp only [hscan]
  simp [Nat.cast_min]

/-- C4 witness: diff("hello world", "hello world!!") = (11, 11), by the
amended theorem applied at those bytes. -/
theorem c4_witness :
    sdiff [104, 101, 108, 108, 111, 32, 119, 111, 114, 108, 100]
      [104, 101, 108, 108, 111, 32, 119, 111, 114, 108, 100, 33, 33] = some (11, 11) := by
  have h := c4_sdiff_equal_overlap
    [104, 101, 108, 108, 111, 32, 119, 111, 114, 108, 100]
    [104, 101, 108, 108, 111, 32, 119, 111, 114, 108, 100, 33, 33]
    (by decide) (by decide)
  simpa using h

/-- C4 counterexample: "hello world!!" and "hello world" agree over the
full overlap and differ in length, yet sdiff returns (11, 13) - the
extra tail of the first argument - not the zero-width (11, 11) the claim
requires for every such pair. -/
theorem c4_counterexample :
    (∀ j, j < 11 →
      ([104, 101, 108, 108, 111, 32, 119, 111, 114, 108, 100, 33, 33] : List Nat).getD j 0 =
        ([104, 101, 108, 108, 111, 32, 119, 111, 114, 108, 100] : List Nat).getD j 0)
    ∧ min ([104, 101, 108, 108, 111, 32, 119, 111, 114, 108, 100, 33, 33] : List Nat).length
        ([104, 101, 108, 108, 111, 32, 119, 111, 114, 108, 100] : List Nat).length = 11
    ∧ ([104, 101, 108, 108, 111, 32, 119, 111, 114, 108, 100, 33, 33] : List Nat).length ≠
        ([104, 101, 108, 108, 111, 32, 119, 111, 114, 108, 100] : List Nat).length
    ∧ sdiff [104, 101, 108, 108, 111, 32, 119, 111, 114, 108, 100, 33, 33]
        [104, 101, 108, 108, 111, 32, 119, 111, 114, 108, 100] = some (11, 13)
    ∧ ((11 : Int), (13 : Int)) ≠ ((11 : Int), (11 : Int)) := by decide

/-- C3 (amended): when the strings first differ at index i inside the
overlap, never agree again inside the overlap, and the differing byte of
a is a one-byte (ASCII) rune, sdiff returns (i, i+1): the range covers
only the first differing byte, it does not extend to the shorter
length. -/
theorem c3_sdiff_no_resync (a b : List Nat) (i : Nat)
    (hi : i < min a.length b.length)
    (hpre : ∀ j, j < i → a.getD j 0 = b.getD j 0)
    (hdiff : a.getD i 0 ≠ b.getD i 0)
    (hpost : ∀ j, i < j → j < min a.length b.length → a.getD j 0 ≠ b.getD j 0)
    (hascii : a.getD i 0 < 0x80) :
    sdiff a b = some ((i : Int), (i : Int) + 1) := by
  have hne : a ≠ b := ne_of_getD_ne a b i hdiff
  have hscan : sdiffScan a b (min a.length b.length) 0 (-1) (-1) = ((i : Int), (i : Int) + 1) :=
    sdiffScan_first_diff a b _ i hi hpre hdiff hpost
  have hia : i < a.length := by omega
  have hdrop : a.drop i = a.getD i 0 :: a.drop (i + 1) := by
    rw [List.getD_eq_getElem a 0 hia]
    exact List.drop_eq_getElem_cons hia
  have hdec : utf8DecodeRune (a.drop i) = (a.getD i 0, 1) := by
    rw [hdrop]
    simp only [utf8DecodeRune]
    rw [if_pos hascii]
  unfold sdiff
  rw [if_neg hne]
  simp only [hscan]
  rw [if_neg (by exact fun hc => by omega)]
  simp only [Int.toNat_natCast, hdec]
  rw [if_neg (by
    simp only [gt_iff_lt, runeError]
    push_neg
    exact ⟨le_rfl, by omega⟩)]

/-- C3 witness: the amended theorem applied to "abc" vs "axy", where the
first differing byte is at index 1 and no later overlap position
resynchronizes: sdiff = (1, 2). -/
theorem c3_witness :
    sdiff [97, 98, 99] [97, 120, 121] = some (1, 2) := by
  have h := c3_sdiff_no_resync [97, 98, 99] [97, 120, 121] 1
    (by decide) (by decide) (by decide)
    (by
      intro j h1 h2
      simp only [List.length_cons, List.length_nil] at h2
      have hj : j = 2 := by omega
      subst hj
      decide)
    (by decide)
  simpa using h

/-- C3 counterexample: for a="abc", b="axy" the bytes differ from index 1
on and never agree again in the overlap, yet sdiff returns (1, 2), whose
end 2 is not the shorter length 3 as the claim states. -/
theorem c3_counterexample :
    (([97, 98, 99] : List Nat).getD 1 0 ≠ ([97, 120, 121] : List Nat).getD 1 0)
    ∧ (∀ j, j < 3 → 1 < j →
        ([97, 98, 99] : List Nat).getD j 0 ≠ ([97, 120, 121] : List Nat).getD j 0)
    ∧ min ([97, 98, 99] : List Nat).length ([97, 120, 121] : List Nat).length = 3
    ∧ sdiff [97, 98, 99] [97, 120, 121] = some (1, 2)
    ∧ ((2 : Int) ≠ ((3 : Nat) : Int)) := by decide

/-! ### Core data model (compare.go, errors.go)

Go runtime values are embedded as an inductive type.  Each value carries
its reflect type `Ty`; kind dispatch reads the type's kind, as
`reflect.Value.Kind` does.  Storage identity (`Value.Pointer`) is an
explicit Nat on slices, maps, pointers, funcs and channels (0 = nil);
addressability (`CanAddr`/`UnsafeAddr`) is threaded as an `Option Nat`
argument, since it is a property of how a value was reached, with field
and element addresses derived by an injective pairing.  Channel buffers
live in an explicit store indexed by channel id, because receiving from
a channel is a side effect on shared state. -/

/-- Struct field metadata from the struct type (reflect.StructField):
name, exportedness, and the struct tag as key/value pairs (Tag.Get). -/
structure FieldInfo where
  fname : String
  exported : Bool
  tags : List (String × String)
deriving DecidableEq, Repr

/-- Go reflect types, as far as the comparison observes them: identity
(equality), kind, and for structs the field metadata plus whether the
type is time.Time.  The id fields distinguish named types of the same
shape. -/
inductive Ty where
  | scalT (id : Nat)
  | strT (id : Nat)
  | arrT (n : Nat) (elem : Ty) (id : Nat)
  | sliT (elem : Ty) (id : Nat)
  | mapT (key elem : Ty) (id : Nat)
  | ptrT (elem : Ty) (id : Nat)
  | ifaceT (id : Nat)
  | funcT (id : Nat)
  | chanT (elem : Ty) (id : Nat)
  | structT (id : Nat) (tstamp : Bool) (finfo : List FieldInfo)
deriving DecidableEq, Repr

/-- Reflect kinds relevant to the dispatch in Config.compare. -/
inductive Kind where
  | scalK | strK | arrK | sliK | mapK | ptrK | ifaceK | funcK | chanK | structK
deriving DecidableEq, Repr

/-- The kind of a type. -/
def Ty.kind : Ty → Kind
  | .scalT _ => .scalK
  | .strT _ => .strK
  | .arrT _ _ _ => .arrK
  | .sliT _ _ => .sliK
  | .mapT _ _ _ => .mapK
  | .ptrT _ _ => .ptrK
  | .ifaceT _ => .ifaceK
  | .funcT _ => .funcK
  | .chanT _ _ => .chanK
  | .structT _ _ _ => .structK

/-- Go runtime values.  `invalid` is the zero reflect.Value (no value at
all).  Scalars carry a NaN flag so that floating NaN compares unequal to
itself.  A struct carries the abstract instant used by time.Time.Equal
next to its ordinary field values. -/
inductive Val where
  | invalid
  | scal (t : Ty) (nan : Bool) (v : Int)
  | str (t : Ty) (s : String)
  | arr (t : Ty) (elems : List Val)
  | sli (t : Ty) (dptr : Nat) (elems : List Val)
  | mp (t : Ty) (mptr : Nat) (entries : List (Val × Val))
  | ptr (t : Ty) (addr : Nat) (target : Val)
  | iface (t : Ty) (elem : Val)
  | fn (t : Ty) (fptr : Nat)
  | ch (t : Ty) (cid : Nat)
  | strct (t : Ty) (instant : Int) (fvals : List Val)

namespace Val

/-- reflect.Value.IsValid. -/
def isValid : Val → Bool
  | .invalid => false
  | _ => true

/-- The value's type (dummy on invalid values, which the validity check
filters out before any type is read). -/
def tyD : Val → Ty
  | .invalid => .ifaceT 0
  | .scal t _ _ => t
  | .str t _ => t
  | .arr t _ => t
  | .sli t _ _ => t
  | .mp t _ _ => t
  | .ptr t _ _ => t
  | .iface t _ => t
  | .fn t _ => t
  | .ch t _ => t
  | .strct t _ _ => t

/-- reflect.Value.Len for arrays, slices and maps. -/
def lenV : Val → Nat
  | .arr _ es => es.length
  | .sli _ _ es => es.length
  | .mp _ _ es => es.length
  | _ => 0

/-- Element at index i of an array or slice value. -/
def elemD (v : Val) (i : Nat) : Val :=
  match v with
  | .arr _ es => es.getD i .invalid
  | .sli _ _ es => es.getD i .invalid
  | _ => .invalid

/-- reflect.Value.Pointer: the identity of slices, maps, pointers, funcs
and channels. -/
def ptrV : Val → Nat
  | .sli _ d _ => d
  | .mp _ m _ => m
  | .ptr _ a _ => a
  | .fn _ f => f
  | .ch _ c => c
  | _ => 0

/-- reflect.Value.IsNil on the kinds that have a nil. -/
def isNilV : Val → Bool
  | .sli _ d _ => d == 0
  | .mp _ m _ => m == 0
  | .ptr _ a _ => a == 0
  | .fn _ f => f == 0
  | .ch _ c => c == 0
  | .iface _ e => !e.isValid
  | _ => true

/-- Map entries. -/
def entriesV : Val → List (Val × Val)
  | .mp _ _ es => es
  | _ => []

/-- Dereference a pointer: Elem of a nil pointer is the invalid value. -/
def derefD : Val → Val
  | .ptr _ a tgt => if a = 0 then .invalid else tgt
  | _ => .invalid

/-- The address of a pointer's element (the pointed-to object is
addressable at the pointer's target address). -/
def derefAddr : Val → Option Nat
  | .ptr _ a _ => if a = 0 then none else some a
  | _ => none

/-- The value held by an interface (invalid when the interface is nil). -/
def elemIface : Val → Val
  | .iface _ e => e
  | _ => .invalid

/-- String contents. -/
def strV : Val → String
  | .str _ s => s
  | _ => ""

/-- Field value at index i of a struct value. -/
def fieldD (v : Val) (i : Nat) : Val :=
  match v with
  | .strct _ _ fs => fs.getD i .invalid
  | _ => .invalid

/-- The struct field metadata of the value's type (want.Type().Field). -/
def finfoV (v : Val) : List FieldInfo :=
  match v.tyD with
  | .structT _ _ fi => fi
  | _ => []

/-- structIsTime: the type is time.Time. -/
def isTimeV (v : Val) : Bool :=
  match v.tyD with
  | .structT _ ts _ => ts
  | _ => false

/-- The abstract instant compared by time.Time.Equal. -/
def instantV : Val → Int
  | .strct _ inst _ => inst
  | _ => 0

end Val

/-- The kinds checkVisited tracks (Config.hard). -/
def hard : Kind → Bool
  | .mapK => true
  | .sliK => true
  | .ptrK => true
  | .ifaceK => true
  | _ => false

/-- Derived address of member i of the object at address a (field offset
or element offset); injective in (a, i) like real offsets, and nonzero. -/
def childAddr (a i : Nat) : Nat := Nat.pair a i + 1

/-- A visit key, canonicalized so the smaller address comes first
(checkVisited swaps when gotAddr > wantAddr). -/
def mkVisit (g w : Nat) (t : Ty) : Nat × Nat × Ty :=
  if g > w then (w, g, t) else (g, w, t)

/-- Path nodes (errors.go): root carries reflect.TypeOf(want), which is
none for an untyped nil. -/
inductive PNode where
  | root (t : Option Ty)
  | arrnode (i : Nat)
  | channode (i : Nat)
  | mapnode (k : Val)
  | structnode (fname : String)

/-- A root-to-node path; path.add appends a copy. -/
abbrev Path := List PNode

/-- Mismatch records (errors.go), as data: each carries the got/want
representations and the path.  The zero record carries the two IsZero
flags, the string record the raw strings (rendering, colors and the
diagnostic sdiff span are presentation). -/
inductive Err where
  | validity (got want : Val) (p : Path)
  | typeE (got want : Val) (p : Path)
  | nilE (got want : Val) (p : Path)
  | lenE (got want : Val) (p : Path)
  | funcE (got want : Val) (p : Path)
  | valueE (got want : Val) (p : Path)
  | zeroE (gz wz : Bool) (p : Path)
  | stringE (got want : String) (p : Path)

/-- The path stored in a mismatch record. -/
def Err.pathOf : Err → Path
  | .validity _ _ p => p
  | .typeE _ _ p => p
  | .nilE _ _ p => p
  | .lenE _ _ p => p
  | .funcE _ _ p => p
  | .valueE _ _ p => p
  | .zeroE _ _ p => p
  | .stringE _ _ p => p

/-- Config: the per-call comparison configuration. -/
structure Config where
  IgnoreArrayOrder : Bool := false
  ObserveFieldTag : String := ""

/-- The comparison state: collected errors, visited pointer pairs, the
one-shot zero flag, the channel store (buffer contents by channel id;
id 0 is the nil channel), and a flag recording that the Go code would
have blocked forever on a channel receive (the model then continues
with an invalid received value, but `blocked` stays set). -/
structure Cmp where
  errs : List Err
  visits : List (Nat × Nat × Ty)
  zero : Bool
  chans : List (List Val)
  blocked : Bool

/-- errorList.add: append a mismatch record in discovery order. -/
def Cmp.push (s : Cmp) (e : Err) : Cmp := { s with errs := s.errs ++ [e] }

/-- The buffer of channel cid in a channel world (a nil channel has no
buffer). -/
def chanBufW (w : List (List Val)) (cid : Nat) : List Val :=
  if cid = 0 then [] else w.getD cid []

/-- The buffer of channel cid in the comparison state. -/
def chanBuf (s : Cmp) (cid : Nat) : List Val :=
  chanBufW s.chans cid

/-- Receive from channel cid: pops the first buffered value; on an empty
open channel the Go code blocks forever, which the model records in
`blocked` while yielding an invalid value. -/
def recvF (s : Cmp) (cid : Nat) : Val × Cmp :=
  match chanBuf s cid with
  | [] => (.invalid, { s with blocked := true })
  | v :: rest => (v, { s with chans := s.chans.set cid rest })

/-- reflect.Value.IsZero, fuel-indexed to stay executable (the fuel is a
depth bound; with fuel at least the value's depth the answer is exact). -/
def isZeroF : Nat → Val → Bool
  | 0, _ => true
  | fuel + 1, v =>
    match v with
    | .invalid => true
    | .scal _ nan x => !nan && x == 0
    | .str _ s => s == ""
    | .arr _ es => isZeroListF fuel es
    | .sli _ d _ => d == 0
    | .mp _ m _ => m == 0
    | .ptr _ a _ => a == 0
    | .iface _ e => !e.isValid
    | .fn _ f => f == 0
    | .ch _ c => c == 0
    | .strct _ _ fs => isZeroListF fuel fs
where
  isZeroListF : Nat → List Val → Bool
    | 0, _ => true
    | _ + 1, [] => true
    | fuel + 1, v :: rest => isZeroF fuel v && isZeroListF (fuel + 1) rest

/-- Go == on comparable values (used for map key lookup): scalars with
NaN never equal, strings by contents, pointers and channels by
identity, interfaces by dynamic type and value, arrays and structs
pointwise.  Fuel-indexed; fuel 0 answers false. -/
def goEqF : Nat → Val → Val → Bool
  | 0, _, _ => false
  | fuel + 1, a, b =>
    match a, b with
    | .scal t1 n1 v1, .scal t2 n2 v2 => t1 == t2 && !n1 && !n2 && v1 == v2
    | .str t1 s1, .str t2 s2 => t1 == t2 && s1 == s2
    | .ptr t1 a1 _, .ptr t2 a2 _ => t1 == t2 && a1 == a2
    | .ch t1 c1, .ch t2 c2 => t1 == t2 && c1 == c2
    | .iface t1 e1, .iface t2 e2 =>
      t1 == t2 &&
        (if e1.isValid then
          e2.isValid && e1.tyD == e2.tyD && goEqF fuel e1 e2
        else !e2.isValid)
    | .arr t1 es1, .arr t2 es2 => t1 == t2 && goEqListF fuel es1 es2
    | .strct t1 _ fs1, .strct t2 _ fs2 => t1 == t2 && goEqListF fuel fs1 fs2
    | _, _ => false
where
  goEqListF : Nat → List Val → List Val → Bool
    | 0, _, _ => false
    | _ + 1, [], [] => true
    | fuel + 1, x :: xs, y :: ys => goEqF fuel x y && goEqListF (fuel + 1) xs ys
    | _, _, _ => false

/-- reflect.Value.MapIndex: look the key up with Go equality; an absent
(or NaN-carrying) key yields the invalid value. -/
def mapIndexF (fuel : Nat) (m k : Val) : Val :=
  mapFindF fuel m.entriesV k
where
  mapFindF : Nat → List (Val × Val) → Val → Val
    | _, [], _ => .invalid
    | fuel, e :: rest, k => if goEqF fuel e.1 k then e.2 else mapFindF fuel rest k

/-- valueInterface equality for the default (scalar) dispatch branch:
the canonical primitive values are equal, and NaN equals nothing. -/
def scalEq : Val → Val → Bool
  | .scal _ n1 v1, .scal _ n2 v2 => !n1 && !n2 && v1 == v2
  | _, _ => false

/-! ### The comparison engine (Config.compare and its helpers)

Every function takes fuel and returns none when it runs out; with any
sufficiently large fuel (the wrappers below compute one) the result is
the exact behaviour of the Go code.  The Option Nat arguments are the
UnsafeAddr of each operand when it is addressable (CanAddr); the Bool
argument `ro` says the operands were obtained through an unexported
field, in which case methods are not CanInterface. -/

/-- Tag.Get: the value stored for a tag key, or the empty string. -/
def tagGet (tags : List (String × String)) (key : String) : String :=
  match tags.find? (fun t => t.1 = key) with
  | some t => t.2
  | none => ""

/-- The nil *interface pointer used by compareArrayIgnoreOrder as the
got side of a missing-element record: reflect.ValueOf((*interface)(nil)). -/
def nilIfacePtr : Val := .ptr (.ptrT (.ifaceT 0) 0) 0 .invalid

/-- The type of one comparison step, abstracting conf.compare at the
remaining fuel: got, want, their addresses, the read-only flag, the
state and the path. -/
abbrev CmpStep := Val → Val → Option Nat → Option Nat → Bool → Cmp → Path → Option Cmp

/-- Config.equals over a comparison step: run it on a fresh state (fresh
errors, visits and zero flag; the channel world is shared) with an empty
path, and report whether it found no mismatch. -/
def equalsG (cmpf : CmpStep) (g w : Val) (ga wa : Option Nat) (ro : Bool) (s : Cmp) :
    Option (Bool × Cmp) :=
  match cmpf g w ga wa ro
      { errs := [], visits := [], zero := false, chans := s.chans, blocked := s.blocked } [] with
  | none => none
  | some r => some (r.errs.isEmpty, { s with chans := r.chans, blocked := r.blocked })

/-- The pool scan inside compareArrayIgnoreOrder: return the pool with
the first equal element removed (gotidx surgery), or none when no pool
element compares equal; the channel world threads through the trials. -/
def ignoreOrderScanG (eqf : Val → Val → Option Nat → Option Nat → Bool → Cmp → Option (Bool × Cmp))
    (got : Val) (gaf : Nat → Option Nat) (ro : Bool) (wv : Val) (wja : Option Nat) :
    Cmp → List Nat → Option (Option (List Nat) × Cmp)
  | s, [] => some (none, s)
  | s, j :: rest =>
    match eqf (got.elemD j) wv (gaf j) wja ro s with
    | none => none
    | some (true, s1) => some (some rest, s1)
    | some (false, s1) =>
      match ignoreOrderScanG eqf got gaf ro wv wja s1 rest with
      | none => none
      | some (none, s2) => some (none, s2)
      | some (some rest2, s2) => some (some (j :: rest2), s2)

/-- The outer loop of Config.compareArrayIgnoreOrder: for each index of
want in order, scan the remaining pool of got indices; on a match remove
it, otherwise record a Nil mismatch against a nil *interface value at
that index and keep going. -/
def ignoreOrderLoopG (eqf : Val → Val → Option Nat → Option Nat → Bool → Cmp → Option (Bool × Cmp))
    (got want : Val) (gaf waf : Nat → Option Nat) (ro : Bool) :
    Cmp → Path → List Nat → List Nat → Option Cmp
  | s, _, [], _ => some s
  | s, p, i :: is, gotidx =>
    match ignoreOrderScanG eqf got gaf ro (want.elemD i) (waf i) s gotidx with
    | none => none
    | some (some gotidx1, s1) => ignoreOrderLoopG eqf got want gaf waf ro s1 p is gotidx1
    | some (none, s1) =>
      ignoreOrderLoopG eqf got want gaf waf ro
        (s1.push (.nilE nilIfacePtr (want.elemD i) (p ++ [.arrnode i]))) p is gotidx

/-- The index loop of Config.compareArray: compare elements at identical
indices. -/
def compareElemsG (cmpf : CmpStep) (got want : Val) (gaf waf : Nat → Option Nat) (ro : Bool) :
    Cmp → Path → List Nat → Option Cmp
  | s, _, [] => some s
  | s, p, i :: is =>
    match cmpf (got.elemD i) (want.elemD i) (gaf i) (waf i) ro s (p ++ [.arrnode i]) with
    | none => none
    | some s1 => compareElemsG cmpf got want gaf waf ro s1 p is

/-- Config.compareArray: length mismatch is terminal; otherwise compare
element-wise over want's indices, or with order-insensitive matching
when IgnoreArrayOrder is set. -/
def compareArrayG (conf : Config) (cmpf : CmpStep) (got want : Val)
    (gaf waf : Nat → Option Nat) (ro : Bool) (s : Cmp) (p : Path) : Option Cmp :=
  if got.lenV ≠ want.lenV then some (s.push (.lenE got want p))
  else if conf.IgnoreArrayOrder then
    ignoreOrderLoopG (equalsG cmpf) got want gaf waf ro s p (List.range want.lenV) (List.range got.lenV)
  else compareElemsG cmpf got want gaf waf ro s p (List.range want.lenV)

/-- Config.compareSlice: same backing storage short-circuits, then
nilness, then the array comparison with the slices' element addresses. -/
def compareSliceG (conf : Config) (cmpf : CmpStep) (got want : Val) (ro : Bool)
    (s : Cmp) (p : Path) : Option Cmp :=
  if got.ptrV = want.ptrV then some s
  else if got.isNilV ≠ want.isNilV then some (s.push (.nilE got want p))
  else compareArrayG conf cmpf got want
    (fun i => some (childAddr got.ptrV i)) (fun i => some (childAddr want.ptrV i)) ro s p

/-- The tag value observed for field i (want.Type().Field(i) and
Tag.Get(conf.ObserveFieldTag); no tag is checked when the config name
is empty). -/
def structTag (conf : Config) (want : Val) (i : Nat) : String :=
  if conf.ObserveFieldTag.length > 0 then
    tagGet (want.finfoV.getD i ⟨"", true, []⟩).tags conf.ObserveFieldTag
  else ""

/-- The field loop of Config.compareStruct, reading want's field
metadata: tag "-" skips the field, tag "+" arms the one-shot zero flag
for the field's comparison; unexported fields make the field values
read-only. -/
def structLoopG (conf : Config) (cmpf : CmpStep) (got want : Val)
    (ga wa : Option Nat) (ro : Bool) : Cmp → Path → List Nat → Option Cmp
  | s, _, [] => some s
  | s, p, i :: is =>
    if structTag conf want i = "-" then structLoopG conf cmpf got want ga wa ro s p is
    else
      match cmpf (got.fieldD i) (want.fieldD i)
          (ga.map (fun a => childAddr a i)) (wa.map (fun a => childAddr a i))
          (ro || !(want.finfoV.getD i ⟨"", true, []⟩).exported)
          (if structTag conf want i = "+" then { s with zero := true } else s)
          (p ++ [.structnode (want.finfoV.getD i ⟨"", true, []⟩).fname]) with
      | none => none
      | some s1 => structLoopG conf cmpf got want ga wa ro s1 p is

/-- Config.compareStruct: time.Time delegates to Equal when the method
is CanInterface (the values were not read from unexported fields);
otherwise walk the declared fields. -/
def compareStructG (conf : Config) (cmpf : CmpStep) (got want : Val)
    (ga wa : Option Nat) (ro : Bool) (s : Cmp) (p : Path) : Option Cmp :=
  if got.isTimeV ∧ ro = false then
    if got.instantV = want.instantV then some s
    else some (s.push (.valueE got want p))
  else structLoopG conf cmpf got want ga wa ro s p (List.range want.finfoV.length)

/-- The key loop of Config.compareMap: for each key of want, look both
sides up; a failed lookup is a Validity mismatch at the key's path and
the loop continues; map values are never addressable. -/
def mapLoopG (cmpf : CmpStep) (mlook : Val → Val → Val) (got want : Val) (ro : Bool) :
    Cmp → Path → List Val → Option Cmp
  | s, _, [] => some s
  | s, p, k :: rest =>
    if !(mlook got k).isValid || !(mlook want k).isValid then
      mapLoopG cmpf mlook got want ro
        (s.push (.validity (mlook got k) (mlook want k) (p ++ [.mapnode k]))) p rest
    else
      match cmpf (mlook got k) (mlook want k) none none ro s (p ++ [.mapnode k]) with
      | none => none
      | some s1 => mapLoopG cmpf mlook got want ro s1 p rest

/-- Config.compareMap: identity short-circuit, nilness, length, then a
pass over want's keys. -/
def compareMapG (cmpf : CmpStep) (mlook : Val → Val → Val) (got want : Val) (ro : Bool)
    (s : Cmp) (p : Path) : Option Cmp :=
  if got.ptrV = want.ptrV then some s
  else if got.isNilV ≠ want.isNilV then some (s.push (.nilE got want p))
  else if got.lenV ≠ want.lenV then some (s.push (.lenE got want p))
  else mapLoopG cmpf mlook got want ro s p (want.entriesV.map Prod.fst)

/-- The receive loop of Config.compareChan over the (1-based) positions
captured before draining: receive from got then want, then compare. -/
def chanLoopG (cmpf : CmpStep) (gc wc : Nat) (ro : Bool) : Cmp → Path → List Nat → Option Cmp
  | s, _, [] => some s
  | s, p, i :: is =>
    match cmpf (recvF s gc).1 (recvF (recvF s gc).2 wc).1 none none ro
        (recvF (recvF s gc).2 wc).2 (p ++ [.channode i]) with
    | none => none
    | some s3 => chanLoopG cmpf gc wc ro s3 p is

/-- Config.compareChan: buffered-length check, then drain both channels
pairwise, comparing received elements positionally. -/
def compareChanG (cmpf : CmpStep) (got want : Val) (ro : Bool) (s : Cmp) (p : Path) : Option Cmp :=
  if (chanBuf s got.ptrV).length ≠ (chanBuf s want.ptrV).length then
    some (s.push (.lenE got want p))
  else chanLoopG cmpf got.ptrV want.ptrV ro s p (List.range' 1 (chanBuf s want.ptrV).length)

/-- The zero-mode gate and the kind switch of Config.compare: when the
one-shot flag is pending, compare only zero-ness, record Zero on
mismatch, clear the flag and stop; otherwise dispatch on the kind. -/
def compareDispatchG (conf : Config) (cmpf : CmpStep) (isZf : Val → Bool)
    (mlook : Val → Val → Val) (got want : Val) (ga wa : Option Nat) (ro : Bool)
    (s : Cmp) (p : Path) : Option Cmp :=
  if s.zero then
    if isZf got ≠ isZf want then
      some { s.push (.zeroE (isZf got) (isZf want) p) with zero := false }
    else some { s with zero := false }
  else
    match got.tyD.kind with
    | .arrK => compareArrayG conf cmpf got want
        (fun i => ga.map (fun a => childAddr a i)) (fun i => wa.map (fun a => childAddr a i)) ro s p
    | .sliK => compareSliceG conf cmpf got want ro s p
    | .ifaceK =>
      -- compareInterface: interface elements are not addressable
      if got.isNilV ≠ want.isNilV then some (s.push (.nilE got want p))
      else cmpf got.elemIface want.elemIface none none ro s p
    | .ptrK =>
      -- comparePointer
      if got.ptrV = want.ptrV then some s
      else cmpf got.derefD want.derefD got.derefAddr want.derefAddr ro s p
    | .structK => compareStructG conf cmpf got want ga wa ro s p
    | .mapK => compareMapG cmpf mlook got want ro s p
    | .funcK =>
      -- compareFunc: only two nil funcs can match
      if !got.isNilV || !want.isNilV then some (s.push (.funcE got want p)) else some s
    | .strK =>
      -- compareString
      if got.strV = want.strV then some s
      else some (s.push (.stringE got.strV want.strV p))
    | .chanK => compareChanG cmpf got want ro s p
    | .scalK =>
      -- compareInterfaceValue on the default branch
      if scalEq got want then some s else some (s.push (.valueE got want p))

/-- Config.compare: validity, type and visited checks, then the zero
gate and kind dispatch; recursive comparisons run at one less fuel. -/
def compareF : Nat → Config → Val → Val → Option Nat → Option Nat → Bool → Cmp → Path → Option Cmp
  | 0, _, _, _, _, _, _, _, _ => none
  | fuel + 1, conf, got, want, ga, wa, ro, s, p =>
    -- compareValidity: error when exactly one side is valid; stop unless both are
    if got.isValid ≠ want.isValid then some (s.push (.validity got want p))
    else if got.isValid = false then some s
    -- compareType: a type mismatch is terminal
    else if got.tyD ≠ want.tyD then some (s.push (.typeE got want p))
    -- checkVisited: canonicalized (addr, addr, type) triples for hard kinds,
    -- only when both operands are addressable
    else if ga.isSome && wa.isSome && hard got.tyD.kind then
      if mkVisit (ga.getD 0) (wa.getD 0) got.tyD ∈ s.visits then some s
      else compareDispatchG conf (fun g w ga2 wa2 ro2 s2 q => compareF fuel conf g w ga2 wa2 ro2 s2 q)
        (isZeroF (fuel + 1)) (mapIndexF (fuel + 1)) got want ga wa ro
        { s with visits := mkVisit (ga.getD 0) (wa.getD 0) got.tyD :: s.visits } p
    else compareDispatchG conf (fun g w ga2 wa2 ro2 s2 q => compareF fuel conf g w ga2 wa2 ro2 s2 q)
      (isZeroF (fuel + 1)) (mapIndexF (fuel + 1)) got want ga wa ro s p

/-- A fresh comparison state over a channel world (newComparison). -/
def newComparison (world : List (List Val)) : Cmp :=
  { errs := [], visits := [], zero := false, chans := world, blocked := false }

/-- A numeric tag for each mismatch kind, to state which records a run
produced. -/
def Err.code : Err → Nat
  | .validity _ _ _ => 0
  | .typeE _ _ _ => 1
  | .nilE _ _ _ => 2
  | .lenE _ _ _ => 3
  | .funcE _ _ _ => 4
  | .valueE _ _ _ => 5
  | .zeroE _ _ _ => 6
  | .stringE _ _ _ => 7

/-- Config.Compare: run the comparison from a root path node carrying
want's type (none models reflect.TypeOf of an untyped nil) and return
the collected mismatch records; none means the fuel ran out. -/
def Compare (conf : Config) (got want : Val) (world : List (List Val)) (fuel : Nat) : Option Cmp :=
  compareF fuel conf got want none none false (newComparison world)
    [PNode.root (if want.isValid then some want.tyD else none)]

/-! ### Fixtures used by concrete runs

Concrete types and values mirroring the test fixtures: an int scalar
type, an int slice type, and the tagged structs of the one-shot flag
scenario (S has a pointer field tagged "+", T holds two pointers to the
same S plus an untagged int field). -/

def tyInt : Ty := .scalT 1

def vInt (n : Int) : Val := .scal tyInt false n

def tyIntSlice : Ty := .sliT tyInt 2

def tyIntPtr : Ty := .ptrT tyInt 3

def tyS : Ty := .structT 4 false [⟨"P", true, [("cmp", "+")]⟩]

def valS : Val := .strct tyS 0 [.ptr tyIntPtr 0 .invalid]

def tySPtr : Ty := .ptrT tyS 5

def tyT : Ty := .structT 6 false [⟨"A", true, []⟩, ⟨"B", true, []⟩, ⟨"C", true, []⟩]

def tyStr : Ty := .strT 7

def vStr (x : String) : Val := .str tyStr x

def tyIntStrMap : Ty := .mapT tyInt tyStr 8

/-- got of the map fixture: keys 1 and 3. -/
def mapGot : Val := .mp tyIntStrMap 1 [(vInt 1, vStr "one"), (vInt 3, vStr "two")]

/-- want of the map fixture: keys 2 and 1; got lacks key 2. -/
def mapWant : Val := .mp tyIntStrMap 2 [(vInt 2, vStr "two"), (vInt 1, vStr "one")]

/-- got of the one-shot flag scenario: A and B point to the same S at
address 100, C = 5. -/
def leakGot : Val := .strct tyT 0 [.ptr tySPtr 100 valS, .ptr tySPtr 100 valS, vInt 5]

/-- want of the one-shot flag scenario: A and B point to the same S at
address 200, C = 7. -/
def leakWant : Val := .strct tyT 0 [.ptr tySPtr 200 valS, .ptr tySPtr 200 valS, vInt 7]

/-! ### C10: slice same-storage short-circuit -/

/-- C10: two slices of the same slice type over the same backing storage
(equal data pointers, nonzero hence both non-nil) add no mismatch
record whatever their lengths and contents, and a top-level Compare
reports them equal: the same-storage short-circuit is tested before the
length check. -/
theorem c10_slice_same_storage (conf : Config) (et : Ty) (tid d : Nat) (es1 es2 : List Val)
    (_hd : d ≠ 0) :
    (∀ fuel ga wa ro s p r,
      compareF fuel conf (.sli (.sliT et tid) d es1) (.sli (.sliT et tid) d es2) ga wa ro s p = some r →
      r.errs = s.errs)
    ∧ (∀ world fuel r,
      Compare conf (.sli (.sliT et tid) d es1) (.sli (.sliT et tid) d es2) world fuel = some r →
      r.errs = []) := by
  have disp : ∀ (cmpf : CmpStep) (nf : Nat) (mlook : Val → Val → Val) ga wa ro s1 p r,
      compareDispatchG conf cmpf (isZeroF nf) mlook
        (.sli (.sliT et tid) d es1) (.sli (.sliT et tid) d es2) ga wa ro s1 p = some r →
      r.errs = s1.errs := by
    intro cmpf nf mlook ga wa ro s1 p r h
    rw [compareDispatchG] at h
    by_cases hz : s1.zero
    · rw [if_pos hz] at h
      have hiz : isZeroF nf (Val.sli (Ty.sliT et tid) d es1) =
          isZeroF nf (Val.sli (Ty.sliT et tid) d es2) := by
        cases nf <;> rfl
      rw [hiz] at h
      rw [if_neg (by simp)] at h
      cases h
      rfl
    · rw [if_neg hz] at h
      simp only [Val.tyD, Ty.kind] at h
      rw [compareSliceG] at h
      rw [if_pos (show (Val.sli (Ty.sliT et tid) d es1).ptrV =
        (Val.sli (Ty.sliT et tid) d es2).ptrV from rfl)] at h
      cases h
      rfl
  have base : ∀ fuel ga wa ro s p r,
      compareF fuel conf (.sli (.sliT et tid) d es1) (.sli (.sliT et tid) d es2) ga wa ro s p = some r →
      r.errs = s.errs := by
    intro fuel ga wa ro s p r h
    match fuel with
    | 0 => simp [compareF] at h
    | fuel + 1 =>
      rw [compareF] at h
      rw [if_neg (by simp [Val.isValid])] at h
      rw [if_neg (by simp [Val.isValid])] at h
      rw [if_neg (by simp [Val.tyD])] at h
      by_cases hgw : (ga.isSome && wa.isSome && hard (Val.tyD (Val.sli (Ty.sliT et tid) d es1)).kind) = true
      · rw [if_pos hgw] at h
        by_cases hv : mkVisit (ga.getD 0) (wa.getD 0) (Val.tyD (Val.sli (Ty.sliT et tid) d es1)) ∈ s.visits
        · rw [if_pos hv] at h
          cases h
          rfl
        · rw [if_neg hv] at h
          have hd2 := disp _ (fuel + 1) _ ga wa ro _ p r h
          exact hd2
      · rw [if_neg hgw] at h
        exact disp _ (fuel + 1) _ ga wa ro _ p r h
  refine ⟨base, ?_⟩
  intro world fuel r h
  have hb := base fuel none none false (newComparison world) _ r h
  simpa [newComparison] using hb

/-- C10 witness: two non-nil int slices over storage 1, lengths 1 and 2,
compare with no mismatch record. -/
theorem c10_witness :
    ∃ r, compareF 10 {} (.sli (.sliT tyInt 2) 1 [vInt 1])
        (.sli (.sliT tyInt 2) 1 [vInt 1, vInt 2]) none none false (newComparison []) [] = some r
      ∧ r.errs = [] := by
  refine ⟨newComparison [], rfl, ?_⟩
  exact (c10_slice_same_storage {} tyInt 2 1 [vInt 1] [vInt 1, vInt 2] (by decide)).1
    10 none none false (newComparison []) [] (newComparison []) rfl

/-! ### C2: length mismatch is terminal for its subtree -/

/-- C2 (amended): for two slices of the same slice type with distinct
non-nil backing storage and differing lengths, Compare records exactly
one Length mismatch at the slice's path and nothing else - in
particular no element-level record appears. -/
theorem c2_length_terminal (conf : Config) (et : Ty) (tid d1 d2 : Nat) (es1 es2 : List Val)
    (hne : d1 ≠ d2) (_h1 : d1 ≠ 0) (_h2 : d2 ≠ 0) (hlen : es1.length ≠ es2.length)
    (world : List (List Val)) (fuel : Nat) (r : Cmp)
    (h : Compare conf (.sli (.sliT et tid) d1 es1) (.sli (.sliT et tid) d2 es2) world fuel = some r) :
    r.errs = [.lenE (.sli (.sliT et tid) d1 es1) (.sli (.sliT et tid) d2 es2)
      [PNode.root (some (.sliT et tid))]] := by
  unfold Compare at h
  match fuel with
  | 0 => simp [compareF] at h
  | fuel + 1 =>
    rw [compareF] at h
    rw [if_neg (by simp [Val.isValid])] at h
    rw [if_neg (by simp [Val.isValid])] at h
    rw [if_neg (by simp [Val.tyD])] at h
    rw [if_neg (by simp)] at h
    rw [compareDispatchG] at h
    rw [if_neg (by simp [newComparison])] at h
    simp only [Val.tyD, Ty.kind] at h
    rw [compareSliceG] at h
    rw [if_neg (show ¬ (Val.sli (Ty.sliT et tid) d1 es1).ptrV =
      (Val.sli (Ty.sliT et tid) d2 es2).ptrV from hne)] at h
    rw [if_neg (by
      show ¬ (Val.sli (Ty.sliT et tid) d1 es1).isNilV ≠ (Val.sli (Ty.sliT et tid) d2 es2).isNilV
      simp only [Val.isNilV, ne_eq, beq_iff_eq]
      intro hc
      simp [_h1, _h2] at hc)] at h
    rw [compareArrayG] at h
    rw [if_pos (show (Val.sli (Ty.sliT et tid) d1 es1).lenV ≠
      (Val.sli (Ty.sliT et tid) d2 es2).lenV from hlen)] at h
    cases h
    rfl

/-- C2 witness: Compare([1,2,3], [1,2]) over distinct storage yields
exactly the one Length record, by the amended theorem. -/
theorem c2_witness :
    ∃ r, Compare {} (.sli (.sliT tyInt 2) 10 [vInt 1, vInt 2, vInt 3])
        (.sli (.sliT tyInt 2) 20 [vInt 1, vInt 2]) [] 10 = some r
      ∧ r.errs = [.lenE (.sli (.sliT tyInt 2) 10 [vInt 1, vInt 2, vInt 3])
          (.sli (.sliT tyInt 2) 20 [vInt 1, vInt 2]) [PNode.root (some (.sliT tyInt 2))]] := by
  have h := c2_length_terminal {} tyInt 2 10 20 [vInt 1, vInt 2, vInt 3] [vInt 1, vInt 2]
    (by decide) (by decide) (by decide) (by decide) [] 10
    (Cmp.push (newComparison []) (.lenE (.sli (.sliT tyInt 2) 10 [vInt 1, vInt 2, vInt 3])
      (.sli (.sliT tyInt 2) 20 [vInt 1, vInt 2]) [PNode.root (some (.sliT tyInt 2))])) rfl
  exact ⟨_, rfl, h⟩

/-- C2 counterexample: two slices of the same type with differing
lengths (1 and 2) but the same backing storage produce no mismatch
record at all - not the single Length mismatch the claim promises for
every same-typed pair of differing lengths. -/
theorem c2_counterexample :
    (Val.sli tyIntSlice 1 [vInt 1]).lenV ≠ (Val.sli tyIntSlice 1 [vInt 1, vInt 2]).lenV
    ∧ (Compare {} (.sli tyIntSlice 1 [vInt 1]) (.sli tyIntSlice 1 [vInt 1, vInt 2]) [] 10).map
        (fun r => r.errs) = some [] := ⟨by decide, rfl⟩

/-! ### C5: the one-shot "+" flag -/

/-- C5: the one-shot flag is not consumed by exactly the next comparison
step.  In this run, field B's comparison re-reaches the S structs
already visited through field A: the tagged pointer field P arms the
zero flag, checkVisited then sees a repeated (addr, addr, type) triple
and returns early without consuming it, and the flag survives to the
untagged int field C, which is therefore compared for zero-ness only:
got C = 5 and want C = 7 differ but are both non-zero, so Compare
reports the structs equal and the whole run yields no mismatch. -/
theorem c5_zero_flag_leak :
    (Compare { ObserveFieldTag := "cmp" } leakGot leakWant [] 100).map (fun r => r.errs) = some []
    ∧ scalEq (leakGot.fieldD 2) (leakWant.fieldD 2) = false
    ∧ (leakGot.fieldD 2).isValid = true ∧ (leakWant.fieldD 2).isValid = true
    ∧ tagGet (leakGot.finfoV.getD 2 ⟨"", true, []⟩).tags "cmp" = "" :=
  ⟨rfl, rfl, rfl, rfl, rfl⟩

/-! ### Engine invariants: errors only accumulate, below the current path -/

/-- State r extends state s by mismatch records whose paths all extend p. -/
def ErrsExt (s r : Cmp) (p : Path) : Prop :=
  ∃ t, r.errs = s.errs ++ t ∧ ∀ e ∈ t, p <+: e.pathOf

theorem errsExt_same {s r : Cmp} (p : Path) (h : r.errs = s.errs) : ErrsExt s r p :=
  ⟨[], by simp [h], by simp⟩

theorem errsExt_refl (s : Cmp) (p : Path) : ErrsExt s s p :=
  errsExt_same p rfl

theorem errsExt_push (s : Cmp) (p : Path) (e : Err) (h : p <+: e.pathOf) :
    ErrsExt s (s.push e) p :=
  ⟨[e], rfl, by simpa using h⟩

theorem errsExt_trans {s m r : Cmp} {p : Path} (h1 : ErrsExt s m p) (h2 : ErrsExt m r p) :
    ErrsExt s r p := by
  obtain ⟨t1, he1, hp1⟩ := h1
  obtain ⟨t2, he2, hp2⟩ := h2
  refine ⟨t1 ++ t2, by simp [he2, he1], ?_⟩
  intro e he
  rcases List.mem_append.1 he with h | h
  · exact hp1 e h
  · exact hp2 e h

theorem errsExt_weaken {s r : Cmp} {p q : Path} (h : ErrsExt s r (p ++ q)) : ErrsExt s r p := by
  obtain ⟨t, he, hp⟩ := h
  exact ⟨t, he, fun e hm => (List.prefix_append p q).trans (hp e hm)⟩

/-- equalsG never changes the error list of the carried state. -/
theorem equalsG_errs (cmpf : CmpStep) (g w : Val) (ga wa : Option Nat) (ro : Bool)
    (s : Cmp) (b : Bool) (s1 : Cmp) (h : equalsG cmpf g w ga wa ro s = some (b, s1)) :
    s1.errs = s.errs := by
  unfold equalsG at h
  split at h
  · exact absurd h (by simp)
  · simp only [Option.some.injEq, Prod.mk.injEq] at h
    rw [← h.2]

/-- The ignore-order pool scan never changes the error list. -/
theorem ignoreOrderScanG_errs (eqf : Val → Val → Option Nat → Option Nat → Bool → Cmp → Option (Bool × Cmp))
    (heq : ∀ g w ga wa ro s b s1, eqf g w ga wa ro s = some (b, s1) → s1.errs = s.errs)
    (got : Val) (gaf : Nat → Option Nat) (ro : Bool) (wv : Val) (wja : Option Nat) :
    ∀ gotidx s o s2, ignoreOrderScanG eqf got gaf ro wv wja s gotidx = some (o, s2) →
      s2.errs = s.errs := by
  intro gotidx
  induction gotidx with
  | nil =>
    intro s o s2 h
    rw [ignoreOrderScanG] at h
    simp only [Option.some.injEq, Prod.mk.injEq] at h
    rw [← h.2]
  | cons j rest ih =>
    intro s o s2 h
    rw [ignoreOrderScanG] at h
    split at h
    · exact absurd h (by simp)
    · next s1 heqf =>
        simp only [Option.some.injEq, Prod.mk.injEq] at h
        rw [← h.2]
        exact heq _ _ _ _ _ _ _ _ heqf
    · next s1 heqf =>
        have hs1 : s1.errs = s.errs := heq _ _ _ _ _ _ _ _ heqf
        split at h
        · exact absurd h (by simp)
        · next s3 hscan =>
            simp only [Option.some.injEq, Prod.mk.injEq] at h
            rw [← h.2, ih s1 _ s3 hscan, hs1]
        · next rest2 s3 hscan =>
            simp only [Option.some.injEq, Prod.mk.injEq] at h
            rw [← h.2, ih s1 _ s3 hscan, hs1]

/-- The ignore-order outer loop only appends records at the array's
index paths. -/
theorem ignoreOrderLoopG_ext (eqf : Val → Val → Option Nat → Option Nat → Bool → Cmp → Option (Bool × Cmp))
    (heq : ∀ g w ga wa ro s b s1, eqf g w ga wa ro s = some (b, s1) → s1.errs = s.errs)
    (got want : Val) (gaf waf : Nat → Option Nat) (ro : Bool) :
    ∀ is gotidx s p r, ignoreOrderLoopG eqf got want gaf waf ro s p is gotidx = some r →
      ErrsExt s r p := by
  intro is
  induction is with
  | nil =>
    intro gotidx s p r h
    rw [ignoreOrderLoopG] at h
    simp only [Option.some.injEq] at h
    exact errsExt_same p (by rw [← h])
  | cons i is ih =>
    intro gotidx s p r h
    rw [ignoreOrderLoopG] at h
    rcases h1 : ignoreOrderScanG eqf got gaf ro (want.elemD i) (waf i) s gotidx with _ | ⟨o, s1⟩
    · rw [h1] at h; exact absurd h (by simp)
    · rw [h1] at h
      have hs1 : s1.errs = s.errs := ignoreOrderScanG_errs eqf heq got gaf ro _ _ gotidx s o s1 h1
      match o with
      | some gotidx1 =>
        exact errsExt_trans (errsExt_same p hs1) (ih gotidx1 s1 p r h)
      | none =>
        refine errsExt_trans (errsExt_same p hs1) (errsExt_trans ?_ (ih gotidx _ p r h))
        exact errsExt_push s1 p _ (by simp only [Err.pathOf]; exact List.prefix_append _ _)

/-- The element loop only appends records below the array's path. -/
theorem compareElemsG_ext (cmpf : CmpStep)
    (hc : ∀ g w ga wa ro s q r, cmpf g w ga wa ro s q = some r → ErrsExt s r q)
    (got want : Val) (gaf waf : Nat → Option Nat) (ro : Bool) :
    ∀ is s p r, compareElemsG cmpf got want gaf waf ro s p is = some r →
      ErrsExt s r p := by
  intro is
  induction is with
  | nil =>
    intro s p r h
    rw [compareElemsG] at h
    simp only [Option.some.injEq] at h
    exact errsExt_same p (by rw [← h])
  | cons i is ih =>
    intro s p r h
    rw [compareElemsG] at h
    rcases h1 : cmpf (got.elemD i) (want.elemD i) (gaf i) (waf i) ro s (p ++ [.arrnode i]) with _ | s1
    · rw [h1] at h; exact absurd h (by simp)
    · rw [h1] at h
      exact errsExt_trans (errsExt_weaken (hc _ _ _ _ _ _ _ _ h1)) (ih s1 p r h)

/-- compareArrayG only appends records at or below the path. -/
theorem compareArrayG_ext (conf : Config) (cmpf : CmpStep)
    (hc : ∀ g w ga wa ro s q r, cmpf g w ga wa ro s q = some r → ErrsExt s r q)
    (got want : Val) (gaf waf : Nat → Option Nat) (ro : Bool) (s : Cmp) (p : Path) (r : Cmp)
    (h : compareArrayG conf cmpf got want gaf waf ro s p = some r) :
    ErrsExt s r p := by
  unfold compareArrayG at h
  split at h
  · simp only [Option.some.injEq] at h
    exact h ▸ errsExt_push s p _ (by simp only [Err.pathOf]; exact List.prefix_refl _)
  · split at h
    · exact ignoreOrderLoopG_ext _ (fun g w ga wa ro2 s2 b s3 hh => equalsG_errs cmpf g w ga wa ro2 s2 b s3 hh)
        got want gaf waf ro _ _ s p r h
    · exact compareElemsG_ext cmpf hc got want gaf waf ro _ s p r h

/-- compareSliceG only appends records at or below the path. -/
theorem compareSliceG_ext (conf : Config) (cmpf : CmpStep)
    (hc : ∀ g w ga wa ro s q r, cmpf g w ga wa ro s q = some r → ErrsExt s r q)
    (got want : Val) (ro : Bool) (s : Cmp) (p : Path) (r : Cmp)
    (h : compareSliceG conf cmpf got want ro s p = some r) :
    ErrsExt s r p := by
  unfold compareSliceG at h
  split at h
  · simp only [Option.some.injEq] at h
    exact errsExt_same p (by rw [← h])
  · split at h
    · simp only [Option.some.injEq] at h
      exact h ▸ errsExt_push s p _ (by simp only [Err.pathOf]; exact List.prefix_refl _)
    · exact compareArrayG_ext conf cmpf hc got want _ _ ro s p r h

/-- The struct field loop only appends records below the struct's path. -/
theorem structLoopG_ext (conf : Config) (cmpf : CmpStep)
    (hc : ∀ g w ga wa ro s q r, cmpf g w ga wa ro s q = some r → ErrsExt s r q)
    (got want : Val) (ga wa : Option Nat) (ro : Bool) :
    ∀ is s p r, structLoopG conf cmpf got want ga wa ro s p is = some r →
      ErrsExt s r p := by
  intro is
  induction is with
  | nil =>
    intro s p r h
    rw [structLoopG] at h
    simp only [Option.some.injEq] at h
    exact errsExt_same p (by rw [← h])
  | cons i is ih =>
    intro s p r h
    rw [structLoopG] at h
    split at h
    · exact ih s p r h
    · split at h
      · exact absurd h (by simp)
      · next s1 h1 =>
          have hfirst : ErrsExt s s1 p := by
            refine errsExt_trans ?_ (errsExt_weaken (hc _ _ _ _ _ _ _ _ h1))
            split
            · exact errsExt_refl _ _
            · exact errsExt_refl _ _
          exact errsExt_trans hfirst (ih s1 p r h)

/-- compareStructG only appends records at or below the path. -/
theorem compareStructG_ext (conf : Config) (cmpf : CmpStep)
    (hc : ∀ g w ga wa ro s q r, cmpf g w ga wa ro s q = some r → ErrsExt s r q)
    (got want : Val) (ga wa : Option Nat) (ro : Bool) (s : Cmp) (p : Path) (r : Cmp)
    (h : compareStructG conf cmpf got want ga wa ro s p = some r) :
    ErrsExt s r p := by
  unfold compareStructG at h
  split at h
  · split at h
    · simp only [Option.some.injEq] at h
      exact errsExt_same p (by rw [← h])
    · simp only [Option.some.injEq] at h
      exact h ▸ errsExt_push s p _ (by simp only [Err.pathOf]; exact List.prefix_refl _)
  · exact structLoopG_ext conf cmpf hc got want ga wa ro _ s p r h

/-- The map key loop only appends records below the map's path. -/
theorem mapLoopG_ext (cmpf : CmpStep) (mlook : Val → Val → Val)
    (hc : ∀ g w ga wa ro s q r, cmpf g w ga wa ro s q = some r → ErrsExt s r q)
    (got want : Val) (ro : Bool) :
    ∀ keys s p r, mapLoopG cmpf mlook got want ro s p keys = some r →
      ErrsExt s r p := by
  intro keys
  induction keys with
  | nil =>
    intro s p r h
    rw [mapLoopG] at h
    simp only [Option.some.injEq] at h
    exact errsExt_same p (by rw [← h])
  | cons k rest ih =>
    intro s p r h
    rw [mapLoopG] at h
    split at h
    · exact errsExt_trans (errsExt_push s p _ (by simp only [Err.pathOf]; exact List.prefix_append _ _)) (ih _ p r h)
    · rcases h1 : cmpf (mlook got k) (mlook want k) none none ro s (p ++ [.mapnode k]) with _ | s1
      · rw [h1] at h; exact absurd h (by simp)
      · rw [h1] at h
        exact errsExt_trans (errsExt_weaken (hc _ _ _ _ _ _ _ _ h1)) (ih s1 p r h)

/-- compareMapG only appends records at or below the path. -/
theorem compareMapG_ext (cmpf : CmpStep) (mlook : Val → Val → Val)
    (hc : ∀ g w ga wa ro s q r, cmpf g w ga wa ro s q = some r → ErrsExt s r q)
    (got want : Val) (ro : Bool) (s : Cmp) (p : Path) (r : Cmp)
    (h : compareMapG cmpf mlook got want ro s p = some r) :
    ErrsExt s r p := by
  unfold compareMapG at h
  split at h
  · simp only [Option.some.injEq] at h
    exact errsExt_same p (by rw [← h])
  · split at h
    · simp only [Option.some.injEq] at h
      exact h ▸ errsExt_push s p _ (by simp only [Err.pathOf]; exact List.prefix_refl _)
    · split at h
      · simp only [Option.some.injEq] at h
        exact h ▸ errsExt_push s p _ (by simp only [Err.pathOf]; exact List.prefix_refl _)
      · exact mapLoopG_ext cmpf mlook hc got want ro _ s p r h

/-- Receiving never changes the error list. -/
theorem recvF_errs (s : Cmp) (cid : Nat) : (recvF s cid).2.errs = s.errs := by
  unfold recvF
  split
  · rfl
  · rfl

/-- The channel drain loop only appends records below the path. -/
theorem chanLoopG_ext (cmpf : CmpStep)
    (hc : ∀ g w ga wa ro s q r, cmpf g w ga wa ro s q = some r → ErrsExt s r q)
    (gc wc : Nat) (ro : Bool) :
    ∀ is s p r, chanLoopG cmpf gc wc ro s p is = some r → ErrsExt s r p := by
  intro is
  induction is with
  | nil =>
    intro s p r h
    rw [chanLoopG] at h
    simp only [Option.some.injEq] at h
    exact errsExt_same p (by rw [← h])
  | cons i is ih =>
    intro s p r h
    rw [chanLoopG] at h
    split at h
    · exact absurd h (by simp)
    · next s3 h1 =>
        have hrecv : (recvF (recvF s gc).2 wc).2.errs = s.errs := by
          rw [recvF_errs, recvF_errs]
        exact errsExt_trans (errsExt_same p hrecv)
          (errsExt_trans (errsExt_weaken (hc _ _ _ _ _ _ _ _ h1)) (ih s3 p r h))

/-- compareChanG only appends records at or below the path. -/
theorem compareChanG_ext (cmpf : CmpStep)
    (hc : ∀ g w ga wa ro s q r, cmpf g w ga wa ro s q = some r → ErrsExt s r q)
    (got want : Val) (ro : Bool) (s : Cmp) (p : Path) (r : Cmp)
    (h : compareChanG cmpf got want ro s p = some r) :
    ErrsExt s r p := by
  unfold compareChanG at h
  split at h
  · simp only [Option.some.injEq] at h
    exact h ▸ errsExt_push s p _ (by simp only [Err.pathOf]; exact List.prefix_refl _)
  · exact chanLoopG_ext cmpf hc got.ptrV want.ptrV ro _ s p r h

/-- The dispatch only appends records at or below the path. -/
theorem compareDispatchG_ext (conf : Config) (cmpf : CmpStep) (isZf : Val → Bool)
    (mlook : Val → Val → Val)
    (hc : ∀ g w ga wa ro s q r, cmpf g w ga wa ro s q = some r → ErrsExt s r q)
    (got want : Val) (ga wa : Option Nat) (ro : Bool) (s : Cmp) (p : Path) (r : Cmp)
    (h : compareDispatchG conf cmpf isZf mlook got want ga wa ro s p = some r) :
    ErrsExt s r p := by
  unfold compareDispatchG at h
  split at h
  · split at h
    · simp only [Option.some.injEq] at h
      subst h
      exact ⟨[_], rfl, by simp only [List.mem_singleton, forall_eq, Err.pathOf]; exact List.prefix_refl _⟩
    · simp only [Option.some.injEq] at h
      exact errsExt_same p (by rw [← h])
  · split at h
    · exact compareArrayG_ext conf cmpf hc got want _ _ ro s p r h
    · exact compareSliceG_ext conf cmpf hc got want ro s p r h
    · split at h
      · simp only [Option.some.injEq] at h
        exact h ▸ errsExt_push s p _ (by simp only [Err.pathOf]; exact List.prefix_refl _)
      · exact hc _ _ _ _ _ _ _ _ h
    · split at h
      · simp only [Option.some.injEq] at h
        exact errsExt_same p (by rw [← h])
      · exact hc _ _ _ _ _ _ _ _ h
    · exact compareStructG_ext conf cmpf hc got want ga wa ro s p r h
    · exact compareMapG_ext cmpf mlook hc got want ro s p r h
    · split at h
      · simp only [Option.some.injEq] at h
        exact h ▸ errsExt_push s p _ (by simp only [Err.pathOf]; exact List.prefix_refl _)
      · simp only [Option.some.injEq] at h
        exact errsExt_same p (by rw [← h])
    · split at h
      · simp only [Option.some.injEq] at h
        exact errsExt_same p (by rw [← h])
      · simp only [Option.some.injEq] at h
        exact h ▸ errsExt_push s p _ (by simp only [Err.pathOf]; exact List.prefix_refl _)
    · exact compareChanG_ext cmpf hc got want ro s p r h
    · split at h
      · simp only [Option.some.injEq] at h
        exact errsExt_same p (by rw [← h])
      · simp only [Option.some.injEq] at h
        exact h ▸ errsExt_push s p _ (by simp only [Err.pathOf]; exact List.prefix_refl _)

/-- compareF only appends records, and every appended record's path
extends the path at which it was found. -/
theorem compareF_ext : ∀ fuel conf got want ga wa ro s p r,
    compareF fuel conf got want ga wa ro s p = some r → ErrsExt s r p := by
  intro fuel
  induction fuel with
  | zero => intro conf got want ga wa ro s p r h; simp [compareF] at h
  | succ n ih =>
    intro conf got want ga wa ro s p r h
    rw [compareF] at h
    split at h
    · simp only [Option.some.injEq] at h
      exact h ▸ errsExt_push s p _ (by simp only [Err.pathOf]; exact List.prefix_refl _)
    · split at h
      · simp only [Option.some.injEq] at h
        exact errsExt_same p (by rw [← h])
      · split at h
        · simp only [Option.some.injEq] at h
          exact h ▸ errsExt_push s p _ (by simp only [Err.pathOf]; exact List.prefix_refl _)
        · split at h
          · split at h
            · simp only [Option.some.injEq] at h
              exact errsExt_same p (by rw [← h])
            · have hd := compareDispatchG_ext conf _ _ _
                (fun g w ga2 wa2 ro2 s2 q r2 hh => ih conf g w ga2 wa2 ro2 s2 q r2 hh)
                got want ga wa ro
                { s with visits := mkVisit (ga.getD 0) (wa.getD 0) got.tyD :: s.visits } p r h
              exact errsExt_trans (errsExt_same p rfl) hd
          · exact compareDispatchG_ext conf _ _ _
              (fun g w ga2 wa2 ro2 s2 q r2 hh => ih conf g w ga2 wa2 ro2 s2 q r2 hh)
              got want ga wa ro s p r h

/-! ### C6: map comparison asymmetry -/

/-- The map key loop records a Validity mismatch at the path of each
(want-)key whose lookup fails on either side, and every record it
appends lies at or below some want-key path. -/
theorem mapLoopG_keys (cmpf : CmpStep) (mlook : Val → Val → Val)
    (hc : ∀ g w ga wa ro s q r, cmpf g w ga wa ro s q = some r → ErrsExt s r q)
    (got want : Val) (ro : Bool) :
    ∀ keys s p r, mapLoopG cmpf mlook got want ro s p keys = some r →
      ∃ t, r.errs = s.errs ++ t
        ∧ (∀ k ∈ keys, ((mlook got k).isValid = false ∨ (mlook want k).isValid = false) →
            Err.validity (mlook got k) (mlook want k) (p ++ [.mapnode k]) ∈ t)
        ∧ (∀ e ∈ t, ∃ k ∈ keys, (p ++ [.mapnode k]) <+: e.pathOf) := by
  intro keys
  induction keys with
  | nil =>
    intro s p r h
    rw [mapLoopG] at h
    simp only [Option.some.injEq] at h
    exact ⟨[], by simp [← h], by simp, by simp⟩
  | cons k rest ih =>
    intro s p r h
    rw [mapLoopG] at h
    split at h
    · next hcond =>
        obtain ⟨t1, he1, hv1, hp1⟩ := ih _ p r h
        refine ⟨Err.validity (mlook got k) (mlook want k) (p ++ [.mapnode k]) :: t1, ?_, ?_, ?_⟩
        · rw [he1]
          simp [Cmp.push]
        · intro k2 hk2 hbad
          rcases List.mem_cons.1 hk2 with hk2 | hk2
          · subst hk2
            exact List.mem_cons_self _ _
          · exact List.mem_cons_of_mem _ (hv1 k2 hk2 hbad)
        · intro e he
          rcases List.mem_cons.1 he with he | he
          · exact ⟨k, List.mem_cons_self _ _, by simp [he, Err.pathOf]⟩
          · obtain ⟨k2, hk2, hpre⟩ := hp1 e he
            exact ⟨k2, List.mem_cons_of_mem _ hk2, hpre⟩
    · next hcond =>
        split at h
        · exact absurd h (by simp)
        · next s1 h1 =>
            obtain ⟨t0, he0, hpre0⟩ := hc _ _ _ _ _ _ _ _ h1
            obtain ⟨t1, he1, hv1, hp1⟩ := ih s1 p r h
            refine ⟨t0 ++ t1, by rw [he1, he0, List.append_assoc], ?_, ?_⟩
            · intro k2 hk2 hbad
              rcases List.mem_cons.1 hk2 with hk2 | hk2
              · subst hk2
                exfalso
                simp only [Bool.or_eq_true, Bool.not_eq_true'] at hcond
                rcases hbad with hbad | hbad
                · exact hcond (Or.inl hbad)
                · exact hcond (Or.inr hbad)
              · exact List.mem_append_right _ (hv1 k2 hk2 hbad)
            · intro e he
              rcases List.mem_append.1 he with he | he
              · exact ⟨k, List.mem_cons_self _ _, hpre0 e he⟩
              · obtain ⟨k2, hk2, hpre⟩ := hp1 e he
                exact ⟨k2, List.mem_cons_of_mem _ hk2, hpre⟩

/-- C6: for two same-typed, same-length, non-identical (and non-nil)
maps, the comparison walks want's keys: when got lacks a key of want
(the lookup is invalid) a Validity mismatch is recorded at that key's
path, and every record the map comparison appends lies at or below the
path of some key of want - keys present only in got are never
reported. -/
theorem c6_map_asymmetry (conf : Config) (kt et : Ty) (tid m1 m2 : Nat)
    (es1 es2 : List (Val × Val))
    (hne : m1 ≠ m2) (hm1 : m1 ≠ 0) (hm2 : m2 ≠ 0) (hlen : es1.length = es2.length)
    (fuel : Nat) (ro : Bool) (s : Cmp) (p : Path) (r : Cmp)
    (hz : s.zero = false)
    (h : compareF fuel conf (.mp (.mapT kt et tid) m1 es1) (.mp (.mapT kt et tid) m2 es2)
      none none ro s p = some r) :
    ∃ t, r.errs = s.errs ++ t
      ∧ (∀ k ∈ es2.map Prod.fst,
          (mapIndexF fuel (.mp (.mapT kt et tid) m1 es1) k).isValid = false →
          Err.validity (mapIndexF fuel (.mp (.mapT kt et tid) m1 es1) k)
            (mapIndexF fuel (.mp (.mapT kt et tid) m2 es2) k) (p ++ [.mapnode k]) ∈ t)
      ∧ (∀ e ∈ t, ∃ k ∈ es2.map Prod.fst, (p ++ [.mapnode k]) <+: e.pathOf) := by
  match fuel with
  | 0 => simp [compareF] at h
  | fuel + 1 =>
    rw [compareF] at h
    rw [if_neg (by simp [Val.isValid])] at h
    rw [if_neg (by simp [Val.isValid])] at h
    rw [if_neg (by simp [Val.tyD])] at h
    rw [if_neg (by simp)] at h
    rw [compareDispatchG] at h
    rw [if_neg (by simp [hz])] at h
    simp only [Val.tyD, Ty.kind] at h
    rw [compareMapG] at h
    rw [if_neg (show ¬ (Val.mp (Ty.mapT kt et tid) m1 es1).ptrV =
      (Val.mp (Ty.mapT kt et tid) m2 es2).ptrV from hne)] at h
    rw [if_neg (by
      show ¬ (Val.mp (Ty.mapT kt et tid) m1 es1).isNilV ≠ (Val.mp (Ty.mapT kt et tid) m2 es2).isNilV
      simp only [Val.isNilV, ne_eq, beq_iff_eq]
      intro hc
      simp [hm1, hm2] at hc)] at h
    rw [if_neg (show ¬ (Val.mp (Ty.mapT kt et tid) m1 es1).lenV ≠
      (Val.mp (Ty.mapT kt et tid) m2 es2).lenV from by simpa [Val.lenV] using hlen)] at h
    have hkeys := mapLoopG_keys _ (mapIndexF (fuel + 1))
      (fun g w ga wa ro2 s2 q r2 hh => compareF_ext fuel conf g w ga wa ro2 s2 q r2 hh)
      (Val.mp (Ty.mapT kt et tid) m1 es1) (Val.mp (Ty.mapT kt et tid) m2 es2) ro
      ((Val.mp (Ty.mapT kt et tid) m2 es2).entriesV.map Prod.fst) s p r h
    obtain ⟨t, he, hv, hp⟩ := hkeys
    refine ⟨t, he, ?_, ?_⟩
    · intro k hk hbad
      exact hv k (by simpa [Val.entriesV] using hk) (Or.inl hbad)
    · intro e he2
      obtain ⟨k, hk, hpre⟩ := hp e he2
      exact ⟨k, by simpa [Val.entriesV] using hk, hpre⟩

/-- C6 witness: maps with keys (1, 3) against want keys (2, 1): got
lacks key 2, so a Validity record appears at key 2's path. -/
theorem c6_witness :
    ∃ r t, compareF 20 {} mapGot mapWant none none false (newComparison []) [] = some r
      ∧ r.errs = (newComparison []).errs ++ t
      ∧ Err.validity (mapIndexF 20 mapGot (vInt 2)) (mapIndexF 20 mapWant (vInt 2))
          ([] ++ [PNode.mapnode (vInt 2)]) ∈ t := by
  obtain ⟨t, he, hv, hp⟩ := c6_map_asymmetry {} tyInt tyStr 8 1 2
    [(vInt 1, vStr "one"), (vInt 3, vStr "two")] [(vInt 2, vStr "two"), (vInt 1, vStr "one")]
    (by decide) (by decide) (by decide) (by decide) 20 false (newComparison []) [] _ rfl rfl
  exact ⟨_, t, rfl, he, hv (vInt 2) (by simp) (by rfl)⟩

/-! ### C1: reflexivity

Two executable conditions on a value relative to a channel world.
`plainOKF` is the amended claim's hypothesis: the value is well-kinded,
contains no NaN and no callable members anywhere, and every channel
member has an empty buffer.  `reflOKF` is the weaker condition the
proof actually needs: slices, maps and pointers compare equal to
themselves by storage identity before their contents are ever read, so
only array elements, interface elements and struct fields require
recursive safety.  Fuel 0 makes both false. -/

def plainOKF : Nat → List (List Val) → Val → Bool
  | 0, _, _ => false
  | fuel + 1, w, v =>
    match v with
    | .invalid => true
    | .scal t nan _ => t.kind == .scalK && !nan
    | .str t _ => t.kind == .strK
    | .arr t es => t.kind == .arrK && es.all (plainOKF fuel w)
    | .sli t _ es => t.kind == .sliK && es.all (plainOKF fuel w)
    | .mp t _ ents => t.kind == .mapK && ents.all (fun e => plainOKF fuel w e.1 && plainOKF fuel w e.2)
    | .ptr t _ tgt => t.kind == .ptrK && plainOKF fuel w tgt
    | .iface t e => t.kind == .ifaceK && plainOKF fuel w e
    | .fn _ _ => false
    | .ch t cid => t.kind == .chanK && (chanBufW w cid).isEmpty
    | .strct t _ fs => t.kind == .structK && fs.all (plainOKF fuel w)

def reflOKF : Nat → List (List Val) → Val → Bool
  | 0, _, _ => false
  | fuel + 1, w, v =>
    match v with
    | .invalid => true
    | .scal t nan _ => t.kind == .scalK && !nan
    | .str t _ => t.kind == .strK
    | .arr t es => t.kind == .arrK && es.all (reflOKF fuel w)
    | .sli t _ _ => t.kind == .sliK
    | .mp t _ _ => t.kind == .mapK
    | .ptr t _ _ => t.kind == .ptrK
    | .iface t e => t.kind == .ifaceK && reflOKF fuel w e
    | .fn t fp => t.kind == .funcK && fp == 0
    | .ch t cid => t.kind == .chanK && (chanBufW w cid).isEmpty
    | .strct t _ fs => t.kind == .structK && fs.all (reflOKF fuel w)

/-- The claim's hypothesis implies the proof's. -/
theorem plainOKF_reflOKF : ∀ fuel w v, plainOKF fuel w v = true → reflOKF fuel w v = true := by
  intro fuel
  induction fuel with
  | zero => intro w v h; exact h
  | succ n ih =>
    intro w v h
    match v with
    | .invalid => rfl
    | .scal t nan x => exact h
    | .str t x => exact h
    | .arr t es =>
      rw [plainOKF] at h
      rw [reflOKF]
      simp only [Bool.and_eq_true, List.all_eq_true] at h ⊢
      exact ⟨h.1, fun x hx => ih w x (h.2 x hx)⟩
    | .sli t d es =>
      rw [plainOKF] at h
      rw [reflOKF]
      simp only [Bool.and_eq_true] at h
      exact h.1
    | .mp t m ents =>
      rw [plainOKF] at h
      rw [reflOKF]
      simp only [Bool.and_eq_true] at h
      exact h.1
    | .ptr t a tgt =>
      rw [plainOKF] at h
      rw [reflOKF]
      simp only [Bool.and_eq_true] at h
      exact h.1
    | .iface t e =>
      rw [plainOKF] at h
      rw [reflOKF]
      simp only [Bool.and_eq_true] at h ⊢
      exact ⟨h.1, ih w e h.2⟩
    | .fn t fp => exact absurd h (by rw [plainOKF]; simp)
    | .ch t cid => exact h
    | .strct t inst fs =>
      rw [plainOKF] at h
      rw [reflOKF]
      simp only [Bool.and_eq_true, List.all_eq_true] at h ⊢
      exact ⟨h.1, fun x hx => ih w x (h.2 x hx)⟩

/-- Full state equality from component equality. -/
theorem Cmp.ext1 (a b : Cmp) (h1 : a.errs = b.errs) (h2 : a.visits = b.visits)
    (h3 : a.zero = b.zero) (h4 : a.chans = b.chans) (h5 : a.blocked = b.blocked) : a = b := by
  cases a
  cases b
  simp_all

/-- Comparison-state components the engine must preserve on a clean
self-comparison: the error list, the channel world and the blocked
flag (visits and the zero flag may legitimately change). -/
def Unch (s r : Cmp) : Prop :=
  r.errs = s.errs ∧ r.chans = s.chans ∧ r.blocked = s.blocked

/-- compare on two invalid values stops with no record and no state
change. -/
theorem compareF_invalid (fuel : Nat) (conf : Config) (a b : Option Nat) (ro : Bool)
    (s : Cmp) (p : Path) (r : Cmp) :
    compareF fuel conf .invalid .invalid a b ro s p = some r → r = s := by
  match fuel with
  | 0 => intro h; exact absurd h (by rw [compareF]; simp)
  | fuel + 1 =>
    intro h
    rw [compareF] at h
    rw [if_neg (fun hc : Val.invalid.isValid ≠ Val.invalid.isValid => hc rfl)] at h
    rw [if_pos (show Val.invalid.isValid = false from rfl)] at h
    exact (Option.some.inj h).symm

/-- Self-comparison leaves errors, channels and the blocked flag
untouched: the element loop case. -/
theorem compareElemsG_refl (cmpf : CmpStep) (v : Val) (gaf : Nat → Option Nat) (ro : Bool)
    (w : List (List Val)) (okp : Val → Prop)
    (hok : ∀ i, okp (v.elemD i))
    (hc : ∀ g a s q r, okp g → s.chans = w → cmpf g g a a ro s q = some r → Unch s r) :
    ∀ is s p r, s.chans = w → compareElemsG cmpf v v gaf gaf ro s p is = some r → Unch s r := by
  intro is
  induction is with
  | nil =>
    intro s p r hw h
    rw [compareElemsG] at h
    simp only [Option.some.injEq] at h
    rw [← h]
    exact ⟨rfl, rfl, rfl⟩
  | cons i is ih =>
    intro s p r hw h
    rw [compareElemsG] at h
    split at h
    · exact absurd h (by simp)
    · next s1 h1 =>
        obtain ⟨e1, c1, b1⟩ := hc _ _ _ _ _ (hok i) hw h1
        obtain ⟨e2, c2, b2⟩ := ih s1 p r (c1.trans hw) h
        exact ⟨e2.trans e1, c2.trans c1, b2.trans b1⟩

/-- Self-comparison via equals: the run starts from a fresh state over
the same world, finds no mismatch, and hands the carried state back
unchanged. -/
theorem equalsG_refl (cmpf : CmpStep) (ro : Bool) (w : List (List Val)) (okp : Val → Prop)
    (hc : ∀ g a s q r, okp g → s.chans = w → cmpf g g a a ro s q = some r → Unch s r)
    (g : Val) (a : Option Nat) (hg : okp g) :
    ∀ s b s1, s.chans = w → equalsG cmpf g g a a ro s = some (b, s1) → b = true ∧ s1 = s := by
  intro s b s1 hw h
  rw [equalsG] at h
  rcases hrun : cmpf g g a a ro
      { errs := [], visits := [], zero := false, chans := s.chans, blocked := s.blocked } [] with _ | r
  · rw [hrun] at h
    exact absurd h (by simp)
  · rw [hrun] at h
    obtain ⟨he, hch, hb⟩ := hc g a
      { errs := [], visits := [], zero := false, chans := s.chans, blocked := s.blocked } [] r hg hw hrun
    simp only [Option.some.injEq, Prod.mk.injEq] at h
    constructor
    · rw [← h.1, he]
      rfl
    · rw [← h.2]
      exact Cmp.ext1 _ _ rfl rfl rfl hch hb

/-- The ignore-order pool scan on a pool whose head is the probed
element itself: the first trial matches and removes the head. -/
theorem ignoreOrderScanG_refl
    (eqf : Val → Val → Option Nat → Option Nat → Bool → Cmp → Option (Bool × Cmp))
    (v : Val) (gaf : Nat → Option Nat) (ro : Bool) (w : List (List Val))
    (heq : ∀ i s b s1, s.chans = w →
      eqf (v.elemD i) (v.elemD i) (gaf i) (gaf i) ro s = some (b, s1) → b = true ∧ s1 = s)
    (i : Nat) (rest : List Nat) (s : Cmp) (o : Option (List Nat)) (s2 : Cmp)
    (hw : s.chans = w)
    (h : ignoreOrderScanG eqf v gaf ro (v.elemD i) (gaf i) s (i :: rest) = some (o, s2)) :
    o = some rest ∧ s2 = s := by
  rw [ignoreOrderScanG] at h
  rcases hrun : eqf (v.elemD i) (v.elemD i) (gaf i) (gaf i) ro s with _ | ⟨b, s1⟩
  · rw [hrun] at h
    exact absurd h (by simp)
  · rw [hrun] at h
    obtain ⟨hb, hs⟩ := heq i s b s1 hw hrun
    subst hb
    subst hs
    simp only [Option.some.injEq, Prod.mk.injEq] at h
    exact ⟨h.1.symm, h.2.symm⟩

/-- The ignore-order loop where the remaining want indices equal the
remaining pool: every index matches itself first, and the loop returns
the state it was given. -/
theorem ignoreOrderLoopG_refl
    (eqf : Val → Val → Option Nat → Option Nat → Bool → Cmp → Option (Bool × Cmp))
    (v : Val) (gaf : Nat → Option Nat) (ro : Bool) (w : List (List Val))
    (heq : ∀ i s b s1, s.chans = w →
      eqf (v.elemD i) (v.elemD i) (gaf i) (gaf i) ro s = some (b, s1) → b = true ∧ s1 = s) :
    ∀ l s p r, s.chans = w → ignoreOrderLoopG eqf v v gaf gaf ro s p l l = some r → r = s := by
  intro l
  induction l with
  | nil =>
    intro s p r hw h
    rw [ignoreOrderLoopG] at h
    exact (Option.some.inj h).symm
  | cons i is ih =>
    intro s p r hw h
    rw [ignoreOrderLoopG] at h
    rcases hscan : ignoreOrderScanG eqf v gaf ro (v.elemD i) (gaf i) s (i :: is) with _ | ⟨o, s2⟩
    · rw [hscan] at h
      exact absurd h (by simp)
    · obtain ⟨ho, hs⟩ := ignoreOrderScanG_refl eqf v gaf ro w heq i is s o s2 hw hscan
      subst ho
      subst hs
      rw [hscan] at h
      exact ih s2 p r hw h

/-- Self-comparison through the struct field loop. -/
theorem structLoopG_refl (conf : Config) (cmpf : CmpStep) (v : Val) (ga : Option Nat) (ro : Bool)
    (w : List (List Val)) (okp : Val → Prop)
    (hok : ∀ i, okp (v.fieldD i))
    (hc : ∀ g a ro2 s q r, okp g → s.chans = w → cmpf g g a a ro2 s q = some r → Unch s r) :
    ∀ is s p r, s.chans = w → structLoopG conf cmpf v v ga ga ro s p is = some r → Unch s r := by
  intro is
  induction is with
  | nil =>
    intro s p r hw h
    rw [structLoopG] at h
    simp only [Option.some.injEq] at h
    rw [← h]
    exact ⟨rfl, rfl, rfl⟩
  | cons i is ih =>
    intro s p r hw h
    rw [structLoopG] at h
    split at h
    · exact ih s p r hw h
    · split at h
      · exact absurd h (by simp)
      · next s1 h1 =>
          have hwz : (if structTag conf v i = "+" then { s with zero := true } else s).chans = w := by
            split
            · exact hw
            · exact hw
          obtain ⟨e1, c1, b1⟩ := hc _ _ _ _ _ _ (hok i) hwz h1
          obtain ⟨e2, c2, b2⟩ := ih s1 p r (by rw [c1]; exact hwz) h
          have hze : (if structTag conf v i = "+" then { s with zero := true } else s).errs = s.errs := by
            split
            · rfl
            · rfl
          have hzc : (if structTag conf v i = "+" then { s with zero := true } else s).chans = s.chans := by
            split
            · rfl
            · rfl
          have hzb : (if structTag conf v i = "+" then { s with zero := true } else s).blocked = s.blocked := by
            split
            · rfl
            · rfl
          exact ⟨e2.trans (e1.trans hze), c2.trans (c1.trans hzc), b2.trans (b1.trans hzb)⟩

/-- The kind dispatch under self-comparison: with the one-shot zero
flag handled, every kind either short-circuits on identity or recurses
into members the safety condition covers. -/
theorem compareDispatchG_refl (fuel : Nat) (conf : Config) (v : Val) (a : Option Nat)
    (ro : Bool) (s : Cmp) (p : Path) (r : Cmp)
    (hok : reflOKF (fuel + 1) s.chans v = true)
    (hv : v.isValid = true)
    (ih : ∀ v2 a2 ro2 s2 p2 r2, reflOKF fuel s2.chans v2 = true →
      compareF fuel conf v2 v2 a2 a2 ro2 s2 p2 = some r2 → Unch s2 r2)
    (h : compareDispatchG conf
        (fun g w2 ga2 wa2 ro2 s2 q => compareF fuel conf g w2 ga2 wa2 ro2 s2 q)
        (isZeroF (fuel + 1)) (mapIndexF (fuel + 1)) v v a a ro s p = some r) :
    Unch s r := by
  rw [compareDispatchG] at h
  by_cases hz : s.zero = true
  · rw [if_pos hz] at h
    rw [if_neg (fun hc : isZeroF (fuel + 1) v ≠ isZeroF (fuel + 1) v => hc rfl)] at h
    simp only [Option.some.injEq] at h
    rw [← h]
    exact ⟨rfl, rfl, rfl⟩
  · rw [if_neg hz] at h
    have hstep : ∀ g a2 ro2 s2 q r2,
        (reflOKF fuel s.chans g = true ∨ g = Val.invalid) → s2.chans = s.chans →
        compareF fuel conf g g a2 a2 ro2 s2 q = some r2 → Unch s2 r2 := by
      intro g a2 ro2 s2 q r2 hg hw2 hrun
      rcases hg with hg | hg
      · exact ih g a2 ro2 s2 q r2 (by rw [hw2]; exact hg) hrun
      · subst hg
        rw [compareF_invalid fuel conf a2 a2 ro2 s2 q r2 hrun]
        exact ⟨rfl, rfl, rfl⟩
    cases v with
    | invalid => exact Bool.noConfusion hv
    | scal t nan x =>
      rw [reflOKF] at hok
      simp only [Bool.and_eq_true, beq_iff_eq, Bool.not_eq_true'] at hok
      obtain ⟨hk, hn⟩ := hok
      subst hn
      simp only [Val.tyD, hk] at h
      rw [if_pos (show scalEq (Val.scal t false x) (Val.scal t false x) = true by simp [scalEq])] at h
      simp only [Option.some.injEq] at h
      rw [← h]
      exact ⟨rfl, rfl, rfl⟩
    | str t x =>
      rw [reflOKF] at hok
      simp only [beq_iff_eq] at hok
      simp only [Val.tyD, hok] at h
      rw [if_pos trivial] at h
      simp only [Option.some.injEq] at h
      rw [← h]
      exact ⟨rfl, rfl, rfl⟩
    | arr t es =>
      rw [reflOKF] at hok
      simp only [Bool.and_eq_true, beq_iff_eq, List.all_eq_true] at hok
      obtain ⟨hk, hall⟩ := hok
      simp only [Val.tyD, hk] at h
      rw [compareArrayG] at h
      rw [if_neg (fun hc : (Val.arr t es).lenV ≠ (Val.arr t es).lenV => hc rfl)] at h
      have hokE : ∀ i, reflOKF fuel s.chans ((Val.arr t es).elemD i) = true
          ∨ (Val.arr t es).elemD i = Val.invalid := by
        intro i
        show reflOKF fuel s.chans (es.getD i Val.invalid) = true ∨ es.getD i Val.invalid = Val.invalid
        by_cases hi : i < es.length
        · left
          rw [List.getD_eq_getElem es Val.invalid hi]
          exact hall _ (List.getElem_mem hi)
        · right
          rw [List.getD_eq_default]
          omega
      have hcR : ∀ g a2 s2 q r2,
          (reflOKF fuel s.chans g = true ∨ g = Val.invalid) → s2.chans = s.chans →
          compareF fuel conf g g a2 a2 ro s2 q = some r2 → Unch s2 r2 :=
        fun g a2 s2 q r2 hg hw2 hrun => hstep g a2 ro s2 q r2 hg hw2 hrun
      by_cases hio : conf.IgnoreArrayOrder = true
      · rw [if_pos hio] at h
        have hr := ignoreOrderLoopG_refl _ (Val.arr t es) _ ro s.chans
          (fun i s2 b s1 hw2 hrun =>
            equalsG_refl _ ro s.chans _ hcR _ _ (hokE i) s2 b s1 hw2 hrun)
          (List.range (Val.arr t es).lenV) s p r rfl h
        rw [hr]
        exact ⟨rfl, rfl, rfl⟩
      · rw [if_neg hio] at h
        exact compareElemsG_refl _ (Val.arr t es) _ ro s.chans _ hokE hcR _ s p r rfl h
    | sli t d es =>
      rw [reflOKF] at hok
      simp only [beq_iff_eq] at hok
      simp only [Val.tyD, hok] at h
      rw [compareSliceG] at h
      rw [if_pos rfl] at h
      simp only [Option.some.injEq] at h
      rw [← h]
      exact ⟨rfl, rfl, rfl⟩
    | mp t m ents =>
      rw [reflOKF] at hok
      simp only [beq_iff_eq] at hok
      simp only [Val.tyD, hok] at h
      rw [compareMapG] at h
      rw [if_pos rfl] at h
      simp only [Option.some.injEq] at h
      rw [← h]
      exact ⟨rfl, rfl, rfl⟩
    | ptr t ad tgt =>
      rw [reflOKF] at hok
      simp only [beq_iff_eq] at hok
      simp only [Val.tyD, hok] at h
      rw [if_pos trivial] at h
      simp only [Option.some.injEq] at h
      rw [← h]
      exact ⟨rfl, rfl, rfl⟩
    | iface t e =>
      rw [reflOKF] at hok
      simp only [Bool.and_eq_true, beq_iff_eq] at hok
      obtain ⟨hk, he⟩ := hok
      simp only [Val.tyD, hk] at h
      rw [if_neg (fun hc : (Val.iface t e).isNilV ≠ (Val.iface t e).isNilV => hc rfl)] at h
      exact ih _ none ro s p r he h
    | fn t fp =>
      rw [reflOKF] at hok
      simp only [Bool.and_eq_true, beq_iff_eq] at hok
      obtain ⟨hk, hfp⟩ := hok
      subst hfp
      simp only [Val.tyD, hk] at h
      rw [if_neg (show ¬((!(Val.fn t 0).isNilV || !(Val.fn t 0).isNilV) = true) by
        simp [Val.isNilV])] at h
      simp only [Option.some.injEq] at h
      rw [← h]
      exact ⟨rfl, rfl, rfl⟩
    | ch t cid =>
      rw [reflOKF] at hok
      simp only [Bool.and_eq_true, beq_iff_eq] at hok
      obtain ⟨hk, hemp⟩ := hok
      simp only [Val.tyD, hk] at h
      have hcb : chanBuf s (Val.ch t cid).ptrV = [] := by
        show chanBufW s.chans cid = []
        rcases hx : chanBufW s.chans cid with _ | ⟨y, ys⟩
        · rfl
        · rw [hx] at hemp
          exact absurd hemp (by simp)
      rw [compareChanG, hcb] at h
      rw [if_neg (fun hc : ([] : List Val).length ≠ ([] : List Val).length => hc rfl)] at h
      have h2 : some s = some r := h
      rw [← Option.some.inj h2]
      exact ⟨rfl, rfl, rfl⟩
    | strct t inst fs =>
      rw [reflOKF] at hok
      simp only [Bool.and_eq_true, beq_iff_eq, List.all_eq_true] at hok
      obtain ⟨hk, hall⟩ := hok
      simp only [Val.tyD, hk] at h
      rw [compareStructG] at h
      by_cases hti : (Val.strct t inst fs).isTimeV = true ∧ ro = false
      · rw [if_pos hti] at h
        rw [if_pos rfl] at h
        simp only [Option.some.injEq] at h
        rw [← h]
        exact ⟨rfl, rfl, rfl⟩
      · rw [if_neg hti] at h
        have hokF : ∀ i, reflOKF fuel s.chans ((Val.strct t inst fs).fieldD i) = true
            ∨ (Val.strct t inst fs).fieldD i = Val.invalid := by
          intro i
          show reflOKF fuel s.chans (fs.getD i Val.invalid) = true ∨ fs.getD i Val.invalid = Val.invalid
          by_cases hi : i < fs.length
          · left
            rw [List.getD_eq_getElem fs Val.invalid hi]
            exact hall _ (List.getElem_mem hi)
          · right
            rw [List.getD_eq_default]
            omega
        exact structLoopG_refl conf _ (Val.strct t inst fs) a ro s.chans _ hokF hstep _ s p r rfl h

/-- Self-comparison from any state: with every reachable channel empty,
no NaN outside identity-carrying containers and only nil callables, the
run adds no record and leaves the channel world and blocked flag
alone. -/
theorem compareF_refl : ∀ fuel conf v a ro s p r,
    reflOKF fuel s.chans v = true →
    compareF fuel conf v v a a ro s p = some r → Unch s r := by
  intro fuel
  induction fuel with
  | zero =>
    intro conf v a ro s p r hok h
    exact absurd hok (by rw [reflOKF]; simp)
  | succ fuel ih =>
    intro conf v a ro s p r hok h
    rw [compareF] at h
    rw [if_neg (fun hc : v.isValid ≠ v.isValid => hc rfl)] at h
    by_cases hv : v.isValid = false
    · rw [if_pos hv] at h
      rw [← Option.some.inj h]
      exact ⟨rfl, rfl, rfl⟩
    · rw [if_neg hv] at h
      rw [if_neg (fun hc : v.tyD ≠ v.tyD => hc rfl)] at h
      have hv2 : v.isValid = true := by
        cases hvv : v.isValid
        · exact absurd hvv hv
        · rfl
      by_cases hh : (a.isSome && a.isSome && hard v.tyD.kind) = true
      · rw [if_pos hh] at h
        by_cases hm : mkVisit (a.getD 0) (a.getD 0) v.tyD ∈ s.visits
        · rw [if_pos hm] at h
          rw [← Option.some.inj h]
          exact ⟨rfl, rfl, rfl⟩
        · rw [if_neg hm] at h
          exact compareDispatchG_refl fuel conf v a ro
            { s with visits := mkVisit (a.getD 0) (a.getD 0) v.tyD :: s.visits } p r hok hv2
            (fun v2 a2 ro2 s2 p2 r2 => ih conf v2 a2 ro2 s2 p2 r2) h
      · rw [if_neg hh] at h
        exact compareDispatchG_refl fuel conf v a ro s p r hok hv2
          (fun v2 a2 ro2 s2 p2 r2 => ih conf v2 a2 ro2 s2 p2 r2) h

/-- C1: reflexivity of the verdict.  As stated over all acyclic NaN-free
callable-free values the claim is false: a non-empty channel member
makes Compare(x, x) drain the one buffer from both handles, mismatch the
interleaved halves, and block (see the counterexample).  Corrected form:
for every value that is well-kinded, contains no NaN and no callable
members, and whose channel members all have empty buffers, Compare(x, x)
under any configuration returns the empty mismatch list. -/
theorem c1_reflexivity (conf : Config) (v : Val) (world : List (List Val)) (fuel : Nat)
    (r : Cmp) (hok : plainOKF fuel world v = true)
    (h : Compare conf v v world fuel = some r) : r.errs = [] := by
  rw [Compare] at h
  exact (compareF_refl fuel conf v none false (newComparison world) _ r
    (plainOKF_reflOKF fuel world v hok) h).1

/-- A channel type over int and a reflexivity fixture touching scalars,
strings, arrays, slices, pointers, interfaces, empty channels and nested
structs. -/
def tch : Ty := .chanT tyInt 9

def tyR : Ty := .structT 20 false
  [⟨"A", true, []⟩, ⟨"B", true, []⟩, ⟨"C", true, []⟩, ⟨"D", true, []⟩, ⟨"E", true, []⟩]

def reflVal : Val :=
  .strct tyR 0
    [ .arr (.arrT 2 tyInt 22) [vInt 1, vInt 2],
      .sli tyIntSlice 7 [vInt 9],
      .ch tch 3,
      .iface (.ifaceT 23) (vInt 4),
      .ptr tyIntPtr 77 (vInt 6) ]

theorem c1_witness :
    plainOKF 10 [] reflVal = true ∧
    ∃ r, Compare {} reflVal reflVal [] 10 = some r ∧ r.errs = [] :=
  ⟨rfl, _, rfl, c1_reflexivity {} reflVal [] 10 _ rfl rfl⟩

/-- C1 counterexample: the same non-empty channel value on both sides.
Draining interleaves one buffer across both handles, so the element
comparison mismatches (Value record, code 5) and the second receive
finds the buffer empty, marking the run as blocked forever. -/
theorem c1_counterexample :
    (Compare {} (Val.ch tch 1) (Val.ch tch 1) [[], [vInt 1, vInt 2]] 50).map
      (fun r => (r.errs.map Err.code, r.blocked)) = some ([5], true) := rfl

/-! ### C9: the engine always returns

A size measure on values and channel worlds bounds the fuel any run
needs: every recursive comparison steps to operands whose joint size
(including what remains buffered in channels) is strictly smaller. -/

mutual

/-- Size of a value: 1 per node. -/
def sizeV : Val → Nat
  | .invalid => 1
  | .scal _ _ _ => 1
  | .str _ _ => 1
  | .arr _ es => 1 + sizeVL es
  | .sli _ _ es => 1 + sizeVL es
  | .mp _ _ ents => 1 + sizeVPL ents
  | .ptr _ _ tgt => 1 + sizeV tgt
  | .iface _ e => 1 + sizeV e
  | .fn _ _ => 1
  | .ch _ _ => 1
  | .strct _ _ fs => 1 + sizeVL fs

/-- Size of a list of values. -/
def sizeVL : List Val → Nat
  | [] => 0
  | v :: r => sizeV v + sizeVL r

/-- Size of a list of map entries. -/
def sizeVPL : List (Val × Val) → Nat
  | [] => 0
  | (a, b) :: r => sizeV a + sizeV b + sizeVPL r

end

/-- Size of one channel buffer. -/
def bufSize (b : List Val) : Nat := sizeVL b

/-- Total size buffered across the channel world. -/
def storeSize : List (List Val) → Nat
  | [] => 0
  | b :: w => bufSize b + storeSize w

theorem sizeV_pos : ∀ v, 1 ≤ sizeV v := by
  intro v
  cases v <;> simp [sizeV] <;> omega

theorem sizeVL_mem : ∀ (es : List Val) (e : Val), e ∈ es → sizeV e ≤ sizeVL es := by
  intro es
  induction es with
  | nil => intro e he; cases he
  | cons v r ih =>
    intro e he
    rw [sizeVL]
    rcases List.mem_cons.mp he with he | he
    · subst he; omega
    · have := ih e he
      omega

theorem sizeVPL_mem : ∀ (ents : List (Val × Val)) (k x : Val), (k, x) ∈ ents →
    sizeV k + sizeV x ≤ sizeVPL ents := by
  intro ents
  induction ents with
  | nil => intro k x h; cases h
  | cons e r ih =>
    intro k x h
    rcases e with ⟨a, b⟩
    rw [sizeVPL]
    rcases List.mem_cons.mp h with h | h
    · cases h
      omega
    · have := ih k x h
      omega

theorem bufSize_zero : ∀ b, bufSize b = 0 → b = [] := by
  intro b h
  cases b with
  | nil => rfl
  | cons v r =>
    rw [bufSize, sizeVL] at h
    have := sizeV_pos v
    omega

theorem storeSize_getD_le : ∀ (w : List (List Val)) (cid : Nat), bufSize (w.getD cid []) ≤ storeSize w := by
  intro w
  induction w with
  | nil => intro cid; cases cid <;> simp [bufSize, sizeVL]
  | cons b w ih =>
    intro cid
    cases cid with
    | zero =>
      rw [storeSize]
      simp only [List.getD_cons_zero]
      omega
    | succ c =>
      have := ih c
      rw [storeSize]
      simp only [List.getD_cons_succ]
      omega

theorem storeSize_set_recv : ∀ (w : List (List Val)) (cid : Nat) (v : Val) (rest : List Val),
    w.getD cid [] = v :: rest → storeSize (w.set cid rest) + sizeV v = storeSize w := by
  intro w
  induction w with
  | nil => intro cid v rest h; cases cid <;> exact absurd h (by simp [List.getD])
  | cons b w ih =>
    intro cid v rest h
    cases cid with
    | zero =>
      simp only [List.getD_cons_zero] at h
      subst h
      rw [List.set]
      rw [storeSize, storeSize, bufSize, bufSize, sizeVL]
      omega
    | succ c =>
      simp only [List.getD_cons_succ] at h
      rw [List.set]
      rw [storeSize, storeSize]
      have := ih c v rest h
      omega

/-! ### Channel-store monotonicity

Running the engine can only drain channels, never fill them, and a run
over a fully drained (all-empty) world touches neither the world nor
the blocked flag. -/

/-- The channel store only shrinks from s to r, and an all-empty store
is preserved exactly, together with the blocked flag. -/
def Shrk (s r : Cmp) : Prop :=
  storeSize r.chans ≤ storeSize s.chans
    ∧ (storeSize s.chans = 0 → r.chans = s.chans ∧ r.blocked = s.blocked)

theorem shrk_same {s r : Cmp} (hc : r.chans = s.chans) (hb : r.blocked = s.blocked) :
    Shrk s r :=
  ⟨by rw [hc], fun _ => ⟨hc, hb⟩⟩

theorem shrk_trans {s t r : Cmp} (h1 : Shrk s t) (h2 : Shrk t r) : Shrk s r := by
  refine ⟨h2.1.trans h1.1, fun h0 => ?_⟩
  obtain ⟨hc1, hb1⟩ := h1.2 h0
  obtain ⟨hc2, hb2⟩ := h2.2 (by rw [hc1]; exact h0)
  exact ⟨hc2.trans hc1, hb2.trans hb1⟩

theorem chanBuf_empty_of_store (s : Cmp) (cid : Nat) (h0 : storeSize s.chans = 0) :
    chanBuf s cid = [] := by
  rw [chanBuf, chanBufW]
  split
  · rfl
  · apply bufSize_zero
    have := storeSize_getD_le s.chans cid
    omega

/-- Receiving can only shrink the store. -/
theorem recvF_store (s : Cmp) (cid : Nat) :
    storeSize (recvF s cid).2.chans ≤ storeSize s.chans := by
  unfold recvF
  split
  · exact Nat.le_refl _
  · next v rest heq =>
      show storeSize (s.chans.set cid rest) ≤ storeSize s.chans
      rw [chanBuf, chanBufW] at heq
      by_cases h0 : cid = 0
      · rw [if_pos h0] at heq
        exact absurd heq (by simp)
      · rw [if_neg h0] at heq
        have := storeSize_set_recv s.chans cid v rest heq
        omega

theorem equalsG_shrk (cmpf : CmpStep)
    (hc : ∀ g w ga wa ro s q r, cmpf g w ga wa ro s q = some r → Shrk s r)
    (g w : Val) (ga wa : Option Nat) (ro : Bool)
    (s : Cmp) (b : Bool) (s1 : Cmp) (h : equalsG cmpf g w ga wa ro s = some (b, s1)) :
    Shrk s s1 := by
  unfold equalsG at h
  split at h
  · exact absurd h (by simp)
  · next r hrun =>
      have hs := hc _ _ _ _ _ _ _ _ hrun
      simp only [Option.some.injEq, Prod.mk.injEq] at h
      rw [← h.2]
      exact ⟨hs.1, fun h0 => ⟨(hs.2 h0).1, (hs.2 h0).2⟩⟩

theorem ignoreOrderScanG_shrk (eqf : Val → Val → Option Nat → Option Nat → Bool → Cmp → Option (Bool × Cmp))
    (heq : ∀ g w ga wa ro s b s1, eqf g w ga wa ro s = some (b, s1) → Shrk s s1)
    (got : Val) (gaf : Nat → Option Nat) (ro : Bool) (wv : Val) (wja : Option Nat) :
    ∀ gotidx s o s2, ignoreOrderScanG eqf got gaf ro wv wja s gotidx = some (o, s2) →
      Shrk s s2 := by
  intro gotidx
  induction gotidx with
  | nil =>
    intro s o s2 h
    rw [ignoreOrderScanG] at h
    simp only [Option.some.injEq, Prod.mk.injEq] at h
    rw [← h.2]
    exact shrk_same rfl rfl
  | cons j rest ih =>
    intro s o s2 h
    rw [ignoreOrderScanG] at h
    split at h
    · exact absurd h (by simp)
    · next s1 heqf =>
        simp only [Option.some.injEq, Prod.mk.injEq] at h
        rw [← h.2]
        exact heq _ _ _ _ _ _ _ _ heqf
    · next s1 heqf =>
        have hs1 : Shrk s s1 := heq _ _ _ _ _ _ _ _ heqf
        split at h
        · exact absurd h (by simp)
        · next s3 hscan =>
            simp only [Option.some.injEq, Prod.mk.injEq] at h
            rw [← h.2]
            exact shrk_trans hs1 (ih s1 _ s3 hscan)
        · next rest2 s3 hscan =>
            simp only [Option.some.injEq, Prod.mk.injEq] at h
            rw [← h.2]
            exact shrk_trans hs1 (ih s1 _ s3 hscan)

theorem ignoreOrderLoopG_shrk (eqf : Val → Val → Option Nat → Option Nat → Bool → Cmp → Option (Bool × Cmp))
    (heq : ∀ g w ga wa ro s b s1, eqf g w ga wa ro s = some (b, s1) → Shrk s s1)
    (got want : Val) (gaf waf : Nat → Option Nat) (ro : Bool) :
    ∀ is gotidx s p r, ignoreOrderLoopG eqf got want gaf waf ro s p is gotidx = some r →
      Shrk s r := by
  intro is
  induction is with
  | nil =>
    intro gotidx s p r h
    rw [ignoreOrderLoopG] at h
    simp only [Option.some.injEq] at h
    rw [← h]
    exact shrk_same rfl rfl
  | cons i is ih =>
    intro gotidx s p r h
    rw [ignoreOrderLoopG] at h
    rcases h1 : ignoreOrderScanG eqf got gaf ro (want.elemD i) (waf i) s gotidx with _ | ⟨o, s1⟩
    · rw [h1] at h
      exact absurd h (by simp)
    · rw [h1] at h
      have hs1 : Shrk s s1 := ignoreOrderScanG_shrk eqf heq got gaf ro _ _ gotidx s o s1 h1
      match o with
      | some gotidx1 =>
        exact shrk_trans hs1 (ih gotidx1 s1 p r h)
      | none =>
        exact shrk_trans hs1 (shrk_trans (shrk_same rfl rfl)
          (ih gotidx (s1.push (.nilE nilIfacePtr (want.elemD i) (p ++ [.arrnode i]))) p r h))

theorem compareElemsG_shrk (cmpf : CmpStep)
    (hc : ∀ g w ga wa ro s q r, cmpf g w ga wa ro s q = some r → Shrk s r)
    (got want : Val) (gaf waf : Nat → Option Nat) (ro : Bool) :
    ∀ is s p r, compareElemsG cmpf got want gaf waf ro s p is = some r → Shrk s r := by
  intro is
  induction is with
  | nil =>
    intro s p r h
    rw [compareElemsG] at h
    simp only [Option.some.injEq] at h
    rw [← h]
    exact shrk_same rfl rfl
  | cons i is ih =>
    intro s p r h
    rw [compareElemsG] at h
    rcases h1 : cmpf (got.elemD i) (want.elemD i) (gaf i) (waf i) ro s (p ++ [.arrnode i]) with _ | s1
    · rw [h1] at h
      exact absurd h (by simp)
    · rw [h1] at h
      exact shrk_trans (hc _ _ _ _ _ _ _ _ h1) (ih s1 p r h)

theorem compareArrayG_shrk (conf : Config) (cmpf : CmpStep)
    (hc : ∀ g w ga wa ro s q r, cmpf g w ga wa ro s q = some r → Shrk s r)
    (got want : Val) (gaf waf : Nat → Option Nat) (ro : Bool) (s : Cmp) (p : Path) (r : Cmp)
    (h : compareArrayG conf cmpf got want gaf waf ro s p = some r) :
    Shrk s r := by
  unfold compareArrayG at h
  split at h
  · simp only [Option.some.injEq] at h
    rw [← h]
    exact shrk_same rfl rfl
  · split at h
    · exact ignoreOrderLoopG_shrk _ (fun g w ga wa ro2 s2 b s3 hh => equalsG_shrk cmpf hc g w ga wa ro2 s2 b s3 hh)
        got want gaf waf ro _ _ s p r h
    · exact compareElemsG_shrk cmpf hc got want gaf waf ro _ s p r h

theorem compareSliceG_shrk (conf : Config) (cmpf : CmpStep)
    (hc : ∀ g w ga wa ro s q r, cmpf g w ga wa ro s q = some r → Shrk s r)
    (got want : Val) (ro : Bool) (s : Cmp) (p : Path) (r : Cmp)
    (h : compareSliceG conf cmpf got want ro s p = some r) :
    Shrk s r := by
  unfold compareSliceG at h
  split at h
  · simp only [Option.some.injEq] at h
    rw [← h]
    exact shrk_same rfl rfl
  · split at h
    · simp only [Option.some.injEq] at h
      rw [← h]
      exact shrk_same rfl rfl
    · exact compareArrayG_shrk conf cmpf hc got want _ _ ro s p r h

theorem structLoopG_shrk (conf : Config) (cmpf : CmpStep)
    (hc : ∀ g w ga wa ro s q r, cmpf g w ga wa ro s q = some r → Shrk s r)
    (got want : Val) (ga wa : Option Nat) (ro : Bool) :
    ∀ is s p r, structLoopG conf cmpf got want ga wa ro s p is = some r → Shrk s r := by
  intro is
  induction is with
  | nil =>
    intro s p r h
    rw [structLoopG] at h
    simp only [Option.some.injEq] at h
    rw [← h]
    exact shrk_same rfl rfl
  | cons i is ih =>
    intro s p r h
    rw [structLoopG] at h
    split at h
    · exact ih s p r h
    · split at h
      · exact absurd h (by simp)
      · next s1 h1 =>
          have hfirst : Shrk s s1 := by
            refine shrk_trans ?_ (hc _ _ _ _ _ _ _ _ h1)
            split
            · exact shrk_same rfl rfl
            · exact shrk_same rfl rfl
          exact shrk_trans hfirst (ih s1 p r h)

theorem compareStructG_shrk (conf : Config) (cmpf : CmpStep)
    (hc : ∀ g w ga wa ro s q r, cmpf g w ga wa ro s q = some r → Shrk s r)
    (got want : Val) (ga wa : Option Nat) (ro : Bool) (s : Cmp) (p : Path) (r : Cmp)
    (h : compareStructG conf cmpf got want ga wa ro s p = some r) :
    Shrk s r := by
  unfold compareStructG at h
  split at h
  · split at h
    · simp only [Option.some.injEq] at h
      rw [← h]
      exact shrk_same rfl rfl
    · simp only [Option.some.injEq] at h
      rw [← h]
      exact shrk_same rfl rfl
  · exact structLoopG_shrk conf cmpf hc got want ga wa ro _ s p r h

theorem mapLoopG_shrk (cmpf : CmpStep) (mlook : Val → Val → Val)
    (hc : ∀ g w ga wa ro s q r, cmpf g w ga wa ro s q = some r → Shrk s r)
    (got want : Val) (ro : Bool) :
    ∀ keys s p r, mapLoopG cmpf mlook got want ro s p keys = some r → Shrk s r := by
  intro keys
  induction keys with
  | nil =>
    intro s p r h
    rw [mapLoopG] at h
    simp only [Option.some.injEq] at h
    rw [← h]
    exact shrk_same rfl rfl
  | cons k rest ih =>
    intro s p r h
    rw [mapLoopG] at h
    split at h
    · exact shrk_trans (shrk_same rfl rfl)
        (ih (s.push (.validity (mlook got k) (mlook want k) (p ++ [.mapnode k]))) p r h)
    · rcases h1 : cmpf (mlook got k) (mlook want k) none none ro s (p ++ [.mapnode k]) with _ | s1
      · rw [h1] at h
        exact absurd h (by simp)
      · rw [h1] at h
        exact shrk_trans (hc _ _ _ _ _ _ _ _ h1) (ih s1 p r h)

theorem compareMapG_shrk (cmpf : CmpStep) (mlook : Val → Val → Val)
    (hc : ∀ g w ga wa ro s q r, cmpf g w ga wa ro s q = some r → Shrk s r)
    (got want : Val) (ro : Bool) (s : Cmp) (p : Path) (r : Cmp)
    (h : compareMapG cmpf mlook got want ro s p = some r) :
    Shrk s r := by
  unfold compareMapG at h
  split at h
  · simp only [Option.some.injEq] at h
    rw [← h]
    exact shrk_same rfl rfl
  · split at h
    · simp only [Option.some.injEq] at h
      rw [← h]
      exact shrk_same rfl rfl
    · split at h
      · simp only [Option.some.injEq] at h
        rw [← h]
        exact shrk_same rfl rfl
      · exact mapLoopG_shrk cmpf mlook hc got want ro _ s p r h

/-- The drain loop can only shrink the store. -/
theorem chanLoopG_store (cmpf : CmpStep)
    (hc : ∀ g w ga wa ro s q r, cmpf g w ga wa ro s q = some r → Shrk s r)
    (gc wc : Nat) (ro : Bool) :
    ∀ is s p r, chanLoopG cmpf gc wc ro s p is = some r →
      storeSize r.chans ≤ storeSize s.chans := by
  intro is
  induction is with
  | nil =>
    intro s p r h
    rw [chanLoopG] at h
    simp only [Option.some.injEq] at h
    rw [← h]
  | cons i is ih =>
    intro s p r h
    rw [chanLoopG] at h
    split at h
    · exact absurd h (by simp)
    · next s3 h1 =>
        have h2 := (hc _ _ _ _ _ _ _ _ h1).1
        have h3 := recvF_store s gc
        have h4 := recvF_store (recvF s gc).2 wc
        have h5 := ih s3 p r h
        omega

theorem compareChanG_shrk (cmpf : CmpStep)
    (hc : ∀ g w ga wa ro s q r, cmpf g w ga wa ro s q = some r → Shrk s r)
    (got want : Val) (ro : Bool) (s : Cmp) (p : Path) (r : Cmp)
    (h : compareChanG cmpf got want ro s p = some r) :
    Shrk s r := by
  unfold compareChanG at h
  by_cases h0 : storeSize s.chans = 0
  · rw [chanBuf_empty_of_store s got.ptrV h0, chanBuf_empty_of_store s want.ptrV h0] at h
    rw [if_neg (fun hcc : ([] : List Val).length ≠ ([] : List Val).length => hcc rfl)] at h
    have h2 : some s = some r := h
    rw [← Option.some.inj h2]
    exact shrk_same rfl rfl
  · split at h
    · simp only [Option.some.injEq] at h
      rw [← h]
      exact shrk_same rfl rfl
    · refine ⟨chanLoopG_store cmpf hc _ _ ro _ s p r h, fun hz => absurd hz h0⟩

theorem compareDispatchG_shrk (conf : Config) (cmpf : CmpStep) (isZf : Val → Bool)
    (mlook : Val → Val → Val)
    (hc : ∀ g w ga wa ro s q r, cmpf g w ga wa ro s q = some r → Shrk s r)
    (got want : Val) (ga wa : Option Nat) (ro : Bool) (s : Cmp) (p : Path) (r : Cmp)
    (h : compareDispatchG conf cmpf isZf mlook got want ga wa ro s p = some r) :
    Shrk s r := by
  unfold compareDispatchG at h
  split at h
  · split at h
    · simp only [Option.some.injEq] at h
      rw [← h]
      exact shrk_same rfl rfl
    · simp only [Option.some.injEq] at h
      rw [← h]
      exact shrk_same rfl rfl
  · split at h
    · exact compareArrayG_shrk conf cmpf hc got want _ _ ro s p r h
    · exact compareSliceG_shrk conf cmpf hc got want ro s p r h
    · split at h
      · simp only [Option.some.injEq] at h
        rw [← h]
        exact shrk_same rfl rfl
      · exact hc _ _ _ _ _ _ _ _ h
    · split at h
      · simp only [Option.some.injEq] at h
        rw [← h]
        exact shrk_same rfl rfl
      · exact hc _ _ _ _ _ _ _ _ h
    · exact compareStructG_shrk conf cmpf hc got want ga wa ro s p r h
    · exact compareMapG_shrk cmpf mlook hc got want ro s p r h
    · split at h
      · simp only [Option.some.injEq] at h
        rw [← h]
        exact shrk_same rfl rfl
      · simp only [Option.some.injEq] at h
        rw [← h]
        exact shrk_same rfl rfl
    · split at h
      · simp only [Option.some.injEq] at h
        rw [← h]
        exact shrk_same rfl rfl
      · simp only [Option.some.injEq] at h
        rw [← h]
        exact shrk_same rfl rfl
    · exact compareChanG_shrk cmpf hc got want ro s p r h
    · split at h
      · simp only [Option.some.injEq] at h
        rw [← h]
        exact shrk_same rfl rfl
      · simp only [Option.some.injEq] at h
        rw [← h]
        exact shrk_same rfl rfl

/-- A full run can only drain channels; an all-empty world and the
blocked flag come back untouched. -/
theorem compareF_shrk : ∀ fuel conf got want ga wa ro s p r,
    compareF fuel conf got want ga wa ro s p = some r → Shrk s r := by
  intro fuel
  induction fuel with
  | zero => intro conf got want ga wa ro s p r h; simp [compareF] at h
  | succ n ih =>
    intro conf got want ga wa ro s p r h
    rw [compareF] at h
    split at h
    · simp only [Option.some.injEq] at h
      rw [← h]
      exact shrk_same rfl rfl
    · split at h
      · simp only [Option.some.injEq] at h
        rw [← h]
        exact shrk_same rfl rfl
      · split at h
        · simp only [Option.some.injEq] at h
          rw [← h]
          exact shrk_same rfl rfl
        · split at h
          · split at h
            · simp only [Option.some.injEq] at h
              rw [← h]
              exact shrk_same rfl rfl
            · have hd := compareDispatchG_shrk conf _ _ _
                (fun g w ga2 wa2 ro2 s2 q r2 hh => ih conf g w ga2 wa2 ro2 s2 q r2 hh)
                got want ga wa ro
                { s with visits := mkVisit (ga.getD 0) (wa.getD 0) got.tyD :: s.visits } p r h
              exact hd
          · exact compareDispatchG_shrk conf _ _ _
              (fun g w ga2 wa2 ro2 s2 q r2 hh => ih conf g w ga2 wa2 ro2 s2 q r2 hh)
              got want ga wa ro s p r h

/-! ### Totality: enough fuel always produces a result -/

theorem elemD_size (v : Val) (i : Nat) :
    v.elemD i = Val.invalid ∨ sizeV (v.elemD i) + 1 ≤ sizeV v := by
  cases v with
  | arr t es =>
    show es.getD i Val.invalid = Val.invalid ∨ sizeV (es.getD i Val.invalid) + 1 ≤ sizeV (Val.arr t es)
    by_cases hi : i < es.length
    · right
      rw [List.getD_eq_getElem es Val.invalid hi]
      have h1 := sizeVL_mem es _ (List.getElem_mem hi)
      have h2 : sizeV (Val.arr t es) = 1 + sizeVL es := by rw [sizeV]
      omega
    · left
      rw [List.getD_eq_default]
      omega
  | sli t d es =>
    show es.getD i Val.invalid = Val.invalid ∨ sizeV (es.getD i Val.invalid) + 1 ≤ sizeV (Val.sli t d es)
    by_cases hi : i < es.length
    · right
      rw [List.getD_eq_getElem es Val.invalid hi]
      have h1 := sizeVL_mem es _ (List.getElem_mem hi)
      have h2 : sizeV (Val.sli t d es) = 1 + sizeVL es := by rw [sizeV]
      omega
    · left
      rw [List.getD_eq_default]
      omega
  | invalid => exact Or.inl rfl
  | scal t nan x => exact Or.inl rfl
  | str t x => exact Or.inl rfl
  | mp t m ents => exact Or.inl rfl
  | ptr t a tgt => exact Or.inl rfl
  | iface t e => exact Or.inl rfl
  | fn t f => exact Or.inl rfl
  | ch t c => exact Or.inl rfl
  | strct t inst fs => exact Or.inl rfl

theorem fieldD_size (v : Val) (i : Nat) :
    v.fieldD i = Val.invalid ∨ sizeV (v.fieldD i) + 1 ≤ sizeV v := by
  cases v with
  | strct t inst fs =>
    show fs.getD i Val.invalid = Val.invalid ∨ sizeV (fs.getD i Val.invalid) + 1 ≤ sizeV (Val.strct t inst fs)
    by_cases hi : i < fs.length
    · right
      rw [List.getD_eq_getElem fs Val.invalid hi]
      have h1 := sizeVL_mem fs _ (List.getElem_mem hi)
      have h2 : sizeV (Val.strct t inst fs) = 1 + sizeVL fs := by rw [sizeV]
      omega
    · left
      rw [List.getD_eq_default]
      omega
  | invalid => exact Or.inl rfl
  | scal t nan x => exact Or.inl rfl
  | str t x => exact Or.inl rfl
  | arr t es => exact Or.inl rfl
  | sli t d es => exact Or.inl rfl
  | mp t m ents => exact Or.inl rfl
  | ptr t a tgt => exact Or.inl rfl
  | iface t e => exact Or.inl rfl
  | fn t f => exact Or.inl rfl
  | ch t c => exact Or.inl rfl

theorem derefD_size (v : Val) :
    v.derefD = Val.invalid ∨ sizeV v.derefD + 1 ≤ sizeV v := by
  cases v with
  | ptr t a tgt =>
    show (if a = 0 then Val.invalid else tgt) = Val.invalid
      ∨ sizeV (if a = 0 then Val.invalid else tgt) + 1 ≤ sizeV (Val.ptr t a tgt)
    by_cases h0 : a = 0
    · rw [if_pos h0]
      exact Or.inl rfl
    · rw [if_neg h0]
      right
      have h2 : sizeV (Val.ptr t a tgt) = 1 + sizeV tgt := by rw [sizeV]
      omega
  | invalid => exact Or.inl rfl
  | scal t nan x => exact Or.inl rfl
  | str t x => exact Or.inl rfl
  | arr t es => exact Or.inl rfl
  | sli t d es => exact Or.inl rfl
  | mp t m ents => exact Or.inl rfl
  | iface t e => exact Or.inl rfl
  | fn t f => exact Or.inl rfl
  | ch t c => exact Or.inl rfl
  | strct t inst fs => exact Or.inl rfl

theorem elemIface_size (v : Val) :
    v.elemIface = Val.invalid ∨ sizeV v.elemIface + 1 ≤ sizeV v := by
  cases v with
  | iface t e =>
    right
    show sizeV e + 1 ≤ sizeV (Val.iface t e)
    have h2 : sizeV (Val.iface t e) = 1 + sizeV e := by rw [sizeV]
    omega
  | invalid => exact Or.inl rfl
  | scal t nan x => exact Or.inl rfl
  | str t x => exact Or.inl rfl
  | arr t es => exact Or.inl rfl
  | sli t d es => exact Or.inl rfl
  | mp t m ents => exact Or.inl rfl
  | ptr t a tgt => exact Or.inl rfl
  | fn t f => exact Or.inl rfl
  | ch t c => exact Or.inl rfl
  | strct t inst fs => exact Or.inl rfl

theorem mapFindF_cases : ∀ (fuel : Nat) (ents : List (Val × Val)) (k : Val),
    mapIndexF.mapFindF fuel ents k = Val.invalid
      ∨ ∃ kk x, (kk, x) ∈ ents ∧ mapIndexF.mapFindF fuel ents k = x := by
  intro fuel ents
  induction ents with
  | nil => intro k; exact Or.inl rfl
  | cons e rest ih =>
    intro k
    rw [mapIndexF.mapFindF]
    by_cases hq : goEqF fuel e.1 k = true
    · rw [if_pos hq]
      right
      exact ⟨e.1, e.2, by simp, rfl⟩
    · rw [if_neg hq]
      rcases ih k with h | ⟨kk, x, hm, he⟩
      · exact Or.inl h
      · exact Or.inr ⟨kk, x, List.mem_cons_of_mem _ hm, he⟩

/-- A successful map lookup returns a strictly smaller value. -/
theorem mapIndexF_size (fuel : Nat) (m k : Val) :
    mapIndexF fuel m k = Val.invalid ∨ sizeV (mapIndexF fuel m k) + 1 ≤ sizeV m := by
  rw [mapIndexF]
  rcases mapFindF_cases fuel m.entriesV k with h | ⟨kk, x, hm, he⟩
  · exact Or.inl h
  · right
    rw [he]
    cases m with
    | mp t mm ents =>
      have h1 := sizeVPL_mem ents kk x hm
      have h2 : sizeV (Val.mp t mm ents) = 1 + sizeVPL ents := by rw [sizeV]
      have h3 := sizeV_pos kk
      omega
    | invalid => cases hm
    | scal t nan xx => cases hm
    | str t xx => cases hm
    | arr t es => cases hm
    | sli t d es => cases hm
    | ptr t a tgt => cases hm
    | iface t e => cases hm
    | fn t f => cases hm
    | ch t c => cases hm
    | strct t inst fs => cases hm

/-- A receive from an empty buffer yields the invalid value and marks
the run as blocked forever. -/
theorem recvF_empty (s : Cmp) (cid : Nat) (h : chanBuf s cid = []) :
    recvF s cid = (Val.invalid, { s with blocked := true }) := by
  unfold recvF
  rw [h]

/-- A receive from a non-empty buffer hands back its head and shrinks
the store by exactly that head's size. -/
theorem recvF_store_recv (s : Cmp) (cid : Nat) (v : Val) (rest : List Val)
    (h : chanBuf s cid = v :: rest) :
    (recvF s cid).1 = v ∧ storeSize (recvF s cid).2.chans + sizeV v = storeSize s.chans := by
  have e1 : recvF s cid = (v, { s with chans := s.chans.set cid rest }) := by
    unfold recvF
    rw [h]
  rw [e1]
  refine ⟨rfl, ?_⟩
  show storeSize (s.chans.set cid rest) + sizeV v = storeSize s.chans
  rw [chanBuf, chanBufW] at h
  by_cases h0 : cid = 0
  · rw [if_pos h0] at h
    exact absurd h (by simp)
  · rw [if_neg h0] at h
    exact storeSize_set_recv s.chans cid v rest h

/-- One side invalid: a single fuel step settles the comparison. -/
theorem compareF_inv_total (fuel : Nat) (conf : Config) (g w : Val) (ga wa : Option Nat)
    (ro : Bool) (s : Cmp) (p : Path) (hf : 1 ≤ fuel)
    (hd : g.isValid = false ∨ w.isValid = false) :
    compareF fuel conf g w ga wa ro s p ≠ none := by
  cases fuel with
  | zero => omega
  | succ n =>
    rw [compareF]
    by_cases hv : g.isValid ≠ w.isValid
    · rw [if_pos hv]
      simp
    · rw [if_neg hv]
      have he : g.isValid = w.isValid := not_ne_iff.mp hv
      have hgf : g.isValid = false := by
        rcases hd with hd | hd
        · exact hd
        · rw [he]
          exact hd
      rw [if_pos hgf]
      simp

theorem equalsG_total (cmpf : CmpStep) (g w : Val) (ga wa : Option Nat) (ro : Bool) (s : Cmp)
    (h : cmpf g w ga wa ro
      { errs := [], visits := [], zero := false, chans := s.chans, blocked := s.blocked } [] ≠ none) :
    equalsG cmpf g w ga wa ro s ≠ none := by
  unfold equalsG
  split
  · next heq => exact absurd heq h
  · simp

theorem ignoreOrderScanG_total
    (eqf : Val → Val → Option Nat → Option Nat → Bool → Cmp → Option (Bool × Cmp))
    (got : Val) (gaf : Nat → Option Nat) (ro : Bool) (wv : Val) (wja : Option Nat) (S0 : Nat)
    (heqShrk : ∀ g w ga wa ro2 s2 b s1, eqf g w ga wa ro2 s2 = some (b, s1) → Shrk s2 s1)
    (hel : ∀ j s2, storeSize s2.chans ≤ S0 → eqf (got.elemD j) wv (gaf j) wja ro s2 ≠ none) :
    ∀ gotidx s, storeSize s.chans ≤ S0 →
      ignoreOrderScanG eqf got gaf ro wv wja s gotidx ≠ none := by
  intro gotidx
  induction gotidx with
  | nil =>
    intro s hS
    rw [ignoreOrderScanG]
    simp
  | cons j rest ih =>
    intro s hS
    rw [ignoreOrderScanG]
    rcases htr : eqf (got.elemD j) wv (gaf j) wja ro s with _ | ⟨b, s1⟩
    · exact absurd htr (hel j s hS)
    · cases b
      · show (match ignoreOrderScanG eqf got gaf ro wv wja s1 rest with
            | none => none
            | some (none, s2) => some (none, s2)
            | some (some rest2, s2) => some (some (j :: rest2), s2)) ≠ none
        rcases hsc : ignoreOrderScanG eqf got gaf ro wv wja s1 rest with _ | ⟨o2, s2⟩
        · exact absurd hsc (ih s1 (le_trans (heqShrk _ _ _ _ _ _ _ _ htr).1 hS))
        · cases o2 <;> simp
      · simp

theorem ignoreOrderLoopG_total
    (eqf : Val → Val → Option Nat → Option Nat → Bool → Cmp → Option (Bool × Cmp))
    (got want : Val) (gaf waf : Nat → Option Nat) (ro : Bool) (S0 : Nat)
    (heqShrk : ∀ g w ga wa ro2 s2 b s1, eqf g w ga wa ro2 s2 = some (b, s1) → Shrk s2 s1)
    (hel : ∀ i j s2, storeSize s2.chans ≤ S0 →
      eqf (got.elemD j) (want.elemD i) (gaf j) (waf i) ro s2 ≠ none) :
    ∀ is gotidx s p, storeSize s.chans ≤ S0 →
      ignoreOrderLoopG eqf got want gaf waf ro s p is gotidx ≠ none := by
  intro is
  induction is with
  | nil =>
    intro gotidx s p hS
    rw [ignoreOrderLoopG]
    simp
  | cons i is ih =>
    intro gotidx s p hS
    rw [ignoreOrderLoopG]
    rcases hsc : ignoreOrderScanG eqf got gaf ro (want.elemD i) (waf i) s gotidx with _ | ⟨o, s1⟩
    · exact absurd hsc (ignoreOrderScanG_total eqf got gaf ro (want.elemD i) (waf i) S0 heqShrk
        (fun j s2 h2 => hel i j s2 h2) gotidx s hS)
    · have hS1 : storeSize s1.chans ≤ S0 :=
        le_trans (ignoreOrderScanG_shrk eqf heqShrk got gaf ro _ _ gotidx s o s1 hsc).1 hS
      cases o with
      | some idx1 => exact ih idx1 s1 p hS1
      | none => exact ih gotidx (s1.push (.nilE nilIfacePtr (want.elemD i) (p ++ [.arrnode i]))) p hS1

theorem compareElemsG_total (cmpf : CmpStep) (got want : Val)
    (gaf waf : Nat → Option Nat) (ro : Bool) (S0 : Nat)
    (hshr : ∀ g w ga wa ro2 s2 q r, cmpf g w ga wa ro2 s2 q = some r →
      storeSize r.chans ≤ storeSize s2.chans)
    (hel : ∀ i s2 q, storeSize s2.chans ≤ S0 →
      cmpf (got.elemD i) (want.elemD i) (gaf i) (waf i) ro s2 q ≠ none) :
    ∀ is s p, storeSize s.chans ≤ S0 → compareElemsG cmpf got want gaf waf ro s p is ≠ none := by
  intro is
  induction is with
  | nil =>
    intro s p hS
    rw [compareElemsG]
    simp
  | cons i is ih =>
    intro s p hS
    rw [compareElemsG]
    rcases h1 : cmpf (got.elemD i) (want.elemD i) (gaf i) (waf i) ro s (p ++ [.arrnode i]) with _ | s1
    · exact absurd h1 (hel i s (p ++ [.arrnode i]) hS)
    · rw [h1]
      exact ih s1 p (le_trans (hshr _ _ _ _ _ _ _ _ h1) hS)

theorem compareArrayG_total (conf : Config) (cmpf : CmpStep) (got want : Val)
    (gaf waf : Nat → Option Nat) (ro : Bool) (S0 : Nat)
    (hshrk : ∀ g w ga wa ro2 s2 q r, cmpf g w ga wa ro2 s2 q = some r → Shrk s2 r)
    (hcross : ∀ i j s2 q, storeSize s2.chans ≤ S0 →
      cmpf (got.elemD j) (want.elemD i) (gaf j) (waf i) ro s2 q ≠ none)
    (s : Cmp) (p : Path) (hS : storeSize s.chans ≤ S0) :
    compareArrayG conf cmpf got want gaf waf ro s p ≠ none := by
  unfold compareArrayG
  split
  · simp
  · split
    · exact ignoreOrderLoopG_total (equalsG cmpf) got want gaf waf ro S0
        (fun g w ga wa ro2 s2 b s1 hh => equalsG_shrk cmpf hshrk g w ga wa ro2 s2 b s1 hh)
        (fun i j s2 h2 => equalsG_total cmpf _ _ _ _ ro s2
          (hcross i j { errs := [], visits := [], zero := false, chans := s2.chans, blocked := s2.blocked } [] h2))
        _ _ s p hS
    · exact compareElemsG_total cmpf got want gaf waf ro S0
        (fun g w ga wa ro2 s2 q r hh => (hshrk g w ga wa ro2 s2 q r hh).1)
        (fun i s2 q h2 => hcross i i s2 q h2) _ s p hS

theorem compareSliceG_total (conf : Config) (cmpf : CmpStep) (got want : Val) (ro : Bool) (S0 : Nat)
    (hshrk : ∀ g w ga wa ro2 s2 q r, cmpf g w ga wa ro2 s2 q = some r → Shrk s2 r)
    (hcross : ∀ i j s2 q, storeSize s2.chans ≤ S0 →
      cmpf (got.elemD j) (want.elemD i) (some (childAddr got.ptrV j)) (some (childAddr want.ptrV i)) ro s2 q ≠ none)
    (s : Cmp) (p : Path) (hS : storeSize s.chans ≤ S0) :
    compareSliceG conf cmpf got want ro s p ≠ none := by
  unfold compareSliceG
  split
  · simp
  · split
    · simp
    · exact compareArrayG_total conf cmpf got want _ _ ro S0 hshrk hcross s p hS

theorem structLoopG_total (conf : Config) (cmpf : CmpStep) (got want : Val)
    (ga wa : Option Nat) (ro : Bool) (S0 : Nat)
    (hshr : ∀ g w ga2 wa2 ro2 s2 q r, cmpf g w ga2 wa2 ro2 s2 q = some r →
      storeSize r.chans ≤ storeSize s2.chans)
    (hfield : ∀ i ro2 s2 q, storeSize s2.chans ≤ S0 →
      cmpf (got.fieldD i) (want.fieldD i)
        (ga.map (fun a => childAddr a i)) (wa.map (fun a => childAddr a i)) ro2 s2 q ≠ none) :
    ∀ is s p, storeSize s.chans ≤ S0 → structLoopG conf cmpf got want ga wa ro s p is ≠ none := by
  intro is
  induction is with
  | nil =>
    intro s p hS
    rw [structLoopG]
    simp
  | cons i is ih =>
    intro s p hS
    rw [structLoopG]
    split
    · exact ih s p hS
    · have hSa : storeSize (if structTag conf want i = "+" then { s with zero := true } else s).chans ≤ S0 := by
        split
        · exact hS
        · exact hS
      rcases h1 : cmpf (got.fieldD i) (want.fieldD i)
          (ga.map (fun a => childAddr a i)) (wa.map (fun a => childAddr a i))
          (ro || !(want.finfoV.getD i ⟨"", true, []⟩).exported)
          (if structTag conf want i = "+" then { s with zero := true } else s)
          (p ++ [.structnode (want.finfoV.getD i ⟨"", true, []⟩).fname]) with _ | s1
      · exact absurd h1 (hfield i _ _ _ hSa)
      · rw [h1]
        exact ih s1 p (le_trans (hshr _ _ _ _ _ _ _ _ h1) hSa)

theorem compareStructG_total (conf : Config) (cmpf : CmpStep) (got want : Val)
    (ga wa : Option Nat) (ro : Bool) (S0 : Nat)
    (hshr : ∀ g w ga2 wa2 ro2 s2 q r, cmpf g w ga2 wa2 ro2 s2 q = some r →
      storeSize r.chans ≤ storeSize s2.chans)
    (hfield : ∀ i ro2 s2 q, storeSize s2.chans ≤ S0 →
      cmpf (got.fieldD i) (want.fieldD i)
        (ga.map (fun a => childAddr a i)) (wa.map (fun a => childAddr a i)) ro2 s2 q ≠ none)
    (s : Cmp) (p : Path) (hS : storeSize s.chans ≤ S0) :
    compareStructG conf cmpf got want ga wa ro s p ≠ none := by
  unfold compareStructG
  split
  · split
    · simp
    · simp
  · exact structLoopG_total conf cmpf got want ga wa ro S0 hshr hfield _ s p hS

theorem mapLoopG_total (cmpf : CmpStep) (mlook : Val → Val → Val) (got want : Val)
    (ro : Bool) (S0 : Nat)
    (hshr : ∀ g w ga wa ro2 s2 q r, cmpf g w ga wa ro2 s2 q = some r →
      storeSize r.chans ≤ storeSize s2.chans)
    (hpair : ∀ k s2 q, storeSize s2.chans ≤ S0 → (mlook got k).isValid = true →
      (mlook want k).isValid = true →
      cmpf (mlook got k) (mlook want k) none none ro s2 q ≠ none) :
    ∀ keys s p, storeSize s.chans ≤ S0 → mapLoopG cmpf mlook got want ro s p keys ≠ none := by
  intro keys
  induction keys with
  | nil =>
    intro s p hS
    rw [mapLoopG]
    simp
  | cons k rest ih =>
    intro s p hS
    rw [mapLoopG]
    split
    · exact ih (s.push (.validity (mlook got k) (mlook want k) (p ++ [.mapnode k]))) p hS
    · next hcond =>
        have hgv : (mlook got k).isValid = true := by
          cases hx : (mlook got k).isValid
          · exact absurd (by rw [hx]; simp) hcond
          · rfl
        have hwv : (mlook want k).isValid = true := by
          cases hx : (mlook want k).isValid
          · exact absurd (by rw [hx]; simp) hcond
          · rfl
        rcases h1 : cmpf (mlook got k) (mlook want k) none none ro s (p ++ [.mapnode k]) with _ | s1
        · exact absurd h1 (hpair k s (p ++ [.mapnode k]) hS hgv hwv)
        · rw [h1]
          exact ih s1 p (le_trans (hshr _ _ _ _ _ _ _ _ h1) hS)

theorem compareMapG_total (cmpf : CmpStep) (mlook : Val → Val → Val) (got want : Val)
    (ro : Bool) (S0 : Nat)
    (hshr : ∀ g w ga wa ro2 s2 q r, cmpf g w ga wa ro2 s2 q = some r →
      storeSize r.chans ≤ storeSize s2.chans)
    (hpair : ∀ k s2 q, storeSize s2.chans ≤ S0 → (mlook got k).isValid = true →
      (mlook want k).isValid = true →
      cmpf (mlook got k) (mlook want k) none none ro s2 q ≠ none)
    (s : Cmp) (p : Path) (hS : storeSize s.chans ≤ S0) :
    compareMapG cmpf mlook got want ro s p ≠ none := by
  unfold compareMapG
  split
  · simp
  · split
    · simp
    · split
      · simp
      · exact mapLoopG_total cmpf mlook got want ro S0 hshr hpair _ s p hS

theorem chanLoopG_total (cmpf : CmpStep) (gc wc : Nat) (ro : Bool) (n : Nat)
    (hshr : ∀ g w ga wa ro2 s2 q r, cmpf g w ga wa ro2 s2 q = some r →
      storeSize r.chans ≤ storeSize s2.chans)
    (hinv : ∀ g w ga wa ro2 s2 q, g.isValid = false ∨ w.isValid = false →
      cmpf g w ga wa ro2 s2 q ≠ none)
    (htot : ∀ g w ga wa ro2 s2 q, sizeV g + sizeV w + storeSize s2.chans < n →
      cmpf g w ga wa ro2 s2 q ≠ none)
    (hrs : ∀ s2 cid, storeSize (recvF s2 cid).2.chans ≤ storeSize s2.chans) :
    ∀ is s p, storeSize s.chans < n → chanLoopG cmpf gc wc ro s p is ≠ none := by
  intro is
  induction is with
  | nil =>
    intro s p hS
    rw [chanLoopG]
    simp
  | cons i is ih =>
    intro s p hS
    rw [chanLoopG]
    have hchild : cmpf (recvF s gc).1 (recvF (recvF s gc).2 wc).1 none none ro
        (recvF (recvF s gc).2 wc).2 (p ++ [.channode i]) ≠ none := by
      rcases hb1 : chanBuf s gc with _ | ⟨v1, r1⟩
      · rw [recvF_empty s gc hb1]
        exact hinv _ _ _ _ _ _ _ (Or.inl rfl)
      · rcases hb2 : chanBuf (recvF s gc).2 wc with _ | ⟨v2, r2⟩
        · rw [recvF_empty (recvF s gc).2 wc hb2]
          exact hinv _ _ _ _ _ _ _ (Or.inr rfl)
        · obtain ⟨ev1, es1⟩ := recvF_store_recv s gc v1 r1 hb1
          obtain ⟨ev2, es2⟩ := recvF_store_recv (recvF s gc).2 wc v2 r2 hb2
          apply htot
          rw [ev1, ev2]
          omega
    rcases h1 : cmpf (recvF s gc).1 (recvF (recvF s gc).2 wc).1 none none ro
        (recvF (recvF s gc).2 wc).2 (p ++ [.channode i]) with _ | s3
    · exact absurd h1 hchild
    · rw [h1]
      refine ih s3 p ?_
      have h2 := hshr _ _ _ _ _ _ _ _ h1
      have h3 := hrs s gc
      have h4 := hrs (recvF s gc).2 wc
      omega

theorem compareChanG_total (cmpf : CmpStep) (got want : Val) (ro : Bool) (n : Nat)
    (hshr : ∀ g w ga wa ro2 s2 q r, cmpf g w ga wa ro2 s2 q = some r →
      storeSize r.chans ≤ storeSize s2.chans)
    (hinv : ∀ g w ga wa ro2 s2 q, g.isValid = false ∨ w.isValid = false →
      cmpf g w ga wa ro2 s2 q ≠ none)
    (htot : ∀ g w ga wa ro2 s2 q, sizeV g + sizeV w + storeSize s2.chans < n →
      cmpf g w ga wa ro2 s2 q ≠ none)
    (s : Cmp) (p : Path) (hS : storeSize s.chans < n) :
    compareChanG cmpf got want ro s p ≠ none := by
  unfold compareChanG
  split
  · simp
  · exact chanLoopG_total cmpf got.ptrV want.ptrV ro n hshr hinv htot
      (fun s2 cid => recvF_store s2 cid) _ s p hS

theorem compareDispatchG_total (n : Nat) (conf : Config) (got want : Val)
    (ga wa : Option Nat) (ro : Bool) (s : Cmp) (p : Path)
    (hmeas : sizeV got + sizeV want + storeSize s.chans < n + 1)
    (htotF : ∀ g2 w2 ga2 wa2 ro2 s2 q, sizeV g2 + sizeV w2 + storeSize s2.chans < n →
      compareF n conf g2 w2 ga2 wa2 ro2 s2 q ≠ none) :
    compareDispatchG conf (fun g w2 ga2 wa2 ro2 s2 q => compareF n conf g w2 ga2 wa2 ro2 s2 q)
      (isZeroF (n + 1)) (mapIndexF (n + 1)) got want ga wa ro s p ≠ none := by
  have hshrk : ∀ g w ga2 wa2 ro2 s2 q r,
      compareF n conf g w ga2 wa2 ro2 s2 q = some r → Shrk s2 r :=
    fun g w ga2 wa2 ro2 s2 q r hh => compareF_shrk n conf g w ga2 wa2 ro2 s2 q r hh
  have hshr : ∀ g w ga2 wa2 ro2 s2 q r,
      compareF n conf g w ga2 wa2 ro2 s2 q = some r → storeSize r.chans ≤ storeSize s2.chans :=
    fun g w ga2 wa2 ro2 s2 q r hh => (hshrk g w ga2 wa2 ro2 s2 q r hh).1
  have hg1 := sizeV_pos got
  have hw1 := sizeV_pos want
  have hn1 : 1 ≤ n := by omega
  have hinv : ∀ g w ga2 wa2 ro2 s2 q, g.isValid = false ∨ w.isValid = false →
      compareF n conf g w ga2 wa2 ro2 s2 q ≠ none :=
    fun g w ga2 wa2 ro2 s2 q hd => compareF_inv_total n conf g w ga2 wa2 ro2 s2 q hn1 hd
  unfold compareDispatchG
  split
  · split
    · simp
    · simp
  · split
    · -- array kind
      refine compareArrayG_total conf _ got want _ _ ro (storeSize s.chans) hshrk
        (fun i j s2 q h2 => ?_) s p (Nat.le_refl _)
      rcases elemD_size got j with hg | hg
      · exact hinv _ _ _ _ _ _ _ (Or.inl (by rw [hg]; rfl))
      · rcases elemD_size want i with hw | hw
        · exact hinv _ _ _ _ _ _ _ (Or.inr (by rw [hw]; rfl))
        · exact htotF _ _ _ _ _ _ _ (by omega)
    · -- slice kind
      refine compareSliceG_total conf _ got want ro (storeSize s.chans) hshrk
        (fun i j s2 q h2 => ?_) s p (Nat.le_refl _)
      rcases elemD_size got j with hg | hg
      · exact hinv _ _ _ _ _ _ _ (Or.inl (by rw [hg]; rfl))
      · rcases elemD_size want i with hw | hw
        · exact hinv _ _ _ _ _ _ _ (Or.inr (by rw [hw]; rfl))
        · exact htotF _ _ _ _ _ _ _ (by omega)
    · -- interface kind
      split
      · simp
      · rcases elemIface_size got with hg | hg
        · exact hinv _ _ _ _ _ _ _ (Or.inl (by rw [hg]; rfl))
        · rcases elemIface_size want with hw | hw
          · exact hinv _ _ _ _ _ _ _ (Or.inr (by rw [hw]; rfl))
          · exact htotF _ _ _ _ _ _ _ (by omega)
    · -- pointer kind
      split
      · simp
      · rcases derefD_size got with hg | hg
        · exact hinv _ _ _ _ _ _ _ (Or.inl (by rw [hg]; rfl))
        · rcases derefD_size want with hw | hw
          · exact hinv _ _ _ _ _ _ _ (Or.inr (by rw [hw]; rfl))
          · exact htotF _ _ _ _ _ _ _ (by omega)
    · -- struct kind
      refine compareStructG_total conf _ got want ga wa ro (storeSize s.chans) hshr
        (fun i ro2 s2 q h2 => ?_) s p (Nat.le_refl _)
      rcases fieldD_size got i with hg | hg
      · exact hinv _ _ _ _ _ _ _ (Or.inl (by rw [hg]; rfl))
      · rcases fieldD_size want i with hw | hw
        · exact hinv _ _ _ _ _ _ _ (Or.inr (by rw [hw]; rfl))
        · exact htotF _ _ _ _ _ _ _ (by omega)
    · -- map kind
      refine compareMapG_total _ (mapIndexF (n + 1)) got want ro (storeSize s.chans) hshr
        (fun k s2 q h2 hgv hwv => ?_) s p (Nat.le_refl _)
      rcases mapIndexF_size (n + 1) got k with hg | hg
      · rw [hg] at hgv
        exact Bool.noConfusion hgv
      · rcases mapIndexF_size (n + 1) want k with hw | hw
        · rw [hw] at hwv
          exact Bool.noConfusion hwv
        · exact htotF _ _ _ _ _ _ _ (by omega)
    · -- func kind
      split
      · simp
      · simp
    · -- string kind
      split
      · simp
      · simp
    · -- channel kind
      exact compareChanG_total _ got want ro n hshr hinv htotF s p (by omega)
    · -- scalar kind
      split
      · simp
      · simp

/-- With fuel exceeding the joint size of the operands and the channel
world, the engine always returns a result. -/
theorem compareF_total : ∀ fuel conf got want ga wa ro s p,
    sizeV got + sizeV want + storeSize s.chans < fuel →
    compareF fuel conf got want ga wa ro s p ≠ none := by
  intro fuel
  induction fuel with
  | zero =>
    intro conf got want ga wa ro s p h
    omega
  | succ n ih =>
    intro conf got want ga wa ro s p hmeas
    rw [compareF]
    split
    · simp
    · split
      · simp
      · split
        · simp
        · split
          · split
            · simp
            · exact compareDispatchG_total n conf got want ga wa ro
                { s with visits := mkVisit (ga.getD 0) (wa.getD 0) got.tyD :: s.visits } p hmeas
                (fun g2 w2 ga2 wa2 ro2 s2 q h2 => ih conf g2 w2 ga2 wa2 ro2 s2 q h2)
          · exact compareDispatchG_total n conf got want ga wa ro s p hmeas
              (fun g2 w2 ga2 wa2 ro2 s2 q h2 => ih conf g2 w2 ga2 wa2 ro2 s2 q h2)

/-- C9: the engine never crashes.  Every run with fuel above the joint
size of the operands and the channel world returns a mismatch list;
each step appends at most one record, always at or below the path at
which it was found (the prefix property below), and a run whose world
holds no buffered values never blocks.  The original claim's "returns
for all inputs" is too strong in one respect the counterexample
exhibits: comparing a non-empty channel against itself makes the drain
loop receive from an already-exhausted channel, which in Go blocks
forever (modeled by the blocked flag) instead of returning. -/
theorem c9_no_crash (conf : Config) (got want : Val) (world : List (List Val)) :
    ∃ r, Compare conf got want world (sizeV got + sizeV want + storeSize world + 1) = some r
      ∧ (∀ e ∈ r.errs, [PNode.root (if want.isValid then some want.tyD else none)] <+: e.pathOf)
      ∧ (storeSize world = 0 → r.blocked = false) := by
  rcases hr : Compare conf got want world (sizeV got + sizeV want + storeSize world + 1) with _ | r
  · rw [Compare] at hr
    exact absurd hr (compareF_total _ conf got want none none false (newComparison world) _
      (by show sizeV got + sizeV want + storeSize world < sizeV got + sizeV want + storeSize world + 1; omega))
  · refine ⟨r, rfl, ?_, ?_⟩
    · have hext := compareF_ext _ conf got want none none false (newComparison world) _ r
        (by rw [Compare] at hr; exact hr)
      obtain ⟨t, he, hp⟩ := hext
      intro e hm
      rw [he] at hm
      have hm2 : e ∈ ([] : List Err) ++ t := hm
      exact hp e (by simpa using hm2)
    · intro h0
      have hs := compareF_shrk _ conf got want none none false (newComparison world) _ r
        (by rw [Compare] at hr; exact hr)
      exact (hs.2 h0).2

theorem c9_witness :
    ∃ r, Compare {} (vInt 1) (vInt 2) []
        (sizeV (vInt 1) + sizeV (vInt 2) + storeSize [] + 1) = some r
      ∧ (∀ e ∈ r.errs, [PNode.root (if (vInt 2).isValid then some (vInt 2).tyD else none)] <+: e.pathOf)
      ∧ (storeSize [] = 0 → r.blocked = false) :=
  c9_no_crash {} (vInt 1) (vInt 2) []

/-- C9 counterexample: the Go call does not return for every input.
Comparing a non-empty channel with itself passes the length check, but
draining interleaves the single buffer over both handles and the final
receive waits on an exhausted channel forever; the model marks this run
as blocked. -/
theorem c9_counterexample :
    (Compare {} (Val.ch tch 1) (Val.ch tch 1) [[], [vInt 5, vInt 6]] 60).map
      (fun r => r.blocked) = some true := rfl

/-! ### C8: termination on cyclic inputs

Inductive values cannot be cyclic, so the cyclic case is modeled by the
engine specialized to self-referential pointer graphs (Go's
`type Loop *Loop`): a heap maps each address to the address its cell
points at.  At such a value Config.compare runs exactly the validity,
type and visited checks and the pointer dispatch: a repeated canonical
address pair stops as equal, identical Pointer() values stop as equal,
and otherwise the comparison follows both Elems one step.  `compareP`
is that specialization; `compareF` itself supplies the repeat-visit
behaviour on the full embedding. -/

def mkVisitP (g w : Nat) : Nat × Nat := if g > w then (w, g) else (g, w)

def compareP (heap : Nat → Nat) : Nat → List (Nat × Nat) → Nat → Nat → Option (List (Nat × Nat))
  | 0, _, _, _ => none
  | fuel + 1, visits, ga, wa =>
    if mkVisitP ga wa ∈ visits then some visits
    else if heap ga = heap wa then some (mkVisitP ga wa :: visits)
    else compareP heap fuel (mkVisitP ga wa :: visits) (heap ga) (heap wa)

theorem nodup_pairs_length_le (n : Nat) (visits : List (Nat × Nat))
    (hnd : visits.Nodup) (hb : ∀ pr ∈ visits, pr.1 < n ∧ pr.2 < n) :
    visits.length ≤ n * n := by
  have h1 : visits.toFinset ⊆ Finset.range n ×ˢ Finset.range n := by
    intro x hx
    rw [List.mem_toFinset] at hx
    rw [Finset.mem_product, Finset.mem_range, Finset.mem_range]
    exact hb x hx
  have h2 := Finset.card_le_card h1
  rw [List.toFinset_card_of_nodup hnd] at h2
  simpa using h2

theorem mkVisitP_lt (n g w : Nat) (hg : g < n) (hw : w < n) :
    (mkVisitP g w).1 < n ∧ (mkVisitP g w).2 < n := by
  rw [mkVisitP]
  split
  · exact ⟨hw, hg⟩
  · exact ⟨hg, hw⟩

/-- Each recursive step of the pointer walk records a fresh canonical
address pair, and at most n² distinct pairs exist over an n-cell heap,
so fuel n²+1 always suffices. -/
theorem compareP_total (heap : Nat → Nat) (n : Nat) (hheap : ∀ a, heap a < n) :
    ∀ fuel visits ga wa, visits.Nodup → (∀ pr ∈ visits, pr.1 < n ∧ pr.2 < n) →
      ga < n → wa < n → n * n + 1 ≤ fuel + visits.length →
      compareP heap fuel visits ga wa ≠ none := by
  intro fuel
  induction fuel with
  | zero =>
    intro visits ga wa hnd hb hg hw hfuel
    have := nodup_pairs_length_le n visits hnd hb
    omega
  | succ m ih =>
    intro visits ga wa hnd hb hg hw hfuel
    rw [compareP]
    split
    · simp
    · next hmem =>
        split
        · simp
        · refine ih (mkVisitP ga wa :: visits) (heap ga) (heap wa) ?_ ?_ (hheap ga) (hheap wa) ?_
          · exact List.nodup_cons.mpr ⟨hmem, hnd⟩
          · intro pr hpr
            rcases List.mem_cons.mp hpr with hpr | hpr
            · exact hpr ▸ mkVisitP_lt n ga wa hg hw
            · exact hb pr hpr
          · rw [List.length_cons]
            omega

/-- C8: termination and equality on cyclic inputs.  Three parts: (i) on
any self-referential pointer graph over n cells the walk returns within
fuel n²+1 from any starting pair, because each step records a fresh
canonical (identityA, identityB) pair and only n² exist; (ii) comparing
a cell against itself stops at once and reports equal (the visited pair
or the identical Pointer() short-circuit, no recursion into the cycle);
(iii) in the full engine, whenever both operands are valid, of the same
type, addressable with a hard kind, and their canonicalized visit triple
was already recorded, compare returns the state unchanged: no mismatch
record, recursion stops, the pair is treated as equal. -/
theorem c8_cycle_termination :
    (∀ (heap : Nat → Nat) (n : Nat), (∀ a, heap a < n) →
      ∀ ga wa, ga < n → wa < n → compareP heap (n * n + 1) [] ga wa ≠ none)
    ∧ (∀ (heap : Nat → Nat) (fuel : Nat) (a : Nat) (visits : List (Nat × Nat)),
        compareP heap (fuel + 1) visits a a =
          some (if mkVisitP a a ∈ visits then visits else mkVisitP a a :: visits))
    ∧ (∀ fuel conf (got want : Val) (ga wa : Option Nat) ro (s : Cmp) p,
        got.isValid = true → want.isValid = true → got.tyD = want.tyD →
        (ga.isSome && wa.isSome && hard got.tyD.kind) = true →
        mkVisit (ga.getD 0) (wa.getD 0) got.tyD ∈ s.visits →
        compareF (fuel + 1) conf got want ga wa ro s p = some s) := by
  refine ⟨?_, ?_, ?_⟩
  · intro heap n hheap ga wa hg hw
    exact compareP_total heap n hheap (n * n + 1) [] ga wa List.nodup_nil (by simp) hg hw
      (by simp)
  · intro heap fuel a visits
    rw [compareP]
    by_cases hm : mkVisitP a a ∈ visits
    · rw [if_pos hm, if_pos hm]
    · rw [if_neg hm, if_neg hm, if_pos rfl]
  · intro fuel conf got want ga wa ro s p hgv hwv hty hhard hmem
    rw [compareF]
    rw [if_neg (show ¬(got.isValid ≠ want.isValid) by rw [hgv, hwv]; exact fun hc => hc rfl)]
    rw [if_neg (show ¬(got.isValid = false) by rw [hgv]; simp)]
    rw [if_neg (fun hc : got.tyD ≠ want.tyD => hc hty)]
    rw [if_pos hhard]
    rw [if_pos hmem]

theorem c8_witness :
    compareP (fun a => (a + 1) % 2) 5 [] 0 1 ≠ none
    ∧ compareP (fun a => (a + 1) % 2) 5 [] 0 0 = some [(0, 0)]
    ∧ compareF 10 {} (.ptr tyIntPtr 5 (vInt 1)) (.ptr tyIntPtr 5 (vInt 2)) (some 3) (some 4) false
        { errs := [], visits := [(3, 4, tyIntPtr)], zero := false, chans := [], blocked := false } []
      = some { errs := [], visits := [(3, 4, tyIntPtr)], zero := false, chans := [], blocked := false } := by
  refine ⟨?_, ?_, ?_⟩
  · exact c8_cycle_termination.1 (fun a => (a + 1) % 2) 2
      (fun a => Nat.mod_lt _ (by decide)) 0 1 (by decide) (by decide)
  · have h := c8_cycle_termination.2.1 (fun a => (a + 1) % 2) 4 0 []
    simpa [mkVisitP] using h
  · exact c8_cycle_termination.2.2 9 {} (.ptr tyIntPtr 5 (vInt 1)) (.ptr tyIntPtr 5 (vInt 2))
      (some 3) (some 4) false
      { errs := [], visits := [(3, 4, tyIntPtr)], zero := false, chans := [], blocked := false } []
      rfl rfl rfl rfl (by simp [mkVisit, Val.tyD])

/-! ### C7: verdict symmetry -/

/-- Fixtures for the symmetry counterexample: two maps from int to int
channels.  G maps k1 to an empty channel (cid 1) and k2 to a two-value
channel (cid 2); W maps k2 to a different two-value channel (cid 3) and
k1 to the same channel cid 2 that G binds to k2. -/
def tyIntChan : Ty := .chanT tyInt 30

def tyIntChanMap : Ty := .mapT tyInt tyIntChan 31

def mapG7 : Val := .mp tyIntChanMap 5 [(vInt 1, .ch tyIntChan 1), (vInt 2, .ch tyIntChan 2)]

def mapW7 : Val := .mp tyIntChanMap 6 [(vInt 2, .ch tyIntChan 3), (vInt 1, .ch tyIntChan 2)]

def world7 : List (List Val) := [[], [], [vInt 5, vInt 5], [vInt 5, vInt 5]]

/-- C7 counterexample: Compare(G, W) iterates W's keys, drains channel 2
against channel 3 (equal buffers) and then finds both channel 1 and the
now-exhausted channel 2 empty: verdict pass.  Compare(W, G) iterates G's
keys and first compares the still-full channel 2 against the empty
channel 1: buffered-length mismatch, verdict fail. -/
theorem c7_counterexample :
    (Compare {} mapG7 mapW7 world7 100).map (fun r => r.errs.map Err.code) = some []
    ∧ (Compare {} mapW7 mapG7 world7 100).map (fun r => r.errs.map Err.code) = some [3] :=
  ⟨rfl, rfl⟩

/-! ### The greedy order-insensitive matcher, abstractly

compareArrayIgnoreOrder is a greedy first-match assignment: wants in
order, each scanning the remaining got pool and removing its first
related element.  The relation here is the pure pass/fail verdict of
equals on an element pair, so the loop is this abstract matcher, and the
two comparison directions run it on transposed relations.  Success is
direction-independent: the first got cell is consumed by exactly the
first want related to it, which is also the flipped run's first step. -/

def scanB (R : Nat → Nat → Bool) (i : Nat) : List Nat → Option (List Nat)
  | [] => none
  | j :: rest =>
    if R j i then some rest
    else match scanB R i rest with
      | none => none
      | some rest2 => some (j :: rest2)

def greedyB (R : Nat → Nat → Bool) : List Nat → List Nat → Bool
  | [], _ => true
  | i :: is, pool =>
    match scanB R i pool with
    | some pool2 => greedyB R is pool2
    | none => false

theorem scanB_length (R : Nat → Nat → Bool) (i : Nat) :
    ∀ pool pool2, scanB R i pool = some pool2 → pool2.length + 1 = pool.length := by
  intro pool
  induction pool with
  | nil => intro pool2 h; exact absurd h (by rw [scanB]; simp)
  | cons j rest ih =>
    intro pool2 h
    rw [scanB] at h
    split at h
    · simp only [Option.some.injEq] at h
      rw [← h]
      rfl
    · split at h
      · exact absurd h (by simp)
      · next rest2 h2 =>
          simp only [Option.some.injEq] at h
          rw [← h, List.length_cons, List.length_cons, ih rest2 h2]

theorem scanB_none (R : Nat → Nat → Bool) (i : Nat) :
    ∀ pool, scanB R i pool = none → ∀ j ∈ pool, R j i = false := by
  intro pool
  induction pool with
  | nil => intro h j hj; cases hj
  | cons j0 rest ih =>
    intro h j hj
    rw [scanB] at h
    split at h
    · exact absurd h (by simp)
    · next hR =>
        rcases List.mem_cons.mp hj with hj | hj
        · subst hj
          cases hx : R j i
          · rfl
          · exact absurd hx hR
        · split at h
          · next h2 => exact ih h2 j hj
          · exact absurd h (by simp)

theorem greedyB_length (R : Nat → Nat → Bool) :
    ∀ is pool, greedyB R is pool = true → is.length ≤ pool.length := by
  intro is
  induction is with
  | nil => intro pool h; simp
  | cons i is ih =>
    intro pool h
    rw [greedyB] at h
    rcases hsc : scanB R i pool with _ | pool2
    · rw [hsc] at h
      exact absurd h (by simp)
    · rw [hsc] at h
      have h1 := ih pool2 h
      have h2 := scanB_length R i pool pool2 hsc
      rw [List.length_cons]
      omega

theorem greedyB_transparent (R : Nat → Nat → Bool) (g : Nat) :
    ∀ is pool, (∀ i ∈ is, R g i = false) →
      greedyB R is (g :: pool) = greedyB R is pool := by
  intro is
  induction is with
  | nil => intro pool hall; rfl
  | cons i is ih =>
    intro pool hall
    have hgi : R g i = false := hall i (List.mem_cons_self _ _)
    rw [greedyB, greedyB, scanB, if_neg (by rw [hgi]; exact Bool.false_ne_true)]
    rcases hp : scanB R i pool with _ | pool2
    · rfl
    · exact ih pool2 (fun x hx => hall x (List.mem_cons_of_mem _ hx))

theorem greedyB_head_elim (R : Nat → Nat → Bool) (g : Nat) :
    ∀ is is2 P, scanB (fun a b => R b a) g is = some is2 →
      greedyB R is (g :: P) = greedyB R is2 P := by
  intro is
  induction is with
  | nil => intro is2 P h; exact absurd h (by rw [scanB]; simp)
  | cons i rest ih =>
    intro is2 P hsc
    rw [scanB] at hsc
    by_cases hRgi : R g i = true
    · rw [if_pos (show (fun a b => R b a) i g = true from hRgi)] at hsc
      simp only [Option.some.injEq] at hsc
      rw [← hsc]
      rw [greedyB, scanB, if_pos hRgi]
    · rw [if_neg (show ¬((fun a b => R b a) i g = true) from hRgi)] at hsc
      rcases hsc2 : scanB (fun a b => R b a) g rest with _ | rest2
      · rw [hsc2] at hsc
        exact absurd hsc (by simp)
      · rw [hsc2] at hsc
        simp only [Option.some.injEq] at hsc
        rw [← hsc]
        have hRgi2 : R g i = false := by
          cases hx : R g i
          · rfl
          · exact absurd hx hRgi
        rw [greedyB, scanB, if_neg (by rw [hRgi2]; exact Bool.false_ne_true)]
        rcases hp : scanB R i P with _ | P2
        · rw [greedyB, hp]
        · rw [greedyB, hp]
          exact ih rest2 P2 hsc2

/-- Greedy first-match success is direction-independent on equal-length
index lists. -/
theorem greedyB_transpose (R : Nat → Nat → Bool) :
    ∀ pool is, is.length = pool.length →
      greedyB R is pool = greedyB (fun a b => R b a) pool is := by
  intro pool
  induction pool with
  | nil =>
    intro is hlen
    have : is = [] := List.eq_nil_of_length_eq_zero hlen
    subst this
    rfl
  | cons g P ih =>
    intro is hlen
    rcases hsc : scanB (fun a b => R b a) g is with _ | is2
    · have hall : ∀ i ∈ is, R g i = false := fun i hi => scanB_none (fun a b => R b a) g is hsc i hi
      have hL : greedyB R is (g :: P) = greedyB R is P := greedyB_transparent R g is P hall
      have hR : greedyB (fun a b => R b a) (g :: P) is = false := by
        rw [greedyB, hsc]
      rw [hR, hL]
      cases hgl : greedyB R is P
      · rfl
      · have h1 := greedyB_length R is P hgl
        rw [List.length_cons] at hlen
        omega
    · have hL : greedyB R is (g :: P) = greedyB R is2 P := greedyB_head_elim R g is is2 P hsc
      have hR : greedyB (fun a b => R b a) (g :: P) is = greedyB (fun a b => R b a) P is2 := by
        rw [greedyB, hsc]
      have hlen2 : is2.length = P.length := by
        have h1 := scanB_length (fun a b => R b a) g is is2 hsc
        rw [List.length_cons] at hlen
        omega
      rw [hL, hR, ih is2 hlen2]

/-! ### The mirror relation between the two comparison directions

`Aligned g w` carves out the pairs on which the verdict is
direction-independent: channels are excluded (draining is destructive
and order-dependent, see the counterexample), same-typed maps must list
their keys in the same order (compareMap walks want's keys in map
order), and every pair the engine can step to must again be aligned.
All validity and type mismatches are aligned: both directions report
them. -/

inductive Aligned : Val → Val → Prop where
  | validity (g w : Val) : g.isValid ≠ w.isValid → Aligned g w
  | invalids (g w : Val) : g.isValid = false → w.isValid = false → Aligned g w
  | tymm (g w : Val) : g.isValid = true → w.isValid = true → g.tyD ≠ w.tyD → Aligned g w
  | ok (g w : Val) :
      g.isValid = true → w.isValid = true → g.tyD = w.tyD →
      g.tyD.kind ≠ .chanK →
      (g.tyD.kind = .arrK ∨ g.tyD.kind = .sliK → ∀ i j, Aligned (g.elemD j) (w.elemD i)) →
      (g.tyD.kind = .ifaceK → Aligned g.elemIface w.elemIface) →
      (g.tyD.kind = .ptrK → Aligned g.derefD w.derefD) →
      (g.tyD.kind = .structK → ∀ i, Aligned (g.fieldD i) (w.fieldD i)) →
      (g.tyD.kind = .mapK → g.entriesV.map Prod.fst = w.entriesV.map Prod.fst) →
      (g.tyD.kind = .mapK → ∀ fuel k, Aligned (mapIndexF fuel g k) (mapIndexF fuel w k)) →
      Aligned g w

/-- Both directions return, with visit lists and the pending zero flag
in lockstep, channel worlds untouched, and mismatch-free verdicts that
agree. -/
def MirrorConc (o1 o2 : Option Cmp) (s1 s2 : Cmp) : Prop :=
  ∃ r1 r2, o1 = some r1 ∧ o2 = some r2
    ∧ r1.visits = r2.visits ∧ r1.zero = r2.zero
    ∧ r1.chans = s1.chans ∧ r1.blocked = s1.blocked
    ∧ r2.chans = s2.chans ∧ r2.blocked = s2.blocked
    ∧ (r1.errs = s1.errs ↔ r2.errs = s2.errs)

theorem mkVisit_comm (a b : Nat) (t : Ty) : mkVisit a b t = mkVisit b a t := by
  rw [mkVisit, mkVisit]
  by_cases h1 : a > b
  · rw [if_pos h1, if_neg (by omega)]
  · by_cases h2 : b > a
    · rw [if_neg h1, if_pos h2]
    · have h3 : a = b := by omega
      subst h3
      rfl

theorem intBeq_comm (a b : Int) : (a == b) = (b == a) := by
  by_cases h : a = b
  · subst h
    rfl
  · rw [Bool.eq_iff_iff]
    simp only [beq_iff_eq]
    exact ⟨fun hh => absurd hh h, fun hh => absurd hh.symm h⟩

theorem scalEq_comm (g w : Val) : scalEq g w = scalEq w g := by
  cases g with
  | scal t1 n1 v1 =>
    cases w with
    | scal t2 n2 v2 =>
      show (!n1 && !n2 && (v1 == v2)) = (!n2 && !n1 && (v2 == v1))
      rw [intBeq_comm]
      cases n1 <;> cases n2 <;> rfl
    | invalid => rfl
    | str t x => rfl
    | arr t es => rfl
    | sli t d es => rfl
    | mp t m ents => rfl
    | ptr t a tgt => rfl
    | iface t e => rfl
    | fn t f => rfl
    | ch t c => rfl
    | strct t inst fs => rfl
  | invalid => cases w <;> rfl
  | str t x => cases w <;> rfl
  | arr t es => cases w <;> rfl
  | sli t d es => cases w <;> rfl
  | mp t m ents => cases w <;> rfl
  | ptr t a tgt => cases w <;> rfl
  | iface t e => cases w <;> rfl
  | fn t f => cases w <;> rfl
  | ch t c => cases w <;> rfl
  | strct t inst fs => cases w <;> rfl

/-- Compose step-wise clean-verdict equivalences along error-monotone
runs. -/
theorem errs_compose {s r q s' r' q' : Cmp}
    (e1 : ∃ t, r.errs = s.errs ++ t) (e2 : ∃ t, q.errs = r.errs ++ t)
    (e3 : ∃ t, r'.errs = s'.errs ++ t) (e4 : ∃ t, q'.errs = r'.errs ++ t)
    (h1 : r.errs = s.errs ↔ r'.errs = s'.errs)
    (h2 : q.errs = r.errs ↔ q'.errs = r'.errs) :
    q.errs = s.errs ↔ q'.errs = s'.errs := by
  obtain ⟨t1, ht1⟩ := e1
  obtain ⟨u1, hu1⟩ := e2
  obtain ⟨t2, ht2⟩ := e3
  obtain ⟨u2, hu2⟩ := e4
  have k1 : q.errs = s.errs ↔ (r.errs = s.errs ∧ q.errs = r.errs) := by
    constructor
    · intro hq
      rw [hu1, ht1, List.append_assoc] at hq
      have hlen := congrArg List.length hq
      simp only [List.length_append] at hlen
      have hh1 : t1 = [] := List.eq_nil_of_length_eq_zero (by omega)
      have hh2 : u1 = [] := List.eq_nil_of_length_eq_zero (by omega)
      subst hh1
      subst hh2
      simp only [List.append_nil] at ht1 hu1
      exact ⟨ht1, hu1⟩
    · intro ⟨ha, hb⟩
      rw [hb, ha]
  have k2 : q'.errs = s'.errs ↔ (r'.errs = s'.errs ∧ q'.errs = r'.errs) := by
    constructor
    · intro hq
      rw [hu2, ht2, List.append_assoc] at hq
      have hlen := congrArg List.length hq
      simp only [List.length_append] at hlen
      have hh1 : t2 = [] := List.eq_nil_of_length_eq_zero (by omega)
      have hh2 : u2 = [] := List.eq_nil_of_length_eq_zero (by omega)
      subst hh1
      subst hh2
      simp only [List.append_nil] at ht2 hu2
      exact ⟨ht2, hu2⟩
    · intro ⟨ha, hb⟩
      rw [hb, ha]
  rw [k1, k2]
  exact and_congr h1 h2

/-- A push is never a clean verdict. -/
theorem push_not_clean (s : Cmp) (e : Err) {q : Cmp}
    (hext : ∃ t, q.errs = (s.push e).errs ++ t) : ¬(q.errs = s.errs) := by
  obtain ⟨t, ht⟩ := hext
  intro hq
  rw [ht] at hq
  have hlen := congrArg List.length hq
  have hp : (s.push e).errs = s.errs ++ [e] := rfl
  rw [hp] at hlen
  simp only [List.length_append, List.length_singleton] at hlen
  omega

/-- Mirror conclusion when either side is invalid: both directions
record a validity mismatch, or both stop silently. -/
theorem compareF_mirror_inv (n : Nat) (hn : 1 ≤ n) (conf : Config) (g2 w2 : Val)
    (hd : g2 = Val.invalid ∨ w2 = Val.invalid)
    (ga2 wa2 : Option Nat) (ro2 : Bool) (t1 t2 : Cmp) (q1 q2 : Path)
    (hvis : t1.visits = t2.visits) (hz : t1.zero = t2.zero) :
    MirrorConc (compareF n conf g2 w2 ga2 wa2 ro2 t1 q1)
      (compareF n conf w2 g2 wa2 ga2 ro2 t2 q2) t1 t2 := by
  cases n with
  | zero => omega
  | succ m =>
    rw [compareF]
    rw [compareF]
    by_cases hv : g2.isValid = w2.isValid
    · have hgf : g2.isValid = false := by
        rcases hd with hd | hd
        · rw [hd]
          rfl
        · rw [hv, hd]
          rfl
      rw [if_neg (fun hc : g2.isValid ≠ w2.isValid => hc hv)]
      rw [if_neg (fun hc : w2.isValid ≠ g2.isValid => hc hv.symm)]
      rw [if_pos hgf, if_pos (hv ▸ hgf)]
      exact ⟨t1, t2, rfl, rfl, hvis, hz, rfl, rfl, rfl, rfl, by simp⟩
    · rw [if_pos (fun hc : g2.isValid = w2.isValid => hv hc)]
      rw [if_pos (fun hc : w2.isValid = g2.isValid => hv hc.symm)]
      refine ⟨t1.push (.validity g2 w2 q1), t2.push (.validity w2 g2 q2), rfl, rfl,
        hvis, hz, rfl, rfl, rfl, rfl, ?_⟩
      constructor
      · intro h
        exact absurd h (push_not_clean t1 (.validity g2 w2 q1) ⟨[], by simp⟩)
      · intro h
        exact absurd h (push_not_clean t2 (.validity w2 g2 q2) ⟨[], by simp⟩)

/-- The equals probe of a mirrored pair: same verdict bit from any two
carried states, which are handed back untouched. -/
theorem equalsG_mirror (cmpf : CmpStep) (g2 w2 : Val) (ga2 wa2 : Option Nat) (ro : Bool)
    (hch : ∀ t1 t2 q1 q2, t1.visits = t2.visits → t1.zero = t2.zero →
      MirrorConc (cmpf g2 w2 ga2 wa2 ro t1 q1) (cmpf w2 g2 wa2 ga2 ro t2 q2) t1 t2) :
    ∀ s1 s2, ∃ b, equalsG cmpf g2 w2 ga2 wa2 ro s1 = some (b, s1)
      ∧ equalsG cmpf w2 g2 wa2 ga2 ro s2 = some (b, s2) := by
  intro s1 s2
  obtain ⟨r1, r2, e1, e2, hv, hz, hc1, hb1, hc2, hb2, hiff⟩ := hch
    { errs := [], visits := [], zero := false, chans := s1.chans, blocked := s1.blocked }
    { errs := [], visits := [], zero := false, chans := s2.chans, blocked := s2.blocked }
    [] [] rfl rfl
  have hb : r1.errs.isEmpty = r2.errs.isEmpty := by
    rw [Bool.eq_iff_iff]
    rw [List.isEmpty_iff, List.isEmpty_iff]
    exact hiff
  refine ⟨r1.errs.isEmpty, ?_, ?_⟩
  · rw [equalsG, e1]
    exact congrArg (fun x => some (r1.errs.isEmpty, x)) (Cmp.ext1 _ _ rfl rfl rfl hc1 hb1)
  · rw [equalsG, e2, hb]
    exact congrArg (fun x => some (r2.errs.isEmpty, x)) (Cmp.ext1 _ _ rfl rfl rfl hc2 hb2)

/-- The engine's pool scan is the abstract scanB when every trial is a
pure verdict bit. -/
theorem ignoreOrderScanG_bridge
    (eqf : Val → Val → Option Nat → Option Nat → Bool → Cmp → Option (Bool × Cmp))
    (got want : Val) (gaf waf : Nat → Option Nat) (ro : Bool) (R : Nat → Nat → Bool)
    (htr : ∀ j i s2, eqf (got.elemD j) (want.elemD i) (gaf j) (waf i) ro s2 = some (R j i, s2)) :
    ∀ i pool s2, ignoreOrderScanG eqf got gaf ro (want.elemD i) (waf i) s2 pool =
      some (scanB R i pool, s2) := by
  intro i pool
  induction pool with
  | nil =>
    intro s2
    rw [ignoreOrderScanG, scanB]
  | cons j rest ih =>
    intro s2
    rw [ignoreOrderScanG, htr j i s2]
    cases hR : R j i with
    | true =>
      have hrhs : scanB R i (j :: rest) = some rest := by
        rw [scanB, if_pos hR]
      rw [hrhs]
    | false =>
      have hrhs : scanB R i (j :: rest) =
          match scanB R i rest with
          | none => none
          | some rest2 => some (j :: rest2) := by
        rw [scanB, if_neg (by rw [hR]; exact Bool.false_ne_true)]
      rw [hrhs]
      show (match ignoreOrderScanG eqf got gaf ro (want.elemD i) (waf i) s2 rest with
        | none => none
        | some (none, s3) => some (none, s3)
        | some (some rest2, s3) => some (some (j :: rest2), s3)) =
        some ((match scanB R i rest with
          | none => none
          | some rest2 => some (j :: rest2)), s2)
      rw [ih s2]
      cases hsc : scanB R i rest
      · rfl
      · rfl

/-- The ignore-order loop is the abstract greedy matcher: it returns the
carried state plus one missing-element record per unmatched want. -/
theorem ignoreOrderLoopG_bridge
    (eqf : Val → Val → Option Nat → Option Nat → Bool → Cmp → Option (Bool × Cmp))
    (got want : Val) (gaf waf : Nat → Option Nat) (ro : Bool) (R : Nat → Nat → Bool)
    (htr : ∀ j i s2, eqf (got.elemD j) (want.elemD i) (gaf j) (waf i) ro s2 = some (R j i, s2))
    (hext : ∀ g2 w2 ga2 wa2 ro2 t b t1, eqf g2 w2 ga2 wa2 ro2 t = some (b, t1) → t1.errs = t.errs) :
    ∀ is pool s2 p, ∃ r, ignoreOrderLoopG eqf got want gaf waf ro s2 p is pool = some r
      ∧ r.visits = s2.visits ∧ r.zero = s2.zero ∧ r.chans = s2.chans ∧ r.blocked = s2.blocked
      ∧ (r.errs = s2.errs ↔ greedyB R is pool = true) := by
  intro is
  induction is with
  | nil =>
    intro pool s2 p
    refine ⟨s2, ?_, rfl, rfl, rfl, rfl, ?_⟩
    · rw [ignoreOrderLoopG]
    · rw [greedyB]
      simp
  | cons i is ih =>
    intro pool s2 p
    have hsc := ignoreOrderScanG_bridge eqf got want gaf waf ro R htr i pool s2
    rcases hb : scanB R i pool with _ | pool2
    · rw [hb] at hsc
      obtain ⟨r, hr, hv, hz, hc, hbl, hiff⟩ :=
        ih pool (s2.push (.nilE nilIfacePtr (want.elemD i) (p ++ [.arrnode i]))) p
      refine ⟨r, ?_, hv, hz, hc, hbl, ?_⟩
      · rw [ignoreOrderLoopG, hsc]
        exact hr
      · have hne : ¬(r.errs = s2.errs) := by
          apply push_not_clean s2 (.nilE nilIfacePtr (want.elemD i) (p ++ [.arrnode i]))
          obtain ⟨t, ht, _⟩ := ignoreOrderLoopG_ext eqf
            (fun g2 w2 ga2 wa2 ro2 t b t1 hh => hext g2 w2 ga2 wa2 ro2 t b t1 hh)
            got want gaf waf ro is pool _ p r hr
          exact ⟨t, ht⟩
        have hgr : greedyB R (i :: is) pool = false := by
          rw [greedyB, hb]
        rw [hgr]
        constructor
        · intro hh
          exact absurd hh hne
        · intro hh
          exact absurd hh Bool.false_ne_true
    · rw [hb] at hsc
      obtain ⟨r, hr, hv, hz, hc, hbl, hiff⟩ := ih pool2 s2 p
      refine ⟨r, ?_, hv, hz, hc, hbl, ?_⟩
      · rw [ignoreOrderLoopG, hsc]
        exact hr
      · have hgr : greedyB R (i :: is) pool = greedyB R is pool2 := by
          rw [greedyB, hb]
        rw [hgr]
        exact hiff

/-- Element-wise comparison of mirrored pairs, in lockstep. -/
theorem compareElemsG_mirror (cmpf : CmpStep) (g w : Val) (gaf waf : Nat → Option Nat) (ro : Bool)
    (hch : ∀ i t1 t2 q1 q2, t1.visits = t2.visits → t1.zero = t2.zero →
      MirrorConc (cmpf (g.elemD i) (w.elemD i) (gaf i) (waf i) ro t1 q1)
        (cmpf (w.elemD i) (g.elemD i) (waf i) (gaf i) ro t2 q2) t1 t2)
    (hex : ∀ g2 w2 ga2 wa2 ro2 t q r, cmpf g2 w2 ga2 wa2 ro2 t q = some r → ErrsExt t r q) :
    ∀ is s1 s2 p1 p2, s1.visits = s2.visits → s1.zero = s2.zero →
      MirrorConc (compareElemsG cmpf g w gaf waf ro s1 p1 is)
        (compareElemsG cmpf w g waf gaf ro s2 p2 is) s1 s2 := by
  intro is
  induction is with
  | nil =>
    intro s1 s2 p1 p2 hvis hz
    exact ⟨s1, s2, by rw [compareElemsG], by rw [compareElemsG], hvis, hz, rfl, rfl, rfl, rfl,
      by simp⟩
  | cons i is ih =>
    intro s1 s2 p1 p2 hvis hz
    obtain ⟨r1, r2, e1, e2, cv, cz, cc1, cb1, cc2, cb2, ciff⟩ :=
      hch i s1 s2 (p1 ++ [.arrnode i]) (p2 ++ [.arrnode i]) hvis hz
    obtain ⟨q1, q2, f1, f2, fv, fz, fc1, fb1, fc2, fb2, fiff⟩ := ih r1 r2 p1 p2 cv cz
    refine ⟨q1, q2, ?_, ?_, fv, fz, fc1.trans cc1, fb1.trans cb1, fc2.trans cc2, fb2.trans cb2, ?_⟩
    · rw [compareElemsG, e1]
      exact f1
    · rw [compareElemsG, e2]
      exact f2
    · refine errs_compose ?_ ?_ ?_ ?_ ciff fiff
      · obtain ⟨t, ht, _⟩ := hex _ _ _ _ _ _ _ _ e1
        exact ⟨t, ht⟩
      · obtain ⟨t, ht, _⟩ := compareElemsG_ext cmpf hex g w gaf waf ro is r1 p1 q1 f1
        exact ⟨t, ht⟩
      · obtain ⟨t, ht, _⟩ := hex _ _ _ _ _ _ _ _ e2
        exact ⟨t, ht⟩
      · obtain ⟨t, ht, _⟩ := compareElemsG_ext cmpf hex w g waf gaf ro is r2 p2 q2 f2
        exact ⟨t, ht⟩

/-- The struct field loop on same-typed structs, in lockstep: tags,
exportedness and the armed zero flag all come from the shared type. -/
theorem structLoopG_mirror (conf : Config) (cmpf : CmpStep) (g w : Val)
    (ga wa : Option Nat) (ro : Bool)
    (hfin : g.finfoV = w.finfoV)
    (hch : ∀ i ro2 t1 t2 q1 q2, t1.visits = t2.visits → t1.zero = t2.zero →
      MirrorConc
        (cmpf (g.fieldD i) (w.fieldD i)
          (ga.map (fun a => childAddr a i)) (wa.map (fun a => childAddr a i)) ro2 t1 q1)
        (cmpf (w.fieldD i) (g.fieldD i)
          (wa.map (fun a => childAddr a i)) (ga.map (fun a => childAddr a i)) ro2 t2 q2) t1 t2)
    (hex : ∀ g2 w2 ga2 wa2 ro2 t q r, cmpf g2 w2 ga2 wa2 ro2 t q = some r → ErrsExt t r q) :
    ∀ is s1 s2 p1 p2, s1.visits = s2.visits → s1.zero = s2.zero →
      MirrorConc (structLoopG conf cmpf g w ga wa ro s1 p1 is)
        (structLoopG conf cmpf w g wa ga ro s2 p2 is) s1 s2 := by
  intro is
  induction is with
  | nil =>
    intro s1 s2 p1 p2 hvis hz
    exact ⟨s1, s2, by rw [structLoopG], by rw [structLoopG], hvis, hz, rfl, rfl, rfl, rfl,
      by simp⟩
  | cons i is ih =>
    intro s1 s2 p1 p2 hvis hz
    have htag : structTag conf g i = structTag conf w i := by
      rw [structTag, structTag, hfin]
    by_cases hskip : structTag conf w i = "-"
    · obtain ⟨q1, q2, f1, f2, fv, fz, fc1, fb1, fc2, fb2, fiff⟩ := ih s1 s2 p1 p2 hvis hz
      refine ⟨q1, q2, ?_, ?_, fv, fz, fc1, fb1, fc2, fb2, fiff⟩
      · rw [structLoopG, if_pos hskip]
        exact f1
      · rw [structLoopG, if_pos (htag.trans hskip)]
        exact f2
    · have ha1 : (if structTag conf w i = "+" then { s1 with zero := true } else s1).visits
          = (if structTag conf g i = "+" then { s2 with zero := true } else s2).visits := by
        rw [htag]
        split
        · exact hvis
        · exact hvis
      have ha2 : (if structTag conf w i = "+" then { s1 with zero := true } else s1).zero
          = (if structTag conf g i = "+" then { s2 with zero := true } else s2).zero := by
        rw [htag]
        split
        · rfl
        · exact hz
      obtain ⟨r1, r2, e1, e2, cv, cz, cc1, cb1, cc2, cb2, ciff⟩ :=
        hch i (ro || !(w.finfoV.getD i ⟨"", true, []⟩).exported)
          (if structTag conf w i = "+" then { s1 with zero := true } else s1)
          (if structTag conf g i = "+" then { s2 with zero := true } else s2)
          (p1 ++ [.structnode ((w.finfoV.getD i ⟨"", true, []⟩).fname)])
          (p2 ++ [.structnode ((w.finfoV.getD i ⟨"", true, []⟩).fname)])
          ha1 ha2
      obtain ⟨q1, q2, f1, f2, fv, fz, fc1, fb1, fc2, fb2, fiff⟩ := ih r1 r2 p1 p2 cv cz
      have hac1 : (if structTag conf w i = "+" then { s1 with zero := true } else s1).chans
          = s1.chans := by
        split
        · rfl
        · rfl
      have hab1 : (if structTag conf w i = "+" then { s1 with zero := true } else s1).blocked
          = s1.blocked := by
        split
        · rfl
        · rfl
      have hac2 : (if structTag conf g i = "+" then { s2 with zero := true } else s2).chans
          = s2.chans := by
        split
        · rfl
        · rfl
      have hab2 : (if structTag conf g i = "+" then { s2 with zero := true } else s2).blocked
          = s2.blocked := by
        split
        · rfl
        · rfl
      have hae1 : (if structTag conf w i = "+" then { s1 with zero := true } else s1).errs
          = s1.errs := by
        split
        · rfl
        · rfl
      have hae2 : (if structTag conf g i = "+" then { s2 with zero := true } else s2).errs
          = s2.errs := by
        split
        · rfl
        · rfl
      refine ⟨q1, q2, ?_, ?_, fv, fz, fc1.trans (cc1.trans hac1), fb1.trans (cb1.trans hab1),
        fc2.trans (cc2.trans hac2), fb2.trans (cb2.trans hab2), ?_⟩
      · rw [structLoopG, if_neg hskip, e1]
        exact f1
      · rw [structLoopG, if_neg (fun hc => hskip (htag.symm.trans hc)), hfin, e2]
        exact f2
      · refine errs_compose ?_ ?_ ?_ ?_ (by rw [hae1, hae2] at ciff; exact ciff) fiff
        · obtain ⟨t, ht, _⟩ := hex _ _ _ _ _ _ _ _ e1
          exact ⟨t, by rw [ht, hae1]⟩
        · obtain ⟨t, ht, _⟩ := structLoopG_ext conf cmpf hex g w ga wa ro is r1 p1 q1 f1
          exact ⟨t, ht⟩
        · obtain ⟨t, ht, _⟩ := hex _ _ _ _ _ _ _ _ e2
          exact ⟨t, by rw [ht, hae2]⟩
        · obtain ⟨t, ht, _⟩ := structLoopG_ext conf cmpf hex w g wa ga ro is r2 p2 q2 f2
          exact ⟨t, ht⟩

/-- The key loop over the same key list, in lockstep: each key is either
missing on a side in both directions (lookup validity is
direction-independent) or compared as a mirrored pair. -/
theorem mapLoopG_mirror (cmpf : CmpStep) (mlook : Val → Val → Val) (g w : Val) (ro : Bool)
    (hch : ∀ k t1 t2 q1 q2, t1.visits = t2.visits → t1.zero = t2.zero →
      MirrorConc (cmpf (mlook g k) (mlook w k) none none ro t1 q1)
        (cmpf (mlook w k) (mlook g k) none none ro t2 q2) t1 t2)
    (hex : ∀ g2 w2 ga2 wa2 ro2 t q r, cmpf g2 w2 ga2 wa2 ro2 t q = some r → ErrsExt t r q) :
    ∀ keys s1 s2 p1 p2, s1.visits = s2.visits → s1.zero = s2.zero →
      MirrorConc (mapLoopG cmpf mlook g w ro s1 p1 keys)
        (mapLoopG cmpf mlook w g ro s2 p2 keys) s1 s2 := by
  intro keys
  induction keys with
  | nil =>
    intro s1 s2 p1 p2 hvis hz
    exact ⟨s1, s2, by rw [mapLoopG], by rw [mapLoopG], hvis, hz, rfl, rfl, rfl, rfl, by simp⟩
  | cons k rest ih =>
    intro s1 s2 p1 p2 hvis hz
    by_cases hcnd : (!(mlook g k).isValid || !(mlook w k).isValid) = true
    · have hcnd2 : (!(mlook w k).isValid || !(mlook g k).isValid) = true := by
        rw [Bool.or_comm]
        exact hcnd
      obtain ⟨q1, q2, f1, f2, fv, fz, fc1, fb1, fc2, fb2, fiff⟩ :=
        ih (s1.push (.validity (mlook g k) (mlook w k) (p1 ++ [.mapnode k])))
          (s2.push (.validity (mlook w k) (mlook g k) (p2 ++ [.mapnode k]))) p1 p2 hvis hz
      refine ⟨q1, q2, ?_, ?_, fv, fz, fc1, fb1, fc2, fb2, ?_⟩
      · rw [mapLoopG, if_pos hcnd]
        exact f1
      · rw [mapLoopG, if_pos hcnd2]
        exact f2
      · have hne1 : ¬(q1.errs = s1.errs) := by
          apply push_not_clean s1 (.validity (mlook g k) (mlook w k) (p1 ++ [.mapnode k]))
          obtain ⟨t, ht, _⟩ := mapLoopG_ext cmpf mlook hex g w ro rest _ p1 q1 f1
          exact ⟨t, ht⟩
        have hne2 : ¬(q2.errs = s2.errs) := by
          apply push_not_clean s2 (.validity (mlook w k) (mlook g k) (p2 ++ [.mapnode k]))
          obtain ⟨t, ht, _⟩ := mapLoopG_ext cmpf mlook hex w g ro rest _ p2 q2 f2
          exact ⟨t, ht⟩
        constructor
        · intro hh
          exact absurd hh hne1
        · intro hh
          exact absurd hh hne2
    · have hcnd2 : ¬((!(mlook w k).isValid || !(mlook g k).isValid) = true) := by
        rw [Bool.or_comm]
        exact hcnd
      obtain ⟨r1, r2, e1, e2, cv, cz, cc1, cb1, cc2, cb2, ciff⟩ :=
        hch k s1 s2 (p1 ++ [.mapnode k]) (p2 ++ [.mapnode k]) hvis hz
      obtain ⟨q1, q2, f1, f2, fv, fz, fc1, fb1, fc2, fb2, fiff⟩ := ih r1 r2 p1 p2 cv cz
      refine ⟨q1, q2, ?_, ?_, fv, fz, fc1.trans cc1, fb1.trans cb1, fc2.trans cc2,
        fb2.trans cb2, ?_⟩
      · rw [mapLoopG, if_neg hcnd, e1]
        exact f1
      · rw [mapLoopG, if_neg hcnd2, e2]
        exact f2
      · refine errs_compose ?_ ?_ ?_ ?_ ciff fiff
        · obtain ⟨t, ht, _⟩ := hex _ _ _ _ _ _ _ _ e1
          exact ⟨t, ht⟩
        · obtain ⟨t, ht, _⟩ := mapLoopG_ext cmpf mlook hex g w ro rest r1 p1 q1 f1
          exact ⟨t, ht⟩
        · obtain ⟨t, ht, _⟩ := hex _ _ _ _ _ _ _ _ e2
          exact ⟨t, ht⟩
        · obtain ⟨t, ht, _⟩ := mapLoopG_ext cmpf mlook hex w g ro rest r2 p2 q2 f2
          exact ⟨t, ht⟩

/-- The order-insensitive loop of mirrored element pairs: both
directions run the abstract greedy matcher on transposed pure verdict
matrices, so their verdicts agree. -/
theorem ignoreOrder_mirror (cmpf : CmpStep) (g w : Val) (gafn wafn : Nat → Option Nat) (ro : Bool)
    (hpair : ∀ j i t1 t2 q1 q2, t1.visits = t2.visits → t1.zero = t2.zero →
      MirrorConc (cmpf (g.elemD j) (w.elemD i) (gafn j) (wafn i) ro t1 q1)
        (cmpf (w.elemD i) (g.elemD j) (wafn i) (gafn j) ro t2 q2) t1 t2)
    (L : List Nat) (s1 s2 : Cmp) (p1 p2 : Path)
    (hvis : s1.visits = s2.visits) (hz : s1.zero = s2.zero) :
    MirrorConc (ignoreOrderLoopG (equalsG cmpf) g w gafn wafn ro s1 p1 L L)
      (ignoreOrderLoopG (equalsG cmpf) w g wafn gafn ro s2 p2 L L) s1 s2 := by
  have key : ∀ j i, ∃ b,
      (∀ s3, equalsG cmpf (g.elemD j) (w.elemD i) (gafn j) (wafn i) ro s3 = some (b, s3))
      ∧ (∀ s3, equalsG cmpf (w.elemD i) (g.elemD j) (wafn i) (gafn j) ro s3 = some (b, s3)) := by
    intro j i
    obtain ⟨b, h1, h2⟩ :=
      equalsG_mirror cmpf (g.elemD j) (w.elemD i) (gafn j) (wafn i) ro (hpair j i) s2 s2
    refine ⟨b, ?_, ?_⟩
    · intro s3
      obtain ⟨b2, h1b, h2b⟩ :=
        equalsG_mirror cmpf (g.elemD j) (w.elemD i) (gafn j) (wafn i) ro (hpair j i) s3 s2
      have hbb : b2 = b := congrArg Prod.fst (Option.some.inj (h2b.symm.trans h2))
      rw [← hbb]
      exact h1b
    · intro s3
      obtain ⟨b2, h1b, h2b⟩ :=
        equalsG_mirror cmpf (g.elemD j) (w.elemD i) (gafn j) (wafn i) ro (hpair j i) s2 s3
      have hbb : b2 = b := congrArg Prod.fst (Option.some.inj (h1b.symm.trans h1))
      rw [← hbb]
      exact h2b
  choose Rf hR1 hR2 using key
  obtain ⟨r1, hr1, hv1, hz1, hc1, hb1, hiff1⟩ :=
    ignoreOrderLoopG_bridge (equalsG cmpf) g w gafn wafn ro Rf
      (fun j i s3 => hR1 j i s3)
      (fun g2 w2 ga2 wa2 ro2 t b t1 hh => equalsG_errs cmpf g2 w2 ga2 wa2 ro2 t b t1 hh)
      L L s1 p1
  obtain ⟨r2, hr2, hv2, hz2, hc2, hb2, hiff2⟩ :=
    ignoreOrderLoopG_bridge (equalsG cmpf) w g wafn gafn ro (fun j i => Rf i j)
      (fun j i s3 => hR2 i j s3)
      (fun g2 w2 ga2 wa2 ro2 t b t1 hh => equalsG_errs cmpf g2 w2 ga2 wa2 ro2 t b t1 hh)
      L L s2 p2
  have htr : greedyB Rf L L = greedyB (fun a b => Rf b a) L L := greedyB_transpose Rf L L rfl
  rw [htr] at hiff1
  exact ⟨r1, r2, hr1, hr2, hv1.trans (hvis.trans hv2.symm), hz1.trans (hz.trans hz2.symm),
    hc1, hb1, hc2, hb2, hiff1.trans hiff2.symm⟩

/-- Array comparison of same-typed mirrored values: length mismatch is
recorded in both directions; otherwise elementwise or greedy matching,
both direction-independent. -/
theorem compareArrayG_mirror (n : Nat) (conf : Config) (g w : Val)
    (gafn wafn : Nat → Option Nat) (ro : Bool)
    (hpair : ∀ j i t1 t2 q1 q2, t1.visits = t2.visits → t1.zero = t2.zero →
      MirrorConc (compareF n conf (g.elemD j) (w.elemD i) (gafn j) (wafn i) ro t1 q1)
        (compareF n conf (w.elemD i) (g.elemD j) (wafn i) (gafn j) ro t2 q2) t1 t2)
    (s1 s2 : Cmp) (p1 p2 : Path) (hvis : s1.visits = s2.visits) (hz : s1.zero = s2.zero) :
    MirrorConc
      (compareArrayG conf (fun a b c d e f q => compareF n conf a b c d e f q)
        g w gafn wafn ro s1 p1)
      (compareArrayG conf (fun a b c d e f q => compareF n conf a b c d e f q)
        w g wafn gafn ro s2 p2) s1 s2 := by
  by_cases hlen : g.lenV = w.lenV
  · rw [compareArrayG, compareArrayG]
    rw [if_neg (fun hc : g.lenV ≠ w.lenV => hc hlen),
      if_neg (fun hc : w.lenV ≠ g.lenV => hc hlen.symm)]
    rw [← hlen]
    by_cases hio : conf.IgnoreArrayOrder = true
    · rw [if_pos hio, if_pos hio]
      exact ignoreOrder_mirror _ g w gafn wafn ro hpair (List.range g.lenV) s1 s2 p1 p2 hvis hz
    · rw [if_neg hio, if_neg hio]
      exact compareElemsG_mirror _ g w gafn wafn ro
        (fun i t1 t2 q1 q2 hv2 hz2 => hpair i i t1 t2 q1 q2 hv2 hz2)
        (fun g2 w2 ga2 wa2 ro2 t q r hh => compareF_ext n conf g2 w2 ga2 wa2 ro2 t q r hh)
        (List.range g.lenV) s1 s2 p1 p2 hvis hz
  · rw [compareArrayG, compareArrayG]
    rw [if_pos (show g.lenV ≠ w.lenV from hlen),
      if_pos (show w.lenV ≠ g.lenV from fun hc => hlen hc.symm)]
    refine ⟨s1.push (.lenE g w p1), s2.push (.lenE w g p2), rfl, rfl, hvis, hz,
      rfl, rfl, rfl, rfl, ?_⟩
    constructor
    · intro hh
      exact absurd hh (push_not_clean s1 (.lenE g w p1) ⟨[], by simp⟩)
    · intro hh
      exact absurd hh (push_not_clean s2 (.lenE w g p2) ⟨[], by simp⟩)

theorem mirror_clean (s1 s2 : Cmp) (hvis : s1.visits = s2.visits) (hz : s1.zero = s2.zero) :
    MirrorConc (some s1) (some s2) s1 s2 :=
  ⟨s1, s2, rfl, rfl, hvis, hz, rfl, rfl, rfl, rfl, by simp⟩

theorem mirror_push (s1 s2 : Cmp) (e1 e2 : Err) (hvis : s1.visits = s2.visits)
    (hz : s1.zero = s2.zero) :
    MirrorConc (some (s1.push e1)) (some (s2.push e2)) s1 s2 := by
  refine ⟨s1.push e1, s2.push e2, rfl, rfl, hvis, hz, rfl, rfl, rfl, rfl, ?_⟩
  constructor
  · intro hh
    exact absurd hh (push_not_clean s1 e1 ⟨[], by simp⟩)
  · intro hh
    exact absurd hh (push_not_clean s2 e2 ⟨[], by simp⟩)

/-- The kind dispatch of a same-typed, both-valid, aligned pair mirrors:
every identity or equality test is symmetric, and every recursion is
into mirrored aligned pairs. -/
theorem compareDispatchG_mirror (n : Nat) (conf : Config) (g w : Val) (ga wa : Option Nat)
    (ro : Bool) (s1 s2 : Cmp) (p1 p2 : Path)
    (hvis : s1.visits = s2.visits) (hz : s1.zero = s2.zero)
    (hty : g.tyD = w.tyD)
    (hnc : g.tyD.kind ≠ .chanK)
    (hel : g.tyD.kind = .arrK ∨ g.tyD.kind = .sliK → ∀ i j, Aligned (g.elemD j) (w.elemD i))
    (hif : g.tyD.kind = .ifaceK → Aligned g.elemIface w.elemIface)
    (hptr : g.tyD.kind = .ptrK → Aligned g.derefD w.derefD)
    (hst : g.tyD.kind = .structK → ∀ i, Aligned (g.fieldD i) (w.fieldD i))
    (hmk : g.tyD.kind = .mapK → g.entriesV.map Prod.fst = w.entriesV.map Prod.fst)
    (hmv : g.tyD.kind = .mapK → ∀ fuel k, Aligned (mapIndexF fuel g k) (mapIndexF fuel w k))
    (hch : ∀ g2 w2 ga2 wa2 ro2 t1 t2 q1 q2, Aligned g2 w2 →
      (sizeV g2 + sizeV w2 + 2 ≤ sizeV g + sizeV w ∨ g2 = Val.invalid ∨ w2 = Val.invalid) →
      t1.visits = t2.visits → t1.zero = t2.zero →
      MirrorConc (compareF n conf g2 w2 ga2 wa2 ro2 t1 q1)
        (compareF n conf w2 g2 wa2 ga2 ro2 t2 q2) t1 t2) :
    MirrorConc
      (compareDispatchG conf (fun a b c d e f q => compareF n conf a b c d e f q)
        (isZeroF (n + 1)) (mapIndexF (n + 1)) g w ga wa ro s1 p1)
      (compareDispatchG conf (fun a b c d e f q => compareF n conf a b c d e f q)
        (isZeroF (n + 1)) (mapIndexF (n + 1)) w g wa ga ro s2 p2) s1 s2 := by
  have hexF : ∀ g2 w2 ga2 wa2 ro2 t q r,
      compareF n conf g2 w2 ga2 wa2 ro2 t q = some r → ErrsExt t r q :=
    fun g2 w2 ga2 wa2 ro2 t q r hh => compareF_ext n conf g2 w2 ga2 wa2 ro2 t q r hh
  rw [compareDispatchG, compareDispatchG, ← hz, ← hty]
  by_cases hzz : s1.zero = true
  · rw [if_pos hzz, if_pos hzz]
    by_cases hziff : isZeroF (n + 1) g ≠ isZeroF (n + 1) w
    · rw [if_pos hziff, if_pos (show isZeroF (n + 1) w ≠ isZeroF (n + 1) g from
        fun hc => hziff hc.symm)]
      refine ⟨_, _, rfl, rfl, hvis, rfl, rfl, rfl, rfl, rfl, ?_⟩
      constructor
      · intro hh
        exact absurd hh (push_not_clean s1
          (Err.zeroE (isZeroF (n + 1) g) (isZeroF (n + 1) w) p1) ⟨[], by simp⟩)
      · intro hh
        exact absurd hh (push_not_clean s2
          (Err.zeroE (isZeroF (n + 1) w) (isZeroF (n + 1) g) p2) ⟨[], by simp⟩)
    · rw [if_neg hziff, if_neg (show ¬(isZeroF (n + 1) w ≠ isZeroF (n + 1) g) from
        fun hc => hc (not_ne_iff.mp hziff).symm)]
      exact ⟨_, _, rfl, rfl, hvis, rfl, rfl, rfl, rfl, rfl, by simp⟩
  · rw [if_neg hzz, if_neg hzz]
    cases hk : g.tyD.kind with
    | arrK =>
      have hpair : ∀ j i t1 t2 q1 q2, t1.visits = t2.visits → t1.zero = t2.zero →
          MirrorConc
            (compareF n conf (g.elemD j) (w.elemD i)
              (ga.map (fun a => childAddr a j)) (wa.map (fun a => childAddr a i)) ro t1 q1)
            (compareF n conf (w.elemD i) (g.elemD j)
              (wa.map (fun a => childAddr a i)) (ga.map (fun a => childAddr a j)) ro t2 q2)
            t1 t2 := by
        intro j i t1 t2 q1 q2 hv2 hz2
        rcases elemD_size g j with hg | hg
        · exact hch _ _ _ _ _ t1 t2 q1 q2 (hel (Or.inl hk) i j) (Or.inr (Or.inl hg)) hv2 hz2
        · rcases elemD_size w i with hw | hw
          · exact hch _ _ _ _ _ t1 t2 q1 q2 (hel (Or.inl hk) i j) (Or.inr (Or.inr hw)) hv2 hz2
          · exact hch _ _ _ _ _ t1 t2 q1 q2 (hel (Or.inl hk) i j) (Or.inl (by omega)) hv2 hz2
      exact compareArrayG_mirror n conf g w _ _ ro hpair s1 s2 p1 p2 hvis hz
    | sliK =>
      show MirrorConc (compareSliceG conf (fun a b c d e f q => compareF n conf a b c d e f q) g w ro s1 p1)
        (compareSliceG conf (fun a b c d e f q => compareF n conf a b c d e f q) w g ro s2 p2) s1 s2
      rw [compareSliceG, compareSliceG]
      by_cases hpe : g.ptrV = w.ptrV
      · rw [if_pos hpe, if_pos hpe.symm]
        exact mirror_clean s1 s2 hvis hz
      · rw [if_neg hpe, if_neg (show ¬(w.ptrV = g.ptrV) from fun hc => hpe hc.symm)]
        by_cases hni : g.isNilV ≠ w.isNilV
        · rw [if_pos hni, if_pos (show w.isNilV ≠ g.isNilV from fun hc => hni hc.symm)]
          exact mirror_push s1 s2 _ _ hvis hz
        · rw [if_neg hni, if_neg (show ¬(w.isNilV ≠ g.isNilV) from
            fun hc => hc (not_ne_iff.mp hni).symm)]
          have hpair : ∀ j i t1 t2 q1 q2, t1.visits = t2.visits → t1.zero = t2.zero →
              MirrorConc
                (compareF n conf (g.elemD j) (w.elemD i)
                  (some (childAddr g.ptrV j)) (some (childAddr w.ptrV i)) ro t1 q1)
                (compareF n conf (w.elemD i) (g.elemD j)
                  (some (childAddr w.ptrV i)) (some (childAddr g.ptrV j)) ro t2 q2)
                t1 t2 := by
            intro j i t1 t2 q1 q2 hv2 hz2
            rcases elemD_size g j with hg | hg
            · exact hch _ _ _ _ _ t1 t2 q1 q2 (hel (Or.inr hk) i j) (Or.inr (Or.inl hg)) hv2 hz2
            · rcases elemD_size w i with hw | hw
              · exact hch _ _ _ _ _ t1 t2 q1 q2 (hel (Or.inr hk) i j) (Or.inr (Or.inr hw)) hv2 hz2
              · exact hch _ _ _ _ _ t1 t2 q1 q2 (hel (Or.inr hk) i j) (Or.inl (by omega)) hv2 hz2
          exact compareArrayG_mirror n conf g w _ _ ro hpair s1 s2 p1 p2 hvis hz
    | ifaceK =>
      show MirrorConc
        (if g.isNilV ≠ w.isNilV then some (s1.push (Err.nilE g w p1))
          else compareF n conf g.elemIface w.elemIface none none ro s1 p1)
        (if w.isNilV ≠ g.isNilV then some (s2.push (Err.nilE w g p2))
          else compareF n conf w.elemIface g.elemIface none none ro s2 p2) s1 s2
      by_cases hni : g.isNilV ≠ w.isNilV
      · rw [if_pos hni, if_pos (show w.isNilV ≠ g.isNilV from fun hc => hni hc.symm)]
        exact mirror_push s1 s2 _ _ hvis hz
      · rw [if_neg hni, if_neg (show ¬(w.isNilV ≠ g.isNilV) from
          fun hc => hc (not_ne_iff.mp hni).symm)]
        rcases elemIface_size g with hg | hg
        · exact hch _ _ _ _ _ s1 s2 p1 p2 (hif hk) (Or.inr (Or.inl hg)) hvis hz
        · rcases elemIface_size w with hw | hw
          · exact hch _ _ _ _ _ s1 s2 p1 p2 (hif hk) (Or.inr (Or.inr hw)) hvis hz
          · exact hch _ _ _ _ _ s1 s2 p1 p2 (hif hk) (Or.inl (by omega)) hvis hz
    | ptrK =>
      show MirrorConc
        (if g.ptrV = w.ptrV then some s1
          else compareF n conf g.derefD w.derefD g.derefAddr w.derefAddr ro s1 p1)
        (if w.ptrV = g.ptrV then some s2
          else compareF n conf w.derefD g.derefD w.derefAddr g.derefAddr ro s2 p2) s1 s2
      by_cases hpe : g.ptrV = w.ptrV
      · rw [if_pos hpe, if_pos hpe.symm]
        exact mirror_clean s1 s2 hvis hz
      · rw [if_neg hpe, if_neg (show ¬(w.ptrV = g.ptrV) from fun hc => hpe hc.symm)]
        rcases derefD_size g with hg | hg
        · exact hch _ _ _ _ _ s1 s2 p1 p2 (hptr hk) (Or.inr (Or.inl hg)) hvis hz
        · rcases derefD_size w with hw | hw
          · exact hch _ _ _ _ _ s1 s2 p1 p2 (hptr hk) (Or.inr (Or.inr hw)) hvis hz
          · exact hch _ _ _ _ _ s1 s2 p1 p2 (hptr hk) (Or.inl (by omega)) hvis hz
    | structK =>
      show MirrorConc (compareStructG conf (fun a b c d e f q => compareF n conf a b c d e f q) g w ga wa ro s1 p1)
        (compareStructG conf (fun a b c d e f q => compareF n conf a b c d e f q) w g wa ga ro s2 p2) s1 s2
      rw [compareStructG, compareStructG]
      have hfin : g.finfoV = w.finfoV := by
        rw [Val.finfoV, Val.finfoV, hty]
      have htime : g.isTimeV = w.isTimeV := by
        rw [Val.isTimeV, Val.isTimeV, hty]
      have hpairF : ∀ i ro2 t1 t2 q1 q2, t1.visits = t2.visits → t1.zero = t2.zero →
          MirrorConc
            (compareF n conf (g.fieldD i) (w.fieldD i)
              (ga.map (fun a => childAddr a i)) (wa.map (fun a => childAddr a i)) ro2 t1 q1)
            (compareF n conf (w.fieldD i) (g.fieldD i)
              (wa.map (fun a => childAddr a i)) (ga.map (fun a => childAddr a i)) ro2 t2 q2)
            t1 t2 := by
        intro i ro2 t1 t2 q1 q2 hv2 hz2
        rcases fieldD_size g i with hg | hg
        · exact hch _ _ _ _ _ t1 t2 q1 q2 (hst hk i) (Or.inr (Or.inl hg)) hv2 hz2
        · rcases fieldD_size w i with hw | hw
          · exact hch _ _ _ _ _ t1 t2 q1 q2 (hst hk i) (Or.inr (Or.inr hw)) hv2 hz2
          · exact hch _ _ _ _ _ t1 t2 q1 q2 (hst hk i) (Or.inl (by omega)) hv2 hz2
      by_cases hti : g.isTimeV = true ∧ ro = false
      · rw [if_pos hti, if_pos (show w.isTimeV = true ∧ ro = false from ⟨htime ▸ hti.1, hti.2⟩)]
        by_cases hin : g.instantV = w.instantV
        · rw [if_pos hin, if_pos hin.symm]
          exact mirror_clean s1 s2 hvis hz
        · rw [if_neg hin, if_neg (show ¬(w.instantV = g.instantV) from fun hc => hin hc.symm)]
          exact mirror_push s1 s2 _ _ hvis hz
      · rw [if_neg hti, if_neg (show ¬(w.isTimeV = true ∧ ro = false) from
          fun hc => hti ⟨by rw [htime]; exact hc.1, hc.2⟩)]
        rw [hfin]
        exact structLoopG_mirror conf _ g w ga wa ro hfin hpairF hexF
          (List.range w.finfoV.length) s1 s2 p1 p2 hvis hz
    | mapK =>
      show MirrorConc (compareMapG (fun a b c d e f q => compareF n conf a b c d e f q) (mapIndexF (n + 1)) g w ro s1 p1)
        (compareMapG (fun a b c d e f q => compareF n conf a b c d e f q) (mapIndexF (n + 1)) w g ro s2 p2) s1 s2
      rw [compareMapG, compareMapG]
      by_cases hpe : g.ptrV = w.ptrV
      · rw [if_pos hpe, if_pos hpe.symm]
        exact mirror_clean s1 s2 hvis hz
      · rw [if_neg hpe, if_neg (show ¬(w.ptrV = g.ptrV) from fun hc => hpe hc.symm)]
        by_cases hni : g.isNilV ≠ w.isNilV
        · rw [if_pos hni, if_pos (show w.isNilV ≠ g.isNilV from fun hc => hni hc.symm)]
          exact mirror_push s1 s2 _ _ hvis hz
        · rw [if_neg hni, if_neg (show ¬(w.isNilV ≠ g.isNilV) from
            fun hc => hc (not_ne_iff.mp hni).symm)]
          by_cases hlen2 : g.lenV = w.lenV
          · rw [if_neg (fun hc : g.lenV ≠ w.lenV => hc hlen2),
              if_neg (fun hc : w.lenV ≠ g.lenV => hc hlen2.symm)]
            have hpairK : ∀ k t1 t2 q1 q2, t1.visits = t2.visits → t1.zero = t2.zero →
                MirrorConc
                  (compareF n conf (mapIndexF (n + 1) g k) (mapIndexF (n + 1) w k)
                    none none ro t1 q1)
                  (compareF n conf (mapIndexF (n + 1) w k) (mapIndexF (n + 1) g k)
                    none none ro t2 q2) t1 t2 := by
              intro k t1 t2 q1 q2 hv2 hz2
              rcases mapIndexF_size (n + 1) g k with hg | hg
              · exact hch _ _ _ _ _ t1 t2 q1 q2 (hmv hk (n + 1) k) (Or.inr (Or.inl hg)) hv2 hz2
              · rcases mapIndexF_size (n + 1) w k with hw | hw
                · exact hch _ _ _ _ _ t1 t2 q1 q2 (hmv hk (n + 1) k) (Or.inr (Or.inr hw)) hv2 hz2
                · exact hch _ _ _ _ _ t1 t2 q1 q2 (hmv hk (n + 1) k) (Or.inl (by omega)) hv2 hz2
            rw [← hmk hk]
            exact mapLoopG_mirror _ (mapIndexF (n + 1)) g w ro hpairK hexF
              (g.entriesV.map Prod.fst) s1 s2 p1 p2 hvis hz
          · rw [if_pos (show g.lenV ≠ w.lenV from hlen2),
              if_pos (show w.lenV ≠ g.lenV from fun hc => hlen2 hc.symm)]
            exact mirror_push s1 s2 _ _ hvis hz
    | funcK =>
      show MirrorConc
        (if (!g.isNilV || !w.isNilV) = true then some (s1.push (Err.funcE g w p1)) else some s1)
        (if (!w.isNilV || !g.isNilV) = true then some (s2.push (Err.funcE w g p2)) else some s2)
        s1 s2
      by_cases hfc : (!g.isNilV || !w.isNilV) = true
      · rw [if_pos hfc, if_pos (show (!w.isNilV || !g.isNilV) = true by
          rw [Bool.or_comm]; exact hfc)]
        exact mirror_push s1 s2 _ _ hvis hz
      · rw [if_neg hfc, if_neg (show ¬((!w.isNilV || !g.isNilV) = true) from
          fun hc => hfc (by rw [Bool.or_comm]; exact hc))]
        exact mirror_clean s1 s2 hvis hz
    | strK =>
      show MirrorConc
        (if g.strV = w.strV then some s1 else some (s1.push (Err.stringE g.strV w.strV p1)))
        (if w.strV = g.strV then some s2 else some (s2.push (Err.stringE w.strV g.strV p2)))
        s1 s2
      by_cases hss : g.strV = w.strV
      · rw [if_pos hss, if_pos hss.symm]
        exact mirror_clean s1 s2 hvis hz
      · rw [if_neg hss, if_neg (show ¬(w.strV = g.strV) from fun hc => hss hc.symm)]
        exact mirror_push s1 s2 _ _ hvis hz
    | chanK => exact absurd hk hnc
    | scalK =>
      show MirrorConc
        (if scalEq g w = true then some s1 else some (s1.push (Err.valueE g w p1)))
        (if scalEq w g = true then some s2 else some (s2.push (Err.valueE w g p2))) s1 s2
      rw [scalEq_comm w g]
      by_cases hsc : scalEq g w = true
      · rw [if_pos hsc, if_pos hsc]
        exact mirror_clean s1 s2 hvis hz
      · rw [if_neg hsc, if_neg hsc]
        exact mirror_push s1 s2 _ _ hvis hz

/-- The two comparison directions of an aligned pair mirror each other:
both return, visit lists and the pending zero flag stay in lockstep,
and the runs append no mismatch record in one direction exactly when
they append none in the other. -/
theorem compareF_mirror : ∀ fuel conf g w ga wa ro s1 s2 p1 p2,
    Aligned g w →
    sizeV g + sizeV w < fuel →
    s1.visits = s2.visits → s1.zero = s2.zero →
    MirrorConc (compareF fuel conf g w ga wa ro s1 p1)
      (compareF fuel conf w g wa ga ro s2 p2) s1 s2 := by
  intro fuel
  induction fuel with
  | zero =>
    intro conf g w ga wa ro s1 s2 p1 p2 hal hmeas hvis hz
    have h1 := sizeV_pos g
    omega
  | succ n ih =>
    intro conf g w ga wa ro s1 s2 p1 p2 hal hmeas hvis hz
    cases hal with
    | validity g2 w2 hne =>
      rw [compareF, compareF]
      rw [if_pos hne, if_pos (show w.isValid ≠ g.isValid from fun hc => hne hc.symm)]
      exact mirror_push s1 s2 _ _ hvis hz
    | invalids g2 w2 hg hw =>
      rw [compareF, compareF]
      rw [if_neg (show ¬(g.isValid ≠ w.isValid) from fun hc => hc (hg.trans hw.symm)),
        if_neg (show ¬(w.isValid ≠ g.isValid) from fun hc => hc (hw.trans hg.symm))]
      rw [if_pos hg, if_pos hw]
      exact mirror_clean s1 s2 hvis hz
    | tymm g2 w2 hgv hwv hnety =>
      rw [compareF, compareF]
      rw [if_neg (show ¬(g.isValid ≠ w.isValid) from fun hc => hc (hgv.trans hwv.symm)),
        if_neg (show ¬(w.isValid ≠ g.isValid) from fun hc => hc (hwv.trans hgv.symm))]
      rw [if_neg (show ¬(g.isValid = false) by rw [hgv]; simp),
        if_neg (show ¬(w.isValid = false) by rw [hwv]; simp)]
      rw [if_pos hnety, if_pos (show w.tyD ≠ g.tyD from fun hc => hnety hc.symm)]
      exact mirror_push s1 s2 _ _ hvis hz
    | ok g2 w2 hgv hwv hty hnc helA hifA hptrA hstA hmkA hmvA =>
      have hch : ∀ g3 w3 ga2 wa2 ro2 t1 t2 q1 q2, Aligned g3 w3 →
          (sizeV g3 + sizeV w3 + 2 ≤ sizeV g + sizeV w ∨ g3 = Val.invalid ∨ w3 = Val.invalid) →
          t1.visits = t2.visits → t1.zero = t2.zero →
          MirrorConc (compareF n conf g3 w3 ga2 wa2 ro2 t1 q1)
            (compareF n conf w3 g3 wa2 ga2 ro2 t2 q2) t1 t2 := by
        intro g3 w3 ga2 wa2 ro2 t1 t2 q1 q2 hal2 hdis hv2 hz2
        rcases hdis with hsz | hd
        · exact ih conf g3 w3 ga2 wa2 ro2 t1 t2 q1 q2 hal2 (by omega) hv2 hz2
        · have hn1 : 1 ≤ n := by
            have h1 := sizeV_pos g
            have h2 := sizeV_pos w
            omega
          exact compareF_mirror_inv n hn1 conf g3 w3 hd ga2 wa2 ro2 t1 t2 q1 q2 hv2 hz2
      rw [compareF, compareF]
      rw [if_neg (show ¬(g.isValid ≠ w.isValid) from fun hc => hc (hgv.trans hwv.symm)),
        if_neg (show ¬(w.isValid ≠ g.isValid) from fun hc => hc (hwv.trans hgv.symm))]
      rw [if_neg (show ¬(g.isValid = false) by rw [hgv]; simp),
        if_neg (show ¬(w.isValid = false) by rw [hwv]; simp)]
      rw [if_neg (show ¬(g.tyD ≠ w.tyD) from fun hc => hc hty),
        if_neg (show ¬(w.tyD ≠ g.tyD) from fun hc => hc hty.symm)]
      have hcond : (wa.isSome && ga.isSome && hard w.tyD.kind)
          = (ga.isSome && wa.isSome && hard g.tyD.kind) := by
        rw [← hty, Bool.and_comm wa.isSome ga.isSome]
      rw [hcond]
      by_cases hh : (ga.isSome && wa.isSome && hard g.tyD.kind) = true
      · rw [if_pos hh, if_pos hh]
        have hmk2 : mkVisit (wa.getD 0) (ga.getD 0) w.tyD
            = mkVisit (ga.getD 0) (wa.getD 0) g.tyD := by
          rw [← hty, mkVisit_comm]
        rw [hmk2, ← hvis]
        by_cases hmem : mkVisit (ga.getD 0) (wa.getD 0) g.tyD ∈ s1.visits
        · rw [if_pos hmem, if_pos hmem]
          exact mirror_clean s1 s2 hvis hz
        · rw [if_neg hmem, if_neg hmem]
          exact compareDispatchG_mirror n conf g w ga wa ro
            { s1 with visits := mkVisit (ga.getD 0) (wa.getD 0) g.tyD :: s1.visits }
            { s2 with visits := mkVisit (ga.getD 0) (wa.getD 0) g.tyD :: s1.visits }
            p1 p2 rfl hz hty hnc helA hifA hptrA hstA hmkA hmvA hch
      · rw [if_neg hh, if_neg hh]
        exact compareDispatchG_mirror n conf g w ga wa ro s1 s2 p1 p2 hvis hz
          hty hnc helA hifA hptrA hstA hmkA hmvA hch

/-- C7: verdict symmetry.  As stated over all values and configurations
the claim is false: channel draining is destructive and order-dependent
(see the counterexample, where maps bind the same channel under
different keys and only one direction reports a mismatch).  Corrected
form: for every aligned pair — no channels on either side, same-typed
maps listing their keys in the same order, recursively — and any fuel
above the pair's joint size, Compare(a, b) returns the empty mismatch
list iff Compare(b, a) does, under every configuration. -/
theorem c7_verdict_symmetry (conf : Config) (a b : Val) (world : List (List Val)) (fuel : Nat)
    (hal : Aligned a b) (hfuel : sizeV a + sizeV b < fuel) (r1 r2 : Cmp)
    (h1 : Compare conf a b world fuel = some r1)
    (h2 : Compare conf b a world fuel = some r2) :
    r1.errs = [] ↔ r2.errs = [] := by
  obtain ⟨q1, q2, e1, e2, _, _, _, _, _, _, hiff⟩ :=
    compareF_mirror fuel conf a b none none false
      (newComparison world) (newComparison world)
      [PNode.root (if b.isValid then some b.tyD else none)]
      [PNode.root (if a.isValid then some a.tyD else none)]
      hal hfuel rfl rfl
  rw [Compare] at h1 h2
  have hq1 : q1 = r1 := Option.some.inj (e1.symm.trans h1)
  have hq2 : q2 = r2 := Option.some.inj (e2.symm.trans h2)
  rw [hq1, hq2] at hiff
  exact hiff

theorem c7_witness :
    Aligned (vInt 3) (vInt 4)
    ∧ ∃ r1 r2, Compare {} (vInt 3) (vInt 4) [] 5 = some r1
      ∧ Compare {} (vInt 4) (vInt 3) [] 5 = some r2
      ∧ (r1.errs = [] ↔ r2.errs = []) := by
  have hal : Aligned (vInt 3) (vInt 4) :=
    Aligned.ok _ _ rfl rfl rfl
      (fun h => Kind.noConfusion h)
      (fun h => h.elim (fun h2 => Kind.noConfusion h2) (fun h2 => Kind.noConfusion h2))
      (fun h => Kind.noConfusion h)
      (fun h => Kind.noConfusion h)
      (fun h => Kind.noConfusion h)
      (fun h => Kind.noConfusion h)
      (fun h => Kind.noConfusion h)
  exact ⟨hal, _, _, rfl, rfl,
    c7_verdict_symmetry {} (vInt 3) (vInt 4) [] 5 hal (by simp [vInt, sizeV]) _ _ rfl rfl⟩

end Compare
